import Mathlib

/-!
# Explainit-to-me: the `ExplainEngine` component

A shallow embedding of `src/components/ExplainEngine.jsx`:

* a small backtracking matcher with the ECMAScript behaviour of the regular
  expressions the component uses (greedy and lazy repetition, capture groups,
  multiline `^` and `$`, global replacement),
* `formatMarkdown`, the ordered chain of `String.prototype.replace` calls,
* the component state (`isLoading`, `output`, `error`, the slider level and the
  textarea) with `handleExplain` and `handleClear` as sequences of setter calls.

JavaScript strings are modelled as lists of characters.  None of the patterns
carries the `u` flag, but every literal in them is a BMP character and every
pattern consumes at least one character, so matching by code point and by code
unit agree.
-/

namespace ExplainEngine

/-! ## Strings -/

/-- JavaScript string values. -/
abbrev Str := List Char

/-- Line feed, written `\n` in the source. -/
def LF : Char := Char.ofNat 0x0A

/-- Grave accent, the delimiter of inline code. -/
def BT : Char := Char.ofNat 0x60

/-- Bullet, U+2022. -/
def BULLET : Char := Char.ofNat 0x2022

/-- ECMAScript `LineTerminator`: LF, CR, LS, PS. -/
def isLineTerminator (c : Char) : Bool :=
  c == Char.ofNat 0x0A || c == Char.ofNat 0x0D || c == Char.ofNat 0x2028 || c == Char.ofNat 0x2029

/-- ECMAScript `WhiteSpace`: TAB, VT, FF, SP, NBSP, ZWNBSP and category Zs. -/
def isWhiteSpace (c : Char) : Bool :=
  c == Char.ofNat 0x09 || c == Char.ofNat 0x0B || c == Char.ofNat 0x0C || c == Char.ofNat 0x20
    || c == Char.ofNat 0xA0 || c == Char.ofNat 0x1680
    || (0x2000 ≤ c.toNat && c.toNat ≤ 0x200A)
    || c == Char.ofNat 0x202F || c == Char.ofNat 0x205F || c == Char.ofNat 0x3000
    || c == Char.ofNat 0xFEFF

/-- The class `\s`, also the characters removed by `String.prototype.trim`. -/
def isSpace (c : Char) : Bool := isWhiteSpace c || isLineTerminator c

/-- The class `\d`. -/
def isDigit (c : Char) : Bool := decide (0x30 ≤ c.toNat) && decide (c.toNat ≤ 0x39)

/-- The method `String.prototype.trim`. -/
def trim (s : Str) : Str := ((s.dropWhile isSpace).reverse.dropWhile isSpace).reverse

/-- The method `String.prototype.split` with a one-character separator. -/
def split (sep : Char) : Str → List Str
  | [] => [[]]
  | c :: cs =>
    if c == sep then [] :: split sep cs
    else
      match split sep cs with
      | [] => [[c]]
      | x :: xs => (c :: x) :: xs

/-- The method `Array.prototype.join('')`. -/
def join (xs : List Str) : Str := xs.foldr (fun x acc => x ++ acc) []

/-- The method `String.prototype.startsWith`. -/
def startsWith (s p : Str) : Bool := p.isPrefixOf s

/-- Truthiness of a string value: the empty string is falsy. -/
def truthy (s : Str) : Bool := !s.isEmpty

/-- Truthiness of a possibly `undefined` string value. -/
def truthy? : Option Str → Bool
  | none => false
  | some s => truthy s

/-- Indexed filter, `xs.filter((_, i) => p(i))`, counting from `i`. -/
def filterIdx {α : Type} (p : Nat → Bool) : Nat → List α → List α
  | _, [] => []
  | i, x :: xs => if p i then x :: filterIdx p (i + 1) xs else filterIdx p (i + 1) xs

/-! ## Regular expressions -/

/-- Abstract syntax of the patterns used by the component. -/
inductive Regex where
  | eps : Regex
  | char (p : Char → Bool) : Regex
  | bol : Regex
  | eol : Regex
  | seq (a b : Regex) : Regex
  | alt (a b : Regex) : Regex
  | star (greedy : Bool) (r : Regex) : Regex
  | group (i : Nat) (r : Regex) : Regex

/-- Matcher state: the character before the current position (for `^`), the
input still to be read, and the capture groups. -/
structure MState where
  prev : Option Char
  rest : Str
  caps : List Str

/-- The first alternative that succeeds. -/
def first {α : Type} (a b : Option α) : Option α :=
  match a with
  | some x => some x
  | none => b

/-- Matcher continuations. -/
abbrev Cont := MState → Option MState

/-- Repetition `r*` (greedy) or `r*?` (lazy).  An iteration that consumes
nothing is rejected, as in ECMAScript's `RepeatMatcher`; the counter bounds the
number of iterations by the length of the input, which is never reached. -/
def starLoop (step : Cont → Cont) (greedy : Bool) (k : Cont) : Nat → Cont
  | 0, _ => none
  | fuel + 1, st =>
    let again := step (fun st' =>
      if st'.rest.length < st.rest.length then starLoop step greedy k fuel st' else none) st
    if greedy then first again (k st) else first (k st) again

/-- Backtracking matcher in continuation-passing style.  `bol` and `eol` are
`^` and `$` under the `m` flag. -/
def Regex.run : Regex → Cont → Cont
  | .eps, k, st => k st
  | .char p, k, st =>
    match st.rest with
    | [] => none
    | c :: cs => if p c then k { st with prev := some c, rest := cs } else none
  | .bol, k, st =>
    match st.prev with
    | none => k st
    | some c => if isLineTerminator c then k st else none
  | .eol, k, st =>
    match st.rest with
    | [] => k st
    | c :: _ => if isLineTerminator c then k st else none
  | .seq a b, k, st => a.run (b.run k) st
  | .alt a b, k, st => first (a.run k st) (b.run k st)
  | .star g r, k, st => starLoop r.run g k (st.rest.length + 1) st
  | .group i r, k, st =>
    r.run (fun st' => k { st' with
      caps := st'.caps.set (i - 1) (st.rest.take (st.rest.length - st'.rest.length)) }) st

/-- Concatenation of a list of patterns. -/
def Regex.seqs : List Regex → Regex
  | [] => .eps
  | [r] => r
  | r :: rs => .seq r (Regex.seqs rs)

/-- One or more: `r+`. -/
def Regex.plus (r : Regex) : Regex := .seq r (.star true r)

/-- A literal character. -/
def Regex.chr (c : Char) : Regex := .char (fun x => x == c)

/-- The wildcard `.`, which excludes line terminators. -/
def Regex.dot : Regex := .char (fun x => !isLineTerminator x)

/-- One match attempt at a fixed position. -/
def exec (r : Regex) (ngroups : Nat) (prev : Option Char) (s : Str) : Option MState :=
  r.run some { prev := prev, rest := s, caps := List.replicate ngroups [] }

/-- Nth capture group, `$n`; a group that did not take part reads as empty. -/
def cap (caps : List Str) (n : Nat) : Str := caps.getD (n - 1) []

/-- Global replacement, scanning left to right.  `skip` counts the characters
of the last match still to be passed over; after an empty match the scan
moves on by one character. -/
def replaceGo (r : Regex) (ngroups : Nat) (repl : Str → List Str → Str) :
    Option Char → Str → Nat → Str
  | prev, [], _ =>
    match exec r ngroups prev [] with
    | none => []
    | some st => repl [] st.caps
  | _, c :: cs, skip + 1 => replaceGo r ngroups repl (some c) cs skip
  | prev, c :: cs, 0 =>
    match exec r ngroups prev (c :: cs) with
    | none => c :: replaceGo r ngroups repl (some c) cs 0
    | some st =>
      let n := (c :: cs).length - st.rest.length
      repl ((c :: cs).take n) st.caps ++
        (if n = 0 then c :: replaceGo r ngroups repl (some c) cs 0
         else replaceGo r ngroups repl (some c) cs (n - 1))

/-- The method `String.prototype.replace` with a global pattern; `repl` receives the
matched text and the capture groups. -/
def replaceAll (r : Regex) (ngroups : Nat) (repl : Str → List Str → Str) (s : Str) : Str :=
  replaceGo r ngroups repl none s 0

/-! ## formatMarkdown -/

/-- Pattern `/\|(.+)\|\n\|(?:[-:]+\|)+\n((?:\|.*\|\n)+)/g`. -/
def tableRegex : Regex :=
  .seqs [.chr '|', .group 1 (.plus .dot), .chr '|', .chr LF,
    .chr '|', .plus (.seq (.plus (.char (fun c => c == '-' || c == ':'))) (.chr '|')), .chr LF,
    .group 2 (.plus (.seqs [.chr '|', .star true .dot, .chr '|', .chr LF]))]

/-- Pattern `/^[\s]*[-*]\s+(.*$)/gm`. -/
def unorderedRegex : Regex :=
  .seqs [.bol, .star true (.char isSpace), .char (fun c => c == '-' || c == '*'),
    .plus (.char isSpace), .group 1 (.seq (.star true .dot) .eol)]

/-- Pattern `/^(\d+\.\s+)(.*$)/gm`. -/
def orderedRegex : Regex :=
  .seqs [.bol, .group 1 (.seqs [.plus (.char isDigit), .chr '.', .plus (.char isSpace)]),
    .group 2 (.seq (.star true .dot) .eol)]

/-- Pattern `/^(•|\d+\.)\s+(.*)$/gm`. -/
def listItemRegex : Regex :=
  .seqs [.bol, .group 1 (.alt (.chr BULLET) (.seq (.plus (.char isDigit)) (.chr '.'))),
    .plus (.char isSpace), .group 2 (.star true .dot), .eol]

/-- Pattern `/\*\*(.*?)\*\*/g`. -/
def boldRegex : Regex :=
  .seqs [.chr '*', .chr '*', .group 1 (.star false .dot), .chr '*', .chr '*']

/-- Pattern `/\*(.*?)\*/g`. -/
def italicRegex : Regex :=
  .seqs [.chr '*', .group 1 (.star false .dot), .chr '*']

/-- Pattern for inline code: a grave accent, `([^…]+)` over every other
character, a grave accent; flag `g`. -/
def codeRegex : Regex :=
  .seqs [.chr BT, .group 1 (.plus (.char (fun c => !(c == BT)))), .chr BT]

/-- Pattern `/^### (.*$)/gm`. -/
def h3Regex : Regex :=
  .seqs [.bol, .chr '#', .chr '#', .chr '#', .chr ' ', .group 1 (.seq (.star true .dot) .eol)]

/-- Pattern `/^## (.*$)/gm`. -/
def h2Regex : Regex :=
  .seqs [.bol, .chr '#', .chr '#', .chr ' ', .group 1 (.seq (.star true .dot) .eol)]

/-- Pattern `/^# (.*$)/gm`. -/
def h1Regex : Regex :=
  .seqs [.bol, .chr '#', .chr ' ', .group 1 (.seq (.star true .dot) .eol)]

/-- Pattern `/\n\n/g`. -/
def paragraphRegex : Regex := .seq (.chr LF) (.chr LF)

/-- Indentation inside the table template literal. -/
def sp (n : Nat) : Str := List.replicate n ' '

/-- Header cells: `header.split('|').map(h => h.trim()).filter(Boolean)`. -/
def headers (header : Str) : List Str :=
  ((split '|' header).map trim).filter truthy

/-- Body cells: `rows.trim().split('\n').map(row => row.split('|').map(cell =>
cell.trim()).filter((_, i) => i > 0 && i < headers.length + 1))`. -/
def rowData (hs : List Str) (rows : Str) : List (List Str) :=
  (split LF (trim rows)).map (fun row =>
    filterIdx (fun i => decide (i > 0) && decide (i < hs.length + 1)) 0 ((split '|' row).map trim))

/-- One `<th>` element. -/
def thCell (h : Str) : Str :=
  "<th class=\"px-4 py-2 text-left border-b border-gray-600\">".toList ++ h ++ "</th>".toList

/-- One `<td>` element. -/
def tdCell (cell : Str) : Str :=
  "<td class=\"px-4 py-2\">".toList ++ cell ++ "</td>".toList

/-- One `<tr>` of the table body, with the template literal's whitespace. -/
def bodyRow (row : List Str) : Str :=
  [LF] ++ sp 32 ++ "<tr class=\"border-b border-gray-700\">".toList ++ [LF]
    ++ sp 36 ++ join (row.map tdCell) ++ [LF]
    ++ sp 32 ++ "</tr>".toList ++ [LF]
    ++ sp 28

/-- The template literal returned by the table callback. -/
def tableMarkup (hs : List Str) (rs : List (List Str)) : Str :=
  [LF] ++ sp 16 ++ "<div class=\"overflow-x-auto my-4\">".toList ++ [LF]
    ++ sp 20 ++ "<table class=\"min-w-full border border-gray-600\">".toList ++ [LF]
    ++ sp 24 ++ "<thead>".toList ++ [LF]
    ++ sp 28 ++ "<tr class=\"bg-gray-700\">".toList ++ [LF]
    ++ sp 32 ++ join (hs.map thCell) ++ [LF]
    ++ sp 28 ++ "</tr>".toList ++ [LF]
    ++ sp 24 ++ "</thead>".toList ++ [LF]
    ++ sp 24 ++ "<tbody>".toList ++ [LF]
    ++ sp 28 ++ join (rs.map bodyRow) ++ [LF]
    ++ sp 24 ++ "</tbody>".toList ++ [LF]
    ++ sp 20 ++ "</table>".toList ++ [LF]
    ++ sp 16 ++ "</div>".toList ++ [LF]
    ++ sp 12

/-- The replace callback `(match, header, rows) => …` of the table rule. -/
def tableReplacer (_m : Str) (caps : List Str) : Str :=
  let hs := headers (cap caps 1)
  tableMarkup hs (rowData hs (cap caps 2))

/-- Opening tag of a list row, up to the marker slot. -/
def listRowOpen : Str := "<div class=\"flex items-start mb-1\"><span class=\"mr-2\">".toList

/-- Markup between the marker slot and the text slot of a list row. -/
def listRowMid : Str := "</span><span>".toList

/-- Closing markup of a list row. -/
def listRowClose : Str := "</span></div>".toList

/-- Opening tag of a third-level heading. -/
def h3Open : Str := "<h3 class=\"text-xl font-bold mt-6 mb-2 text-blue-300\">".toList

/-- Opening tag of a second-level heading. -/
def h2Open : Str := "<h2 class=\"text-2xl font-bold mt-8 mb-3 text-blue-200\">".toList

/-- Opening tag of a top-level heading. -/
def h1Open : Str := "<h1 class=\"text-3xl font-bold mt-10 mb-4 text-blue-100\">".toList

/-- Opening tag of the paragraph container. -/
def pOpen : Str := "<p class=\"my-3\">".toList

/-- Closing tag of the paragraph container. -/
def pClose : Str := "</p>".toList

/-- Rule 1, tables. -/
def ruleTable (s : Str) : Str := replaceAll tableRegex 2 tableReplacer s

/-- Rule 2, unordered list items: replacement `'• $1'`. -/
def ruleUnordered (s : Str) : Str :=
  replaceAll unorderedRegex 1 (fun _ caps => [BULLET, ' '] ++ cap caps 1) s

/-- Rule 3, ordered list items: replacement `'$1$2'`. -/
def ruleOrdered (s : Str) : Str :=
  replaceAll orderedRegex 2 (fun _ caps => cap caps 1 ++ cap caps 2) s

/-- Rule 4, list rows. -/
def ruleListItem (s : Str) : Str :=
  replaceAll listItemRegex 2
    (fun _ caps => listRowOpen ++ cap caps 1 ++ listRowMid ++ cap caps 2 ++ listRowClose) s

/-- Rule 5, bold. -/
def ruleBold (s : Str) : Str :=
  replaceAll boldRegex 1 (fun _ caps => "<strong>".toList ++ cap caps 1 ++ "</strong>".toList) s

/-- Rule 6, italic. -/
def ruleItalic (s : Str) : Str :=
  replaceAll italicRegex 1 (fun _ caps => "<em>".toList ++ cap caps 1 ++ "</em>".toList) s

/-- Rule 7, inline code. -/
def ruleCode (s : Str) : Str :=
  replaceAll codeRegex 1
    (fun _ caps => "<code class=\"font-mono text-gray-300\">".toList ++ cap caps 1
      ++ "</code>".toList) s

/-- Rule 8a, third-level headings. -/
def ruleH3 (s : Str) : Str :=
  replaceAll h3Regex 1 (fun _ caps => h3Open ++ cap caps 1 ++ "</h3>".toList) s

/-- Rule 8b, second-level headings. -/
def ruleH2 (s : Str) : Str :=
  replaceAll h2Regex 1 (fun _ caps => h2Open ++ cap caps 1 ++ "</h2>".toList) s

/-- Rule 8c, top-level headings. -/
def ruleH1 (s : Str) : Str :=
  replaceAll h1Regex 1 (fun _ caps => h1Open ++ cap caps 1 ++ "</h1>".toList) s

/-- Rule 9, paragraph breaks. -/
def ruleParagraph (s : Str) : Str :=
  replaceAll paragraphRegex 0 (fun _ _ => pClose ++ pOpen) s

/-- Rule 10, wrapping: `if (!formattedText.startsWith('<'))`. -/
def wrap (s : Str) : Str :=
  if startsWith s ['<'] then s else pOpen ++ s ++ pClose

/-- The formatter: the rewrites in source order. -/
def formatMarkdown (text : Str) : Str :=
  let formattedText := ruleTable text
  let formattedText := ruleUnordered formattedText
  let formattedText := ruleOrdered formattedText
  let formattedText := ruleListItem formattedText
  let formattedText := ruleBold formattedText
  let formattedText := ruleItalic formattedText
  let formattedText := ruleCode formattedText
  let formattedText := ruleH1 (ruleH2 (ruleH3 formattedText))
  let formattedText := ruleParagraph formattedText
  wrap formattedText

/-! ## Component state and handlers -/

/-- Entry of the `levels` array. -/
structure Level where
  value : Nat
  label : Str
  prompt : Str

/-- The five explanation levels. -/
def levels : List Level :=
  [ ⟨0, "Child".toList,
      "Explain this to me like I'm 5 years old. Use simple words and concepts.".toList⟩,
    ⟨1, "Simple".toList, "Explain this in simple terms that anyone can understand.".toList⟩,
    ⟨2, "Detailed".toList, "Provide a detailed explanation of this concept.".toList⟩,
    ⟨3, "Academic".toList,
      "Give me an academic explanation with proper terminology and context.".toList⟩,
    ⟨4, "Expert".toList,
      "Provide an expert-level explanation with advanced concepts and details.".toList⟩ ]

/-- Lookup `levels[level]`; the slider keeps `level` within 0..4. -/
def levelAt (level : Fin 5) : Level := levels.getD level.val ⟨0, [], []⟩

/-- React state of the component, with the value of the textarea behind
`textareaRef` (`none` while the ref is not attached). -/
structure State where
  level : Fin 5
  isLoading : Bool
  output : Str
  error : Str
  textarea : Option Str
  deriving DecidableEq

/-- State after mount: `useState(2)`, `useState(false)`, `useState('')` twice. -/
def initialState : State :=
  { level := 2, isLoading := false, output := [], error := [], textarea := some [] }

/-- One entry of `messages` in the request body. -/
structure Message where
  role : Str
  content : Str

/-- The `fetch` call issued by `handleExplain`. -/
structure Request where
  url : Str
  method : Str
  contentType : Str
  authorization : Str
  model : Str
  messages : List Message
  temperature : ℚ
  max_tokens : Nat

/-- Observable actions of the handlers, in program order. -/
inductive Effect where
  | setError (s : Str)
  | setIsLoading (b : Bool)
  | setOutput (s : Str)
  | fetch (req : Request)
  | consoleError (message : Str)
  | clearTextarea

/-- Effect of one action on the state. -/
def applyEffect (st : State) : Effect → State
  | .setError s => { st with error := s }
  | .setIsLoading b => { st with isLoading := b }
  | .setOutput s => { st with output := s }
  | .fetch _ => st
  | .consoleError _ => st
  | .clearTextarea => { st with textarea := st.textarea.map (fun _ => []) }

/-- State after a sequence of actions. -/
def runEffects (effs : List Effect) (st : State) : State := effs.foldl applyEffect st

/-- How the awaited `fetch` and `response.json()` settle. -/
inductive FetchOutcome where
  | threw (message : Str)
  | notOk (errorMessage : Option Str)
  | ok (content : Option Str)

/-- Message shown for empty input. -/
def emptyInputMessage : Str := "Please enter some text to explain.".toList

/-- Message shown when the credential is missing. -/
def missingKeyMessage : Str :=
  "Please set your Groq API key in the .env file as VITE_GROQ_API_KEY".toList

/-- Placeholder shown while the request is in flight. -/
def generatingMarkup : Str := "<p class=\"text-blue-400\">Generating explanation...</p>".toList

/-- Fixed opening of the system message. -/
def systemPreamble : Str :=
  "You are a helpful AI assistant that explains complex topics in simple terms. ".toList

/-- The request built from the credential, the level and the trimmed text. -/
def buildRequest (apiKey : Str) (level : Fin 5) (textToExplain : Str) : Request :=
  { url := "https://api.groq.com/openai/v1/chat/completions".toList
    method := "POST".toList
    contentType := "application/json".toList
    authorization := "Bearer ".toList ++ apiKey
    model := "openai/gpt-oss-20b".toList
    messages :=
      [ { role := "system".toList, content := systemPreamble ++ (levelAt level).prompt },
        { role := "user".toList, content := textToExplain } ]
    temperature := 7 / 10
    max_tokens := 4096 }

/-- The part of `handleExplain` before the `await`: the two guards, then the
loading state and the request. -/
def handleExplainStart (apiKey : Option Str) (st : State) : List Effect :=
  let textToExplain := st.textarea.map trim
  if !truthy? textToExplain then [.setError emptyInputMessage]
  else if !truthy? apiKey then [.setError missingKeyMessage]
  else
    [ .setIsLoading true, .setError [], .setOutput generatingMarkup,
      .fetch (buildRequest (apiKey.getD []) st.level (textToExplain.getD [])) ]

/-- The `catch` block followed by `finally`. -/
def catchBlock (message : Str) : List Effect :=
  [ .consoleError message,
    .setError ("Error: ".toList ++ message ++ ". Please try again.".toList),
    .setOutput [], .setIsLoading false ]

/-- The part of `handleExplain` after the `await`. -/
def handleExplainSettle : FetchOutcome → List Effect
  | .threw message => catchBlock message
  | .notOk errorMessage =>
    catchBlock (if truthy? errorMessage then errorMessage.getD []
      else "Failed to get explanation".toList)
  | .ok content =>
    [ .setOutput (formatMarkdown (if truthy? content then content.getD []
        else "No explanation was generated.".toList)),
      .setIsLoading false ]

/-- Whether a sequence of actions contains a network call. -/
def issuesFetch (effs : List Effect) : Bool :=
  effs.any (fun e => match e with
    | .fetch _ => true
    | _ => false)

/-- One run of `handleExplain`, given how the request settles. -/
def handleExplain (apiKey : Option Str) (outcome : FetchOutcome) (st : State) : List Effect :=
  let start := handleExplainStart apiKey st
  if issuesFetch start then start ++ handleExplainSettle outcome else start

/-- The click handler of the Clear button. -/
def handleClear : List Effect := [.clearTextarea, .setOutput [], .setError []]

/-- Steps of the component.  The textarea, the slider and both buttons carry
`disabled={isLoading}`; a response arrives only while a request is in flight. -/
inductive Step (apiKey : Option Str) : State → State → Prop
  | edit (st : State) (v : Str) :
      st.isLoading = false → Step apiKey st { st with textarea := some v }
  | slide (st : State) (l : Fin 5) :
      st.isLoading = false → Step apiKey st { st with level := l }
  | explain (st : State) :
      st.isLoading = false → Step apiKey st (runEffects (handleExplainStart apiKey st) st)
  | settle (st : State) (o : FetchOutcome) :
      st.isLoading = true → Step apiKey st (runEffects (handleExplainSettle o) st)
  | clear (st : State) :
      st.isLoading = false → Step apiKey st (runEffects handleClear st)

/-- States the component can be in. -/
inductive Reachable (apiKey : Option Str) : State → Prop
  | init : Reachable apiKey initialState
  | step {s t : State} : Reachable apiKey s → Step apiKey s t → Reachable apiKey t

/-! ## Vocabulary of the proofs -/

/-- Character before the position reached after reading `xs`. -/
def adv (prev : Option Char) : Str → Option Char
  | [] => prev
  | x :: xs => adv (some x) xs

/-- Declarative reading of a pattern: `Matches r s t` when `r` can take the
matcher from state `s` to state `t`. -/
inductive Matches : Regex → MState → MState → Prop
  | eps (st : MState) : Matches .eps st st
  | char (p : Char → Bool) (pv : Option Char) (c : Char) (cs : Str) (caps : List Str) :
      p c = true → Matches (.char p) ⟨pv, c :: cs, caps⟩ ⟨some c, cs, caps⟩
  | bol (st : MState) :
      (st.prev = none ∨ ∃ c, st.prev = some c ∧ isLineTerminator c = true) → Matches .bol st st
  | eol (st : MState) :
      (st.rest = [] ∨ ∃ c cs, st.rest = c :: cs ∧ isLineTerminator c = true) →
      Matches .eol st st
  | seq {a b : Regex} {s1 s2 s3 : MState} :
      Matches a s1 s2 → Matches b s2 s3 → Matches (.seq a b) s1 s3
  | altL {a : Regex} (b : Regex) {s t : MState} : Matches a s t → Matches (.alt a b) s t
  | altR (a : Regex) {b : Regex} {s t : MState} : Matches b s t → Matches (.alt a b) s t
  | starNil (g : Bool) (r : Regex) (st : MState) : Matches (.star g r) st st
  | starCons {g : Bool} {r : Regex} {s1 s2 s3 : MState} :
      Matches r s1 s2 → Matches (.star g r) s2 s3 → Matches (.star g r) s1 s3
  | group (i : Nat) {r : Regex} {s t : MState} :
      Matches r s t →
      Matches (.group i r) s
        { t with caps := t.caps.set (i - 1) (s.rest.take (s.rest.length - t.rest.length)) }

/-- Pattern `r` cannot match without reading a character that satisfies `P`. -/
def Regex.Needs (P : Char → Prop) : Regex → Prop
  | .char p => ∀ c, p c = true → P c
  | .seq a b => a.Needs P ∨ b.Needs P
  | .alt a b => a.Needs P ∧ b.Needs P
  | .group _ r => r.Needs P
  | _ => False

/-- Pattern `r` takes `s` to `t` on the first path the matcher tries whose
continuation succeeds. -/
def Reaches (r : Regex) (s t : MState) : Prop :=
  ∀ (k : Cont) (out : MState), k t = some out → r.run k s = some out

/-- Text without line terminators. -/
def SingleLine (s : Str) : Prop := ∀ c ∈ s, isLineTerminator c = false

/-- Single-line text without asterisks and grave accents: rules 5 to 7 and 9
find nothing to match in it. -/
def Inert (s : Str) : Prop := ∀ c ∈ s, isLineTerminator c = false ∧ c ≠ '*' ∧ c ≠ BT

/-- Inductive invariant of the component. -/
def Inv (apiKey : Option Str) (st : State) : Prop :=
  (st.isLoading = true → st.error = [])
    ∧ (st.error ≠ [] → st.error ≠ emptyInputMessage → st.output = [])
    ∧ (truthy? apiKey = false → st.output = [] ∧ st.isLoading = false)

/-- State reached by explaining `x`, receiving `hi`, emptying the textarea and
pressing Explain again. -/
def staleState : State :=
  { level := 2, isLoading := false, output := "<p class=\"my-3\">hi</p>".toList,
    error := emptyInputMessage, textarea := some [] }

/-- Text in which `**` occurs once and no other asterisk occurs. -/
def OneBold (s : Str) : Prop := ∃ a b, s = a ++ '*' :: '*' :: b ∧ '*' ∉ a ∧ '*' ∉ b

/-- The method `Array.prototype.join(sep)` with a one-character separator. -/
def joinWith (sep : Char) : List Str → Str
  | [] => []
  | [x] => x
  | x :: xs => x ++ sep :: joinWith sep xs

/-- One line of a table: the cells between pipes, closed by a line feed. -/
def tableLine (cells : List Str) : Str := '|' :: joinWith '|' cells ++ ['|', LF]

/-- Text of a table: header line, separator line, data lines. -/
def tableText (hs seps : List Str) (rows : List (List Str)) : Str :=
  tableLine hs ++ tableLine seps ++ join (rows.map tableLine)

/-- Cell text of a table line: single-line, without pipe. -/
def TableCell (c : Str) : Prop := '|' ∉ c ∧ SingleLine c

/-- Lines, each preceded by a line feed. -/
def unl (ls : List Str) : Str := join (ls.map (fun l => LF :: l))

/-- Line of markup: indentation, then nothing or a tag followed by inert text. -/
def MarkupLine (l : Str) : Prop :=
  ∃ n body, l = sp (n + 1) ++ body ∧ Inert body ∧ ∀ c ∈ body.head?, c = '<'

/-- Pattern `r` cannot match unless the next character satisfies `q`. -/
def Regex.Starts (q : Char → Prop) : Regex → Prop
  | .char p => ∀ c, p c = true → q c
  | .seq a _ => a.Starts q
  | .alt a b => a.Starts q ∧ b.Starts q
  | .group _ r => r.Starts q
  | _ => False

/-- The first character of `zs` that is not whitespace, if any, opens a tag. -/
def Good (zs : Str) : Prop := ∀ c ∈ (zs.dropWhile isSpace).head?, c = '<'

/-- The separator cell pattern `[-:]+\|`. -/
def sepCellRegex : Regex :=
  .seq (Regex.plus (.char (fun c => c == '-' || c == ':'))) (.chr '|')

/-- The data line pattern `\|.*\|\n`. -/
def rowRegex : Regex := .seqs [.chr '|', .star true .dot, .chr '|', .chr LF]

/-- Lines of one body row of the table template. -/
def rowLines (row : List Str) : List Str :=
  [ sp 32 ++ "<tr class=\"border-b border-gray-700\">".toList,
    sp 36 ++ join (row.map tdCell),
    sp 32 ++ "</tr>".toList,
    sp 28 ]

/-- Lines of the table template. -/
def markupLines (hs : List Str) (rs : List (List Str)) : List Str :=
  [ sp 16 ++ "<div class=\"overflow-x-auto my-4\">".toList,
    sp 20 ++ "<table class=\"min-w-full border border-gray-600\">".toList,
    sp 24 ++ "<thead>".toList,
    sp 28 ++ "<tr class=\"bg-gray-700\">".toList,
    sp 32 ++ join (hs.map thCell),
    sp 28 ++ "</tr>".toList,
    sp 24 ++ "</thead>".toList,
    sp 24 ++ "<tbody>".toList,
    sp 28 ]
    ++ (rs.map rowLines).flatten
    ++ [ sp 24 ++ "</tbody>".toList,
         sp 20 ++ "</table>".toList,
         sp 16 ++ "</div>".toList,
         sp 12 ]

/-- Number of positions of `s` at which `pat` begins. -/
def countOcc (pat : Str) : Str → Nat
  | [] => 0
  | c :: cs => (if pat.isPrefixOf (c :: cs) then 1 else 0) + countOcc pat cs

/-- Output for the two-by-two table with cells `A`, `B`, `1`, `2`, `3`, `4`. -/
def twoByTwoMarkup : Str :=
  ("<p class=\"my-3\">\n" ++
      "                <div class=\"overflow-x-auto my-4\">\n" ++
      "                    <table class=\"min-w-full border border-gray-600\">\n" ++
      "                        <thead>\n" ++
      "                            <tr class=\"bg-gray-700\">\n" ++
      "                                <th class=\"px-4 py-2 text-left border-b border-gray-600\">A</th><th class=\"px-4 py-2 text-left border-b border-gray-600\">B</th>\n" ++
      "                            </tr>\n" ++
      "                        </thead>\n" ++
      "                        <tbody>\n" ++
      "                            \n" ++
      "                                <tr class=\"border-b border-gray-700\">\n" ++
      "                                    <td class=\"px-4 py-2\">1</td><td class=\"px-4 py-2\">2</td>\n" ++
      "                                </tr>\n" ++
      "                            \n" ++
      "                                <tr class=\"border-b border-gray-700\">\n" ++
      "                                    <td class=\"px-4 py-2\">3</td><td class=\"px-4 py-2\">4</td>\n" ++
      "                                </tr>\n" ++
      "                            \n" ++
      "                        </tbody>\n" ++
      "                    </table>\n" ++
      "                </div>\n" ++
      "            </p>").toList

/-! ## Matcher lemmas -/

@[simp] theorem first_none_left {α : Type} (b : Option α) : first none b = b := rfl

@[simp] theorem first_some {α : Type} (x : α) (b : Option α) : first (some x) b = some x := rfl

@[simp] theorem first_none_right {α : Type} (a : Option α) : first a none = a := by
  cases a <;> rfl

theorem first_eq_some {α : Type} {a b : Option α} {x : α} (h : first a b = some x) :
    a = some x ∨ (a = none ∧ b = some x) := by
  cases a with
  | none => right; exact ⟨rfl, h⟩
  | some y => left; exact h

@[simp] theorem run_eps (k : Cont) (st : MState) : Regex.eps.run k st = k st := rfl

@[simp] theorem run_char_nil (p : Char → Bool) (k : Cont) (pv : Option Char) (caps : List Str) :
    (Regex.char p).run k ⟨pv, [], caps⟩ = none := rfl

@[simp] theorem run_char_cons (p : Char → Bool) (k : Cont) (pv : Option Char) (c : Char)
    (cs : Str) (caps : List Str) :
    (Regex.char p).run k ⟨pv, c :: cs, caps⟩ = if p c then k ⟨some c, cs, caps⟩ else none := rfl

@[simp] theorem run_bol_none (k : Cont) (s : Str) (caps : List Str) :
    Regex.bol.run k ⟨none, s, caps⟩ = k ⟨none, s, caps⟩ := rfl

@[simp] theorem run_bol_some (k : Cont) (c : Char) (s : Str) (caps : List Str) :
    Regex.bol.run k ⟨some c, s, caps⟩ = if isLineTerminator c then k ⟨some c, s, caps⟩ else none :=
  rfl

@[simp] theorem run_eol_nil (k : Cont) (pv : Option Char) (caps : List Str) :
    Regex.eol.run k ⟨pv, [], caps⟩ = k ⟨pv, [], caps⟩ := rfl

@[simp] theorem run_eol_cons (k : Cont) (pv : Option Char) (c : Char) (cs : Str)
    (caps : List Str) :
    Regex.eol.run k ⟨pv, c :: cs, caps⟩
      = if isLineTerminator c then k ⟨pv, c :: cs, caps⟩ else none := rfl

@[simp] theorem run_seq (a b : Regex) (k : Cont) (st : MState) :
    (Regex.seq a b).run k st = a.run (b.run k) st := rfl

@[simp] theorem run_alt (a b : Regex) (k : Cont) (st : MState) :
    (Regex.alt a b).run k st = first (a.run k st) (b.run k st) := rfl

@[simp] theorem run_group (i : Nat) (r : Regex) (k : Cont) (st : MState) :
    (Regex.group i r).run k st
      = r.run (fun st' => k { st' with
          caps := st'.caps.set (i - 1) (st.rest.take (st.rest.length - st'.rest.length)) }) st :=
  rfl

theorem run_star_def (g : Bool) (r : Regex) (k : Cont) (st : MState) :
    (Regex.star g r).run k st = starLoop r.run g k (st.rest.length + 1) st := rfl

/-- The iteration counter is irrelevant once it exceeds the input length. -/
theorem starLoop_fuel (step : Cont → Cont) (g : Bool) (k : Cont) :
    ∀ (fuel : Nat) (st : MState), st.rest.length + 1 ≤ fuel →
      starLoop step g k fuel st = starLoop step g k (st.rest.length + 1) st := by
  intro fuel
  induction fuel using Nat.strong_induction_on with
  | _ fuel ih =>
    intro st hle
    cases fuel with
    | zero => omega
    | succ f =>
      have hfun : (fun st' : MState =>
            if st'.rest.length < st.rest.length then starLoop step g k f st' else none)
          = (fun st' : MState =>
            if st'.rest.length < st.rest.length then starLoop step g k st.rest.length st'
            else none) := by
        funext st'
        by_cases hlt : st'.rest.length < st.rest.length
        · simp only [hlt, if_true]
          rw [ih f (Nat.lt_succ_self f) st' (by omega)]
          by_cases hf : st.rest.length = f
          · subst hf
            rw [ih _ (Nat.lt_succ_self _) st' (by omega)]
          · rw [ih st.rest.length (by omega) st' (by omega)]
        · simp only [hlt, if_false]
      simp only [starLoop, hfun]

/-- Unfolding of a repetition, free of the iteration counter. -/
theorem run_star (g : Bool) (r : Regex) (k : Cont) (st : MState) :
    (Regex.star g r).run k st
      = if g then
          first (r.run (fun st' =>
            if st'.rest.length < st.rest.length then (Regex.star g r).run k st' else none) st)
            (k st)
        else
          first (k st) (r.run (fun st' =>
            if st'.rest.length < st.rest.length then (Regex.star g r).run k st' else none) st) := by
  have hfun : (fun st' : MState =>
        if st'.rest.length < st.rest.length then (Regex.star g r).run k st' else none)
      = (fun st' : MState =>
        if st'.rest.length < st.rest.length then starLoop r.run g k st.rest.length st'
        else none) := by
    funext st'
    by_cases hlt : st'.rest.length < st.rest.length
    · simp only [hlt, if_true, run_star_def]
      rw [starLoop_fuel r.run g k st.rest.length st' (by omega)]
    · simp only [hlt, if_false]
  rw [hfun, run_star_def]
  simp only [starLoop]

@[simp] theorem run_star_char_nil (g : Bool) (p : Char → Bool) (k : Cont) (pv : Option Char)
    (caps : List Str) :
    (Regex.star g (.char p)).run k ⟨pv, [], caps⟩ = k ⟨pv, [], caps⟩ := by
  rw [run_star]; cases g <;> simp

theorem run_star_char_cons (g : Bool) (p : Char → Bool) (k : Cont) (pv : Option Char)
    (c : Char) (cs : Str) (caps : List Str) :
    (Regex.star g (.char p)).run k ⟨pv, c :: cs, caps⟩
      = if p c then
          (if g then first ((Regex.star g (.char p)).run k ⟨some c, cs, caps⟩)
              (k ⟨pv, c :: cs, caps⟩)
           else first (k ⟨pv, c :: cs, caps⟩)
              ((Regex.star g (.char p)).run k ⟨some c, cs, caps⟩))
        else k ⟨pv, c :: cs, caps⟩ := by
  rw [run_star]
  by_cases hp : p c <;> cases g <;> simp [hp]

/-! ## Declarative matching and soundness of the matcher -/

@[simp] theorem adv_nil (pv : Option Char) : adv pv [] = pv := rfl

@[simp] theorem adv_cons (pv : Option Char) (x : Char) (xs : Str) :
    adv pv (x :: xs) = adv (some x) xs := rfl

theorem adv_append (pv : Option Char) (xs ys : Str) :
    adv pv (xs ++ ys) = adv (adv pv xs) ys := by
  induction xs generalizing pv with
  | nil => rfl
  | cons x xs ih => simp [ih]

theorem adv_eq_some_of_ne_nil (pv : Option Char) (xs : Str) (h : xs ≠ []) :
    ∃ c, c ∈ xs ∧ adv pv xs = some c := by
  induction xs generalizing pv with
  | nil => exact absurd rfl h
  | cons x xs ih =>
    cases xs with
    | nil => exact ⟨x, by simp, rfl⟩
    | cons y ys =>
      obtain ⟨c, hc, hadv⟩ := ih (some x) (by simp)
      exact ⟨c, List.mem_cons_of_mem _ hc, by simpa using hadv⟩

/-- Whatever the matcher returns was reached along a declarative match. -/
theorem run_sound (r : Regex) :
    ∀ (k : Cont) (st out : MState), r.run k st = some out →
      ∃ st', Matches r st st' ∧ k st' = some out := by
  induction r with
  | eps => intro k st out h; exact ⟨st, Matches.eps st, h⟩
  | char p =>
    intro k st out h
    obtain ⟨pv, rest, caps⟩ := st
    cases rest with
    | nil => simp at h
    | cons c cs =>
      by_cases hp : p c = true
      · simp [hp] at h
        exact ⟨_, Matches.char p pv c cs caps hp, h⟩
      · simp [hp] at h
  | bol =>
    intro k st out h
    obtain ⟨pv, rest, caps⟩ := st
    cases pv with
    | none => exact ⟨_, Matches.bol _ (Or.inl rfl), h⟩
    | some c =>
      by_cases hc : isLineTerminator c = true
      · simp [hc] at h
        exact ⟨_, Matches.bol _ (Or.inr ⟨c, rfl, hc⟩), h⟩
      · simp [hc] at h
  | eol =>
    intro k st out h
    obtain ⟨pv, rest, caps⟩ := st
    cases rest with
    | nil => exact ⟨_, Matches.eol _ (Or.inl rfl), h⟩
    | cons c cs =>
      by_cases hc : isLineTerminator c = true
      · simp [hc] at h
        exact ⟨_, Matches.eol _ (Or.inr ⟨c, cs, rfl, hc⟩), h⟩
      · simp [hc] at h
  | seq a b iha ihb =>
    intro k st out h
    obtain ⟨s2, h1, h2⟩ := iha _ _ _ (by simpa using h)
    obtain ⟨s3, h3, h4⟩ := ihb _ _ _ h2
    exact ⟨s3, Matches.seq h1 h3, h4⟩
  | alt a b iha ihb =>
    intro k st out h
    rcases first_eq_some (by simpa using h) with h1 | ⟨_, h2⟩
    · obtain ⟨t, ht, hk⟩ := iha _ _ _ h1
      exact ⟨t, Matches.altL b ht, hk⟩
    · obtain ⟨t, ht, hk⟩ := ihb _ _ _ h2
      exact ⟨t, Matches.altR a ht, hk⟩
  | star g r ih =>
    intro k
    have key : ∀ (n : Nat) (st out : MState), st.rest.length = n →
        (Regex.star g r).run k st = some out →
        ∃ st', Matches (.star g r) st st' ∧ k st' = some out := by
      intro n
      induction n using Nat.strong_induction_on with
      | _ n ihn =>
        intro st out hn h
        rw [run_star] at h
        have hcases : k st = some out ∨
            r.run (fun st' => if st'.rest.length < st.rest.length
              then (Regex.star g r).run k st' else none) st = some out := by
          cases g with
          | true =>
            simp only [if_true] at h
            rcases first_eq_some h with h1 | ⟨_, h2⟩
            · exact Or.inr h1
            · exact Or.inl h2
          | false =>
            simp only [Bool.false_eq_true, if_false] at h
            rcases first_eq_some h with h1 | ⟨_, h2⟩
            · exact Or.inl h1
            · exact Or.inr h2
        rcases hcases with hk | hstep
        · exact ⟨st, Matches.starNil g r st, hk⟩
        · obtain ⟨s2, hm, hc⟩ := ih _ _ _ hstep
          by_cases hlt : s2.rest.length < st.rest.length
          · simp only [hlt, if_true] at hc
            obtain ⟨s3, hm3, hk3⟩ := ihn s2.rest.length (by omega) s2 out rfl hc
            exact ⟨s3, Matches.starCons hm hm3, hk3⟩
          · simp [hlt] at hc
    intro st out h
    exact key _ st out rfl h
  | group i r ih =>
    intro k st out h
    obtain ⟨t, ht, hk⟩ := ih _ _ _ (by simpa using h)
    exact ⟨_, Matches.group i ht, hk⟩

/-- A match only moves forward: what is left is a suffix of what there was. -/
theorem matches_suffix {r : Regex} {s t : MState} (h : Matches r s t) :
    t.rest <:+ s.rest := by
  induction h with
  | eps st => exact List.suffix_refl _
  | char p pv c cs caps hp => exact List.suffix_cons c cs
  | bol st _ => exact List.suffix_refl _
  | eol st _ => exact List.suffix_refl _
  | seq _ _ ih1 ih2 => exact ih2.trans ih1
  | altL _ _ ih => exact ih
  | altR _ _ ih => exact ih
  | starNil g r st => exact List.suffix_refl _
  | starCons _ _ ih1 ih2 => exact ih2.trans ih1
  | group i _ ih => exact ih

theorem matches_needs {P : Char → Prop} {r : Regex} {s t : MState} (h : Matches r s t) :
    r.Needs P → ∃ c ∈ s.rest, P c := by
  induction h with
  | eps st => intro hn; exact absurd hn (by simp [Regex.Needs])
  | char p pv c cs caps hp =>
    intro hn
    exact ⟨c, by simp, hn c hp⟩
  | bol st _ => intro hn; exact absurd hn (by simp [Regex.Needs])
  | eol st _ => intro hn; exact absurd hn (by simp [Regex.Needs])
  | seq h1 h2 ih1 ih2 =>
    intro hn
    rcases hn with ha | hb
    · exact ih1 ha
    · obtain ⟨c, hc, hP⟩ := ih2 hb
      exact ⟨c, (matches_suffix h1).subset hc, hP⟩
  | altL _ _ ih => intro hn; exact ih hn.1
  | altR _ _ ih => intro hn; exact ih hn.2
  | starNil g r st => intro hn; exact absurd hn (by simp [Regex.Needs])
  | starCons _ _ _ _ => intro hn; exact absurd hn (by simp [Regex.Needs])
  | group i _ ih => intro hn; exact ih hn

theorem exec_sound {r : Regex} {n : Nat} {pv : Option Char} {s : Str} {out : MState}
    (h : exec r n pv s = some out) :
    Matches r ⟨pv, s, List.replicate n []⟩ out := by
  obtain ⟨st', hm, hk⟩ := run_sound r _ _ _ h
  cases hk
  exact hm

theorem exec_none_of_needs {P : Char → Prop} {r : Regex} (hn : r.Needs P) (n : Nat)
    (pv : Option Char) {s : Str} (hs : ∀ c ∈ s, ¬ P c) : exec r n pv s = none := by
  cases h : exec r n pv s with
  | none => rfl
  | some out =>
    obtain ⟨c, hc, hP⟩ := matches_needs (exec_sound h) hn
    exact absurd hP (hs c hc)

/-! ## Global replacement lemmas -/

theorem replaceGo_nil (r : Regex) (n : Nat) (repl : Str → List Str → Str)
    (pv : Option Char) (k : Nat) (h : exec r n pv [] = none) :
    replaceGo r n repl pv [] k = [] := by
  simp [replaceGo, h]

theorem replaceGo_cons_succ (r : Regex) (n : Nat) (repl : Str → List Str → Str)
    (pv : Option Char) (c : Char) (cs : Str) (k : Nat) :
    replaceGo r n repl pv (c :: cs) (k + 1) = replaceGo r n repl (some c) cs k := rfl

theorem replaceGo_cons_none (r : Regex) (n : Nat) (repl : Str → List Str → Str)
    (pv : Option Char) (c : Char) (cs : Str) (h : exec r n pv (c :: cs) = none) :
    replaceGo r n repl pv (c :: cs) 0 = c :: replaceGo r n repl (some c) cs 0 := by
  simp [replaceGo, h]

theorem replaceGo_cons_some (r : Regex) (n : Nat) (repl : Str → List Str → Str)
    (pv : Option Char) (c : Char) (cs : Str) (st : MState)
    (h : exec r n pv (c :: cs) = some st) (k : Nat)
    (hk : (c :: cs).length - st.rest.length = k + 1) :
    replaceGo r n repl pv (c :: cs) 0
      = repl ((c :: cs).take (k + 1)) st.caps ++ replaceGo r n repl (some c) cs k := by
  simp only [replaceGo, h, hk]
  simp

theorem replaceGo_skip (r : Regex) (n : Nat) (repl : Str → List Str → Str)
    (pv : Option Char) (xs : Str) (ys : Str) :
    replaceGo r n repl pv (xs ++ ys) xs.length
      = replaceGo r n repl (adv pv xs) ys 0 := by
  induction xs generalizing pv with
  | nil =>
    cases ys with
    | nil => simp [replaceGo]
    | cons y ys => rfl
  | cons x xs ih =>
    simp only [List.cons_append, List.length_cons, replaceGo_cons_succ, adv_cons]
    exact ih (some x)

/-- Where no attempt inside `a` succeeds, `a` is copied. -/
theorem replaceGo_append_noMatch (r : Regex) (n : Nat) (repl : Str → List Str → Str)
    (a rest : Str) :
    ∀ (pv : Option Char),
      (∀ pre zs, a = pre ++ zs → zs ≠ [] → exec r n (adv pv pre) (zs ++ rest) = none) →
      replaceGo r n repl pv (a ++ rest) 0 = a ++ replaceGo r n repl (adv pv a) rest 0 := by
  induction a with
  | nil => intro pv _; rfl
  | cons c cs ih =>
    intro pv h
    have h0 := h [] (c :: cs) rfl (by simp)
    simp only [adv_nil, List.cons_append] at h0
    have ih' := ih (some c) (fun pre zs hpz hz => by
      have := h (c :: pre) zs (by simp [hpz]) hz
      simpa using this)
    rw [List.cons_append, replaceGo_cons_none _ _ _ _ _ _ h0, ih']
    simp

/-- Where no attempt succeeds, the text is left as it is. -/
theorem replaceGo_noMatch (r : Regex) (n : Nat) (repl : Str → List Str → Str) (s : Str) :
    ∀ (pv : Option Char),
      (∀ pre zs, s = pre ++ zs → exec r n (adv pv pre) zs = none) →
      replaceGo r n repl pv s 0 = s := by
  induction s with
  | nil =>
    intro pv h
    exact replaceGo_nil _ _ _ _ _ (by simpa using h [] [] rfl)
  | cons c cs ih =>
    intro pv h
    have h0 := h [] (c :: cs) rfl
    simp only [adv_nil] at h0
    have ih' := ih (some c) (fun pre zs hpz => by
      have := h (c :: pre) zs (by simp [hpz])
      simpa using this)
    rw [replaceGo_cons_none _ _ _ _ _ _ h0, ih']

/-- A successful attempt that reads `m` emits the replacement and resumes after `m`. -/
theorem replaceGo_match (r : Regex) (n : Nat) (repl : Str → List Str → Str)
    (pv : Option Char) (m rest : Str) (st : MState) (hm : m ≠ [])
    (h : exec r n pv (m ++ rest) = some st) (hrest : st.rest = rest) :
    replaceGo r n repl pv (m ++ rest) 0
      = repl m st.caps ++ replaceGo r n repl (adv pv m) rest 0 := by
  cases m with
  | nil => exact absurd rfl hm
  | cons c cs =>
    have hlen : (c :: (cs ++ rest)).length - st.rest.length = cs.length + 1 := by
      simp only [hrest, List.length_cons, List.length_append]
      omega
    have htake : (c :: (cs ++ rest)).take (cs.length + 1) = c :: cs := by
      simp
    simp only [List.cons_append] at h
    rw [List.cons_append, replaceGo_cons_some _ _ _ _ _ _ _ h _ hlen, htake, replaceGo_skip]
    rfl

theorem replaceAll_of_needs {P : Char → Prop} {r : Regex} (hn : r.Needs P) (n : Nat)
    (repl : Str → List Str → Str) {s : Str} (hs : ∀ c ∈ s, ¬ P c) :
    replaceAll r n repl s = s := by
  apply replaceGo_noMatch
  intro pre zs hpz
  apply exec_none_of_needs hn
  intro c hc
  exact hs c (by simp [hpz, hc])

/-! ## Forward reasoning: the first successful path -/

theorem exec_of_reaches {r : Regex} {n : Nat} {pv : Option Char} {s : Str} {t : MState}
    (h : Reaches r ⟨pv, s, List.replicate n []⟩ t) : exec r n pv s = some t :=
  h some t rfl

theorem reaches_eps (st : MState) : Reaches .eps st st := fun _ _ h => h

theorem reaches_char (p : Char → Bool) (pv : Option Char) (c : Char) (cs : Str)
    (caps : List Str) (hp : p c = true) :
    Reaches (.char p) ⟨pv, c :: cs, caps⟩ ⟨some c, cs, caps⟩ := by
  intro k out h
  simp [hp, h]

theorem reaches_chr (pv : Option Char) (c : Char) (cs : Str) (caps : List Str) :
    Reaches (.chr c) ⟨pv, c :: cs, caps⟩ ⟨some c, cs, caps⟩ :=
  reaches_char _ pv c cs caps (by simp)

theorem reaches_bol (s : Str) (caps : List Str) : Reaches .bol ⟨none, s, caps⟩ ⟨none, s, caps⟩ :=
  fun _ _ h => by simpa using h

theorem reaches_eol (pv : Option Char) (caps : List Str) :
    Reaches .eol ⟨pv, [], caps⟩ ⟨pv, [], caps⟩ :=
  fun _ _ h => by simpa using h

theorem reaches_seq {a b : Regex} {s1 s2 s3 : MState} (h1 : Reaches a s1 s2)
    (h2 : Reaches b s2 s3) : Reaches (.seq a b) s1 s3 := by
  intro k out h
  rw [run_seq]
  exact h1 _ _ (h2 _ _ h)

theorem reaches_altL {a : Regex} (b : Regex) {s t : MState} (h : Reaches a s t) :
    Reaches (.alt a b) s t := by
  intro k out hk
  rw [run_alt, h k out hk]
  rfl

theorem reaches_altR {a b : Regex} {s t : MState} (ha : ∀ k, a.run k s = none)
    (h : Reaches b s t) : Reaches (.alt a b) s t := by
  intro k out hk
  rw [run_alt, ha k, h k out hk]
  rfl

theorem take_length_sub (w s' : Str) : (w ++ s').take ((w ++ s').length - s'.length) = w := by
  simp

theorem reaches_group (i : Nat) {r : Regex} {pv pv' : Option Char} {s s' : Str}
    {caps caps' : List Str} (w : Str) (hw : s = w ++ s')
    (h : Reaches r ⟨pv, s, caps⟩ ⟨pv', s', caps'⟩) :
    Reaches (.group i r) ⟨pv, s, caps⟩ ⟨pv', s', caps'.set (i - 1) w⟩ := by
  intro k out hk
  rw [run_group]
  apply h
  subst hw
  simpa [take_length_sub] using hk

/-- Greedy repetition of a character class reads the longest run. -/
theorem reaches_star_greedy (p : Char → Bool) (caps : List Str) (xs ys : Str)
    (hxs : ∀ c ∈ xs, p c = true) (hys : ∀ c ∈ ys.head?, p c = false) :
    ∀ pv, Reaches (.star true (.char p)) ⟨pv, xs ++ ys, caps⟩ ⟨adv pv xs, ys, caps⟩ := by
  induction xs with
  | nil =>
    intro pv k out hk
    cases ys with
    | nil => simpa using hk
    | cons y ys' =>
      have hy : p y = false := hys y (by simp)
      rw [List.nil_append, run_star_char_cons]
      simpa [hy] using hk
  | cons x xs ih =>
    intro pv k out hk
    have hx : p x = true := hxs x (by simp)
    have := ih (fun c hc => hxs c (List.mem_cons_of_mem _ hc)) (some x) k out (by simpa using hk)
    rw [List.cons_append, run_star_char_cons]
    simp [hx, this]

/-- One or more of a character class, greedy. -/
theorem reaches_plus_greedy (p : Char → Bool) (caps : List Str) (x : Char) (xs ys : Str)
    (hx : p x = true) (hxs : ∀ c ∈ xs, p c = true) (hys : ∀ c ∈ ys.head?, p c = false)
    (pv : Option Char) :
    Reaches (Regex.plus (.char p)) ⟨pv, x :: (xs ++ ys), caps⟩ ⟨adv (some x) xs, ys, caps⟩ :=
  reaches_seq (reaches_char p pv x _ caps hx) (reaches_star_greedy p caps xs ys hxs hys _)

/-- Lazy repetition moves past every character at which the continuation fails. -/
theorem run_star_lazy_skip (p : Char → Bool) (k : Cont) (caps : List Str) (xs ys : Str)
    (hxs : ∀ c ∈ xs, p c = true)
    (hk : ∀ pv c cs, c ∈ xs → k ⟨pv, c :: cs, caps⟩ = none) :
    ∀ pv, (Regex.star false (.char p)).run k ⟨pv, xs ++ ys, caps⟩
      = (Regex.star false (.char p)).run k ⟨adv pv xs, ys, caps⟩ := by
  induction xs with
  | nil => intro pv; rfl
  | cons x xs ih =>
    intro pv
    have hx : p x = true := hxs x (by simp)
    rw [List.cons_append, run_star_char_cons]
    simp only [hx, if_true, Bool.false_eq_true, if_false, hk pv x _ (List.mem_cons_self _ _),
      first_none_left, adv_cons]
    exact ih (fun c hc => hxs c (List.mem_cons_of_mem _ hc))
      (fun pv c cs hc => hk pv c cs (List.mem_cons_of_mem _ hc)) (some x)

/-! ## Anchored patterns on single-line text -/

theorem exec_bol_some (r : Regex) (n : Nat) (c : Char) (s : Str)
    (hc : isLineTerminator c = false) : exec (.seq .bol r) n (some c) s = none := by
  simp [exec, hc]

/-- An anchored pattern that fails at the start of single-line text leaves it unchanged. -/
theorem replaceAll_anchored (r : Regex) (n : Nat) (repl : Str → List Str → Str) (s : Str)
    (hs : SingleLine s) (h0 : exec (.seq .bol r) n none s = none) :
    replaceAll (.seq .bol r) n repl s = s := by
  apply replaceGo_noMatch
  intro pre zs hpz
  by_cases hpre : pre = []
  · subst hpre
    simpa [hpz] using h0
  · obtain ⟨c, hc, hadv⟩ := adv_eq_some_of_ne_nil none pre hpre
    rw [hadv]
    exact exec_bol_some r n c zs (hs c (by simp [hpz, hc]))

/-- An anchored pattern that matches the whole of a single-line text replaces it. -/
theorem replaceAll_whole (r : Regex) (n : Nat) (repl : Str → List Str → Str) (s : Str)
    (st : MState) (hne : s ≠ []) (hs : SingleLine s)
    (h : exec (.seq .bol r) n none s = some st) (hrest : st.rest = []) :
    replaceAll (.seq .bol r) n repl s = repl s st.caps := by
  have hm := replaceGo_match (.seq .bol r) n repl none s [] st hne (by simpa using h) hrest
  obtain ⟨c, hc, hadv⟩ := adv_eq_some_of_ne_nil none s hne
  have hnil : replaceGo (.seq .bol r) n repl (adv none s) [] 0 = [] := by
    apply replaceGo_nil
    rw [hadv]
    exact exec_bol_some r n c [] (hs c hc)
  simp only [List.append_nil] at hm
  rw [replaceAll, hm, hnil, List.append_nil]

/-! ## The patterns of the formatter -/

@[simp] theorem seqs_singleton (r : Regex) : Regex.seqs [r] = r := rfl

@[simp] theorem seqs_cons_cons (a b : Regex) (rs : List Regex) :
    Regex.seqs (a :: b :: rs) = .seq a (Regex.seqs (b :: rs)) := rfl

theorem tableRegex_needs : tableRegex.Needs (fun c => c = LF) := by
  simp [tableRegex, Regex.Needs, Regex.chr]

theorem tableRegex_needs_pipe : tableRegex.Needs (fun c => c = '|') := by
  simp [tableRegex, Regex.Needs, Regex.chr]

theorem unorderedRegex_needs : unorderedRegex.Needs (fun c => c = '-' ∨ c = '*') := by
  simp [unorderedRegex, Regex.Needs]

theorem orderedRegex_needs : orderedRegex.Needs (fun c => isDigit c = true) := by
  simp [orderedRegex, Regex.Needs, Regex.plus]

theorem listItemRegex_needs :
    listItemRegex.Needs (fun c => c = BULLET ∨ isDigit c = true) := by
  simp only [listItemRegex, seqs_cons_cons, seqs_singleton, Regex.Needs, Regex.plus, Regex.chr]
  refine Or.inr (Or.inl ⟨?_, Or.inl (Or.inl ?_)⟩)
  · intro c hc
    exact Or.inl (by simpa using hc)
  · intro c hc
    exact Or.inr hc

theorem boldRegex_needs : boldRegex.Needs (fun c => c = '*') := by
  simp [boldRegex, Regex.Needs, Regex.chr]

theorem italicRegex_needs : italicRegex.Needs (fun c => c = '*') := by
  simp [italicRegex, Regex.Needs, Regex.chr]

theorem codeRegex_needs : codeRegex.Needs (fun c => c = BT) := by
  simp [codeRegex, Regex.Needs, Regex.chr]

theorem h3Regex_needs : h3Regex.Needs (fun c => c = '#') := by
  simp [h3Regex, Regex.Needs, Regex.chr]

theorem h2Regex_needs : h2Regex.Needs (fun c => c = '#') := by
  simp [h2Regex, Regex.Needs, Regex.chr]

theorem h1Regex_needs : h1Regex.Needs (fun c => c = '#') := by
  simp [h1Regex, Regex.Needs, Regex.chr]

theorem paragraphRegex_needs : paragraphRegex.Needs (fun c => c = LF) := by
  simp [paragraphRegex, Regex.Needs, Regex.chr]

theorem LF_isLineTerminator : isLineTerminator LF = true := by decide

theorem SingleLine.not_LF {s : Str} (h : SingleLine s) : ∀ c ∈ s, ¬ c = LF := by
  intro c hc heq
  have := h c hc
  rw [heq, LF_isLineTerminator] at this
  exact absurd this (by simp)

theorem ruleTable_id {s : Str} (h : ∀ c ∈ s, ¬ c = LF) : ruleTable s = s :=
  replaceAll_of_needs tableRegex_needs 2 _ h

theorem ruleTable_id_pipe {s : Str} (h : ∀ c ∈ s, ¬ c = '|') : ruleTable s = s :=
  replaceAll_of_needs tableRegex_needs_pipe 2 _ h

theorem ruleBold_id {s : Str} (h : ∀ c ∈ s, ¬ c = '*') : ruleBold s = s :=
  replaceAll_of_needs boldRegex_needs 1 _ h

theorem ruleItalic_id {s : Str} (h : ∀ c ∈ s, ¬ c = '*') : ruleItalic s = s :=
  replaceAll_of_needs italicRegex_needs 1 _ h

theorem ruleCode_id {s : Str} (h : ∀ c ∈ s, ¬ c = BT) : ruleCode s = s :=
  replaceAll_of_needs codeRegex_needs 1 _ h

theorem ruleParagraph_id {s : Str} (h : ∀ c ∈ s, ¬ c = LF) : ruleParagraph s = s :=
  replaceAll_of_needs paragraphRegex_needs 0 _ h

/-! ### First-character tests of the anchored patterns -/

theorem exec_unordered_head (c : Char) (cs : Str) (h1 : isSpace c = false) (h2 : c ≠ '-')
    (h3 : c ≠ '*') : exec unorderedRegex 1 none (c :: cs) = none := by
  simp [exec, unorderedRegex, run_star_char_cons, h1, h2, h3]

theorem exec_ordered_head (c : Char) (cs : Str) (h : isDigit c = false) :
    exec orderedRegex 2 none (c :: cs) = none := by
  simp [exec, orderedRegex, Regex.plus, h]

theorem exec_listItem_head (c : Char) (cs : Str) (h1 : c ≠ BULLET) (h2 : isDigit c = false) :
    exec listItemRegex 2 none (c :: cs) = none := by
  simp [exec, listItemRegex, Regex.plus, Regex.chr, h1, h2]

theorem exec_h3_head (c : Char) (cs : Str) (h : c ≠ '#') :
    exec h3Regex 1 none (c :: cs) = none := by
  simp [exec, h3Regex, Regex.chr, h]

theorem exec_h2_head (c : Char) (cs : Str) (h : c ≠ '#') :
    exec h2Regex 1 none (c :: cs) = none := by
  simp [exec, h2Regex, Regex.chr, h]

theorem exec_h1_head (c : Char) (cs : Str) (h : c ≠ '#') :
    exec h1Regex 1 none (c :: cs) = none := by
  simp [exec, h1Regex, Regex.chr, h]

theorem ruleUnordered_head (c : Char) (cs : Str) (hs : SingleLine (c :: cs))
    (h1 : isSpace c = false) (h2 : c ≠ '-') (h3 : c ≠ '*') :
    ruleUnordered (c :: cs) = c :: cs :=
  replaceAll_anchored _ 1 _ _ hs (exec_unordered_head c cs h1 h2 h3)

theorem ruleOrdered_head (c : Char) (cs : Str) (hs : SingleLine (c :: cs))
    (h : isDigit c = false) : ruleOrdered (c :: cs) = c :: cs :=
  replaceAll_anchored _ 2 _ _ hs (exec_ordered_head c cs h)

theorem ruleListItem_head (c : Char) (cs : Str) (hs : SingleLine (c :: cs))
    (h1 : c ≠ BULLET) (h2 : isDigit c = false) : ruleListItem (c :: cs) = c :: cs :=
  replaceAll_anchored _ 2 _ _ hs (exec_listItem_head c cs h1 h2)

theorem ruleH3_head (c : Char) (cs : Str) (hs : SingleLine (c :: cs)) (h : c ≠ '#') :
    ruleH3 (c :: cs) = c :: cs :=
  replaceAll_anchored _ 1 _ _ hs (exec_h3_head c cs h)

theorem ruleH2_head (c : Char) (cs : Str) (hs : SingleLine (c :: cs)) (h : c ≠ '#') :
    ruleH2 (c :: cs) = c :: cs :=
  replaceAll_anchored _ 1 _ _ hs (exec_h2_head c cs h)

theorem ruleH1_head (c : Char) (cs : Str) (hs : SingleLine (c :: cs)) (h : c ≠ '#') :
    ruleH1 (c :: cs) = c :: cs :=
  replaceAll_anchored _ 1 _ _ hs (exec_h1_head c cs h)

/-! ## Markup produced by a rule is left alone by the rules after it -/

theorem wrap_markup (tl : Str) : wrap ('<' :: tl) = '<' :: tl := by
  simp [wrap, startsWith]

theorem SingleLine.append {a b : Str} (ha : SingleLine a) (hb : SingleLine b) :
    SingleLine (a ++ b) := by
  intro c hc
  rcases List.mem_append.1 hc with h | h
  · exact ha c h
  · exact hb c h

theorem SingleLine.cons {c : Char} {s : Str} (hc : isLineTerminator c = false)
    (hs : SingleLine s) : SingleLine (c :: s) := by
  intro d hd
  rcases List.mem_cons.1 hd with h | h
  · rw [h]; exact hc
  · exact hs d h

/-- Rules 8 to 10 on single-line text that begins with a tag. -/
theorem headings_markup (tl : Str) (hs : SingleLine ('<' :: tl)) :
    wrap (ruleParagraph (ruleH1 (ruleH2 (ruleH3 ('<' :: tl))))) = '<' :: tl := by
  rw [ruleH3_head _ _ hs (by decide), ruleH2_head _ _ hs (by decide),
    ruleH1_head _ _ hs (by decide), ruleParagraph_id hs.not_LF, wrap_markup]

/-- Rules 5 to 10 on single-line text that begins with a tag and holds no
asterisk and no grave accent. -/
theorem inline_markup (tl : Str) (hs : SingleLine ('<' :: tl))
    (hstar : ∀ c ∈ '<' :: tl, ¬ c = '*') (hbt : ∀ c ∈ '<' :: tl, ¬ c = BT) :
    wrap (ruleParagraph (ruleH1 (ruleH2 (ruleH3 (ruleCode (ruleItalic (ruleBold ('<' :: tl))))))))
      = '<' :: tl := by
  rw [ruleBold_id hstar, ruleItalic_id hstar, ruleCode_id hbt, headings_markup tl hs]

theorem Inert.concat {a b : Str} (ha : Inert a) (hb : Inert b) : Inert (a ++ b) := by
  intro c hc
  rcases List.mem_append.1 hc with h | h
  · exact ha c h
  · exact hb c h

theorem Inert.of_parts {t : Str} (hstar : '*' ∉ t) (hbt : BT ∉ t) (hlt : SingleLine t) :
    Inert t :=
  fun c hc => ⟨hlt c hc, fun h => hstar (h ▸ hc), fun h => hbt (h ▸ hc)⟩

theorem Inert.singleLine {s : Str} (h : Inert s) : SingleLine s := fun c hc => (h c hc).1

/-- Rules 5 to 10 leave inert text that begins with a tag as it is. -/
theorem inline_inert (s : Str) (hs : s.head? = some '<') (h : Inert s) :
    wrap (ruleParagraph (ruleH1 (ruleH2 (ruleH3 (ruleCode (ruleItalic (ruleBold s)))))))
      = s := by
  cases s with
  | nil => simp at hs
  | cons c tl =>
    simp only [List.head?_cons, Option.some.injEq] at hs
    subst hs
    exact inline_markup tl h.singleLine (fun c hc => (h c hc).2.1) (fun c hc => (h c hc).2.2)

/-! ## Plain text -/

theorem formatMarkdown_plain_aux (t : Str) (hstar : '*' ∉ t) (hbt : BT ∉ t) (hhash : '#' ∉ t)
    (hpipe : '|' ∉ t) (hdash : '-' ∉ t) (hbul : BULLET ∉ t)
    (hdig : ∀ c ∈ t, isDigit c = false) (hlt : SingleLine t) (hhead : t.head? ≠ some '<') :
    formatMarkdown t = pOpen ++ t ++ pClose := by
  have h1 : ruleTable t = t := ruleTable_id_pipe (fun c hc h => hpipe (h ▸ hc))
  have h2 : ruleUnordered t = t :=
    replaceAll_of_needs unorderedRegex_needs 1 _ (fun c hc h => by
      rcases h with h | h
      · exact hdash (h ▸ hc)
      · exact hstar (h ▸ hc))
  have h3 : ruleOrdered t = t :=
    replaceAll_of_needs orderedRegex_needs 2 _ (fun c hc h => by simp [hdig c hc] at h)
  have h4 : ruleListItem t = t :=
    replaceAll_of_needs listItemRegex_needs 2 _ (fun c hc h => by
      rcases h with h | h
      · exact hbul (h ▸ hc)
      · simp [hdig c hc] at h)
  have h5 : ruleBold t = t := ruleBold_id (fun c hc h => hstar (h ▸ hc))
  have h6 : ruleItalic t = t := ruleItalic_id (fun c hc h => hstar (h ▸ hc))
  have h7 : ruleCode t = t := ruleCode_id (fun c hc h => hbt (h ▸ hc))
  have h8 : ruleH3 t = t :=
    replaceAll_of_needs h3Regex_needs 1 _ (fun c hc h => hhash (h ▸ hc))
  have h9 : ruleH2 t = t :=
    replaceAll_of_needs h2Regex_needs 1 _ (fun c hc h => hhash (h ▸ hc))
  have h10 : ruleH1 t = t :=
    replaceAll_of_needs h1Regex_needs 1 _ (fun c hc h => hhash (h ▸ hc))
  have h11 : wrap t = pOpen ++ t ++ pClose := by
    cases t with
    | nil => rfl
    | cons c cs =>
      have hc : c ≠ '<' := fun h => hhead (by simp [h])
      have hc' : ¬ '<' = c := fun h => hc h.symm
      simp [wrap, startsWith, hc']
  have h12 : ruleParagraph t = t := ruleParagraph_id hlt.not_LF
  simp only [formatMarkdown, h1, h2, h3, h4, h5, h6, h7, h8, h9, h10, h11, h12]

/-! ## Headings, emphasis, list rows -/

theorem isSpace_space : isSpace ' ' = true := by decide

/-- The whole of a single-line text is read by `(.*$)`. -/
theorem reaches_dotAll_eol (i : Nat) (pv : Option Char) (t : Str) (caps : List Str)
    (ht : SingleLine t) :
    Reaches (.group i (.seq (.star true .dot) .eol)) ⟨pv, t, caps⟩
      ⟨adv pv t, [], caps.set (i - 1) t⟩ := by
  apply reaches_group i t (by simp)
  apply reaches_seq _ (reaches_eol _ _)
  have := reaches_star_greedy (fun x => !isLineTerminator x) caps t []
    (fun c hc => by simp [ht c hc]) (by simp) pv
  simpa [Regex.dot] using this

theorem exec_h1 (t : Str) (ht : SingleLine t) :
    exec h1Regex 1 none ('#' :: ' ' :: t) = some ⟨adv (some ' ') t, [], [t]⟩ := by
  apply exec_of_reaches
  refine reaches_seq (reaches_bol _ _) (reaches_seq (reaches_chr _ _ _ _)
    (reaches_seq (reaches_chr _ _ _ _) ?_))
  exact reaches_dotAll_eol 1 _ t _ ht

theorem exec_h3 (t : Str) (ht : SingleLine t) :
    exec h3Regex 1 none ('#' :: '#' :: '#' :: ' ' :: t) = some ⟨adv (some ' ') t, [], [t]⟩ := by
  apply exec_of_reaches
  refine reaches_seq (reaches_bol _ _) (reaches_seq (reaches_chr _ _ _ _)
    (reaches_seq (reaches_chr _ _ _ _) (reaches_seq (reaches_chr _ _ _ _)
    (reaches_seq (reaches_chr _ _ _ _) ?_))))
  exact reaches_dotAll_eol 1 _ t _ ht

theorem h1Open_cons : h1Open = '<' :: h1Open.tail := rfl

theorem h3Open_cons : h3Open = '<' :: h3Open.tail := rfl

theorem listRowOpen_cons : listRowOpen = '<' :: listRowOpen.tail := rfl

theorem singleLine_h1Open : SingleLine h1Open := by unfold SingleLine; decide

theorem singleLine_h3Open : SingleLine h3Open := by unfold SingleLine; decide

theorem formatMarkdown_h1 (t : Str) (hstar : '*' ∉ t) (hbt : BT ∉ t) (hlt : SingleLine t) :
    formatMarkdown ('#' :: ' ' :: t) = h1Open ++ t ++ "</h1>".toList := by
  have hs : SingleLine ('#' :: ' ' :: t) :=
    SingleLine.cons (by decide) (SingleLine.cons (by decide) hlt)
  have hstar' : ∀ c ∈ '#' :: ' ' :: t, ¬ c = '*' := by
    intro c hc h
    subst h
    simp at hc
    exact hstar hc
  have hbt' : ∀ c ∈ '#' :: ' ' :: t, ¬ c = BT := by
    intro c hc h
    subst h
    rcases List.mem_cons.1 hc with h | h
    · exact absurd h (by decide)
    · rcases List.mem_cons.1 h with h | h
      · exact absurd h (by decide)
      · exact hbt h
  have e3 : ruleH3 ('#' :: ' ' :: t) = '#' :: ' ' :: t :=
    replaceAll_anchored _ 1 _ _ hs (by simp [exec, Regex.chr])
  have e2 : ruleH2 ('#' :: ' ' :: t) = '#' :: ' ' :: t :=
    replaceAll_anchored _ 1 _ _ hs (by simp [exec, Regex.chr])
  have e1 : ruleH1 ('#' :: ' ' :: t) = h1Open ++ t ++ "</h1>".toList := by
    exact replaceAll_whole _ 1
      (fun _ caps => h1Open ++ cap caps 1 ++ "</h1>".toList) _ _ (by simp) hs (exec_h1 t hlt) rfl
  have hout : SingleLine (h1Open ++ t ++ "</h1>".toList) :=
    (singleLine_h1Open.append hlt).append (by unfold SingleLine; decide)
  unfold formatMarkdown
  simp only []
  rw [ruleTable_id hs.not_LF, ruleUnordered_head _ _ hs (by decide) (by decide) (by decide),
    ruleOrdered_head _ _ hs (by decide), ruleListItem_head _ _ hs (by decide) (by decide),
    ruleBold_id hstar', ruleItalic_id hstar', ruleCode_id hbt', e3, e2, e1,
    ruleParagraph_id hout.not_LF, h1Open_cons]
  exact wrap_markup _

theorem formatMarkdown_h3 (t : Str) (hstar : '*' ∉ t) (hbt : BT ∉ t) (hlt : SingleLine t) :
    formatMarkdown ('#' :: '#' :: '#' :: ' ' :: t) = h3Open ++ t ++ "</h3>".toList := by
  have hs : SingleLine ('#' :: '#' :: '#' :: ' ' :: t) :=
    SingleLine.cons (by decide) (SingleLine.cons (by decide) (SingleLine.cons (by decide)
      (SingleLine.cons (by decide) hlt)))
  have hstar' : ∀ c ∈ '#' :: '#' :: '#' :: ' ' :: t, ¬ c = '*' := by
    intro c hc h
    subst h
    simp at hc
    exact hstar hc
  have hbt' : ∀ c ∈ '#' :: '#' :: '#' :: ' ' :: t, ¬ c = BT := by
    intro c hc h
    subst h
    have : BT ∈ t := by
      simpa [show ¬ BT = '#' by decide, show ¬ BT = ' ' by decide] using hc
    exact hbt this
  have e3 : ruleH3 ('#' :: '#' :: '#' :: ' ' :: t) = h3Open ++ t ++ "</h3>".toList :=
    replaceAll_whole _ 1
      (fun _ caps => h3Open ++ cap caps 1 ++ "</h3>".toList) _ _ (by simp) hs (exec_h3 t hlt) rfl
  have hout : SingleLine ('<' :: (h3Open.tail ++ t ++ "</h3>".toList)) :=
    (singleLine_h3Open.append hlt).append (by unfold SingleLine; decide)
  unfold formatMarkdown
  simp only []
  rw [ruleTable_id hs.not_LF, ruleUnordered_head _ _ hs (by decide) (by decide) (by decide),
    ruleOrdered_head _ _ hs (by decide), ruleListItem_head _ _ hs (by decide) (by decide),
    ruleBold_id hstar', ruleItalic_id hstar', ruleCode_id hbt', e3, h3Open_cons]
  simp only [List.cons_append]
  rw [ruleH2_head _ _ hout (by decide), ruleH1_head _ _ hout (by decide),
    ruleParagraph_id hout.not_LF]
  exact wrap_markup _

/-- The `##` and `#` rules leave third-level heading markup as it is. -/
theorem ruleH2_ruleH1_h3 (t : Str) (hlt : SingleLine t) :
    ruleH2 (h3Open ++ t ++ "</h3>".toList) = h3Open ++ t ++ "</h3>".toList
      ∧ ruleH1 (h3Open ++ t ++ "</h3>".toList) = h3Open ++ t ++ "</h3>".toList := by
  have hout : SingleLine ('<' :: (h3Open.tail ++ t ++ "</h3>".toList)) :=
    (singleLine_h3Open.append hlt).append (by unfold SingleLine; decide)
  rw [h3Open_cons]
  simp only [List.cons_append]
  exact ⟨ruleH2_head _ _ hout (by decide), ruleH1_head _ _ hout (by decide)⟩

/-! ### Bold -/

theorem exec_bold (pv : Option Char) (t : Str) (hstar : '*' ∉ t) (hlt : SingleLine t) :
    exec boldRegex 1 pv ('*' :: '*' :: (t ++ ['*', '*'])) = some ⟨some '*', [], [t]⟩ := by
  simp only [exec, boldRegex, seqs_cons_cons, seqs_singleton, run_seq, run_group, Regex.dot,
    Regex.chr, run_char_cons, beq_self_eq_true, if_true]
  rw [run_star_lazy_skip _ _ _ t ['*', '*'] (fun c hc => by simp [hlt c hc])]
  · rw [run_star_char_cons]
    simp [take_length_sub]
  · intro pv' c cs hc
    have : ¬ c = '*' := fun h => hstar (h ▸ hc)
    simp [this]

theorem ruleBold_pair (t : Str) (hstar : '*' ∉ t) (hlt : SingleLine t) :
    ruleBold ('*' :: '*' :: (t ++ ['*', '*'])) = "<strong>".toList ++ t ++ "</strong>".toList := by
  have hm := replaceGo_match boldRegex 1
    (fun _ caps => "<strong>".toList ++ cap caps 1 ++ "</strong>".toList) none
    ('*' :: '*' :: (t ++ ['*', '*'])) [] _ (by simp)
    (by simpa using exec_bold none t hstar hlt) rfl
  rw [replaceGo_nil _ _ _ _ _ (exec_none_of_needs boldRegex_needs 1 _ (by simp))] at hm
  simp only [List.append_nil] at hm
  exact hm

theorem formatMarkdown_bold (t : Str) (hstar : '*' ∉ t) (hbt : BT ∉ t) (hlt : SingleLine t) :
    formatMarkdown ('*' :: '*' :: (t ++ ['*', '*']))
      = "<strong>".toList ++ t ++ "</strong>".toList := by
  have hs : SingleLine ('*' :: '*' :: (t ++ ['*', '*'])) :=
    SingleLine.cons (by decide) (SingleLine.cons (by decide)
      (hlt.append (by unfold SingleLine; decide)))
  have eU : ruleUnordered ('*' :: '*' :: (t ++ ['*', '*'])) = '*' :: '*' :: (t ++ ['*', '*']) :=
    replaceAll_anchored _ 1 _ _ hs (by
      simp [exec, Regex.plus, run_star_char_cons, show isSpace '*' = false by decide])
  have hout : SingleLine ('<' :: ("strong>".toList ++ t ++ "</strong>".toList)) :=
    SingleLine.cons (by decide)
      ((SingleLine.append (by unfold SingleLine; decide) hlt).append
        (by unfold SingleLine; decide))
  have hstar' : ∀ c ∈ '<' :: ("strong>".toList ++ t ++ "</strong>".toList), ¬ c = '*' := by
    intro c hc h
    subst h
    have : '*' ∈ t := by simpa using hc
    exact hstar this
  have hbt' : ∀ c ∈ '<' :: ("strong>".toList ++ t ++ "</strong>".toList), ¬ c = BT := by
    intro c hc h
    subst h
    rcases List.mem_cons.1 hc with h | h
    · exact absurd h (by decide)
    · rcases List.mem_append.1 h with h | h
      · rcases List.mem_append.1 h with h | h
        · exact absurd h (by decide)
        · exact hbt h
      · exact absurd h (by decide)
  unfold formatMarkdown
  simp only []
  rw [ruleTable_id hs.not_LF, eU, ruleOrdered_head _ _ hs (by decide),
    ruleListItem_head _ _ hs (by decide) (by decide), ruleBold_pair t hstar hlt]
  show wrap (ruleParagraph (ruleH1 (ruleH2 (ruleH3 (ruleCode (ruleItalic
    ('<' :: ("strong>".toList ++ t ++ "</strong>".toList)))))))) = _
  rw [ruleItalic_id hstar', ruleCode_id hbt', headings_markup _ hout]
  rfl

/-! ### List rows -/

/-- The whole of a single-line text is read by `(.*)`. -/
theorem reaches_dotAll (i : Nat) (pv : Option Char) (t : Str) (caps : List Str)
    (ht : SingleLine t) :
    Reaches (.group i (.star true .dot)) ⟨pv, t, caps⟩ ⟨adv pv t, [], caps.set (i - 1) t⟩ := by
  apply reaches_group i t (by simp)
  have := reaches_star_greedy (fun x => !isLineTerminator x) caps t []
    (fun c hc => by simp [ht c hc]) (by simp) pv
  simpa [Regex.dot] using this

theorem exec_unordered_dash (t : Str) (hlt : SingleLine t)
    (hhead : ∀ c ∈ t.head?, isSpace c = false) :
    exec unorderedRegex 1 none ('-' :: ' ' :: t) = some ⟨adv (some ' ') t, [], [t]⟩ := by
  apply exec_of_reaches
  refine reaches_seq (reaches_bol _ _) (reaches_seq
    (reaches_star_greedy isSpace _ [] ('-' :: ' ' :: t) (by simp)
      (by simp [show isSpace '-' = false by decide]) none)
    (reaches_seq (reaches_char _ _ _ _ _ (by simp)) (reaches_seq
      (reaches_plus_greedy isSpace _ ' ' [] t isSpace_space (by simp) hhead _) ?_)))
  exact reaches_dotAll_eol 1 _ t _ hlt

theorem exec_listItem_bullet (t : Str) (hlt : SingleLine t)
    (hhead : ∀ c ∈ t.head?, isSpace c = false) :
    exec listItemRegex 2 none (BULLET :: ' ' :: t)
      = some ⟨adv (some ' ') t, [], [[BULLET], t]⟩ := by
  apply exec_of_reaches
  refine reaches_seq (reaches_bol _ _) (reaches_seq
    (reaches_group 1 [BULLET] rfl (reaches_altL _ (reaches_chr _ _ _ _)))
    (reaches_seq (reaches_plus_greedy isSpace _ ' ' [] t isSpace_space (by simp) hhead _)
      (reaches_seq (reaches_dotAll 2 _ t _ hlt) (reaches_eol _ _))))

theorem inert_listRowOpen : Inert listRowOpen := by unfold Inert; decide

theorem inert_listRowMid : Inert listRowMid := by unfold Inert; decide

theorem inert_listRowClose : Inert listRowClose := by unfold Inert; decide

theorem inert_bullet : Inert [BULLET] := by unfold Inert; decide

theorem formatMarkdown_bullet (t : Str) (hstar : '*' ∉ t) (hbt : BT ∉ t) (hlt : SingleLine t)
    (hhead : ∀ c ∈ t.head?, isSpace c = false) :
    formatMarkdown ('-' :: ' ' :: t)
      = listRowOpen ++ [BULLET] ++ listRowMid ++ t ++ listRowClose := by
  have hs : SingleLine ('-' :: ' ' :: t) :=
    SingleLine.cons (by decide) (SingleLine.cons (by decide) hlt)
  have hs2 : SingleLine (BULLET :: ' ' :: t) :=
    SingleLine.cons (by decide) (SingleLine.cons (by decide) hlt)
  have eU : ruleUnordered ('-' :: ' ' :: t) = BULLET :: ' ' :: t := by
    have h := replaceAll_whole _ 1 (fun _ caps => [BULLET, ' '] ++ cap caps 1) _ _ (by simp) hs
      (exec_unordered_dash t hlt hhead) rfl
    exact h
  have eL : ruleListItem (BULLET :: ' ' :: t)
      = listRowOpen ++ [BULLET] ++ listRowMid ++ t ++ listRowClose := by
    have h := replaceAll_whole _ 2
      (fun _ caps => listRowOpen ++ cap caps 1 ++ listRowMid ++ cap caps 2 ++ listRowClose)
      _ _ (by simp) hs2 (exec_listItem_bullet t hlt hhead) rfl
    exact h
  have hin : Inert (listRowOpen ++ [BULLET] ++ listRowMid ++ t ++ listRowClose) :=
    (((inert_listRowOpen.concat inert_bullet).concat inert_listRowMid).concat
      (Inert.of_parts hstar hbt hlt)).concat inert_listRowClose
  unfold formatMarkdown
  simp only []
  rw [ruleTable_id hs.not_LF, eU, ruleOrdered_head _ _ hs2 (by decide), eL]
  exact inline_inert _ rfl hin

/-! ### Numbered rows -/

theorem isDigit_toNat {c : Char} (h : isDigit c = true) : 48 ≤ c.toNat ∧ c.toNat ≤ 57 := by
  simpa [isDigit] using h

theorem isDigit_ne {c d : Char} (h : isDigit c = true) (hd : isDigit d = false) : c ≠ d := by
  intro heq
  rw [heq, hd] at h
  exact absurd h (by simp)

theorem isDigit_not_space {c : Char} (h : isDigit c = true) : isSpace c = false := by
  have hc := isDigit_toNat h
  cases hsp : isSpace c with
  | false => rfl
  | true =>
    exfalso
    simp only [isSpace, isWhiteSpace, isLineTerminator, Bool.or_eq_true, beq_iff_eq,
      Bool.and_eq_true, decide_eq_true_eq, or_assoc] at hsp
    rcases hsp with h1 | h1 | h1 | h1 | h1 | h1 | h1 | h1 | h1 | h1 | h1 | h1 | h1 | h1 | h1
    all_goals first
      | omega
      | (subst h1; revert hc; decide)

theorem isDigit_not_lineTerminator {c : Char} (h : isDigit c = true) :
    isLineTerminator c = false := by
  have := isDigit_not_space h
  simp only [isSpace, Bool.or_eq_false_iff] at this
  exact this.2

theorem inert_of_digits {n : Str} (hn : ∀ c ∈ n, isDigit c = true) : Inert n := by
  intro c hc
  have h := hn c hc
  exact ⟨isDigit_not_lineTerminator h, isDigit_ne h (by decide), isDigit_ne h (by decide)⟩

theorem exec_ordered_num (d : Char) (ds t : Str) (hd : isDigit d = true)
    (hds : ∀ c ∈ ds, isDigit c = true) (hlt : SingleLine t)
    (hhead : ∀ c ∈ t.head?, isSpace c = false) :
    exec orderedRegex 2 none (d :: (ds ++ '.' :: ' ' :: t))
      = some ⟨adv (some ' ') t, [], [d :: ds ++ ['.', ' '], t]⟩ := by
  apply exec_of_reaches
  refine reaches_seq (reaches_bol _ _) (reaches_seq
    (reaches_group 1 (d :: ds ++ ['.', ' ']) (by simp) (reaches_seq
      (reaches_plus_greedy isDigit _ d ds ('.' :: ' ' :: t) hd hds
        (by simp [show isDigit '.' = false by decide]) _)
      (reaches_seq (reaches_chr _ _ _ _)
        (reaches_plus_greedy isSpace _ ' ' [] t isSpace_space (by simp) hhead _))))
    ?_)
  exact reaches_dotAll_eol 2 _ t _ hlt

theorem exec_listItem_num (d : Char) (ds t : Str) (hd : isDigit d = true)
    (hds : ∀ c ∈ ds, isDigit c = true) (hlt : SingleLine t)
    (hhead : ∀ c ∈ t.head?, isSpace c = false) :
    exec listItemRegex 2 none (d :: (ds ++ '.' :: ' ' :: t))
      = some ⟨adv (some ' ') t, [], [d :: ds ++ ['.'], t]⟩ := by
  have hne : ¬ d = BULLET := isDigit_ne hd (by decide)
  apply exec_of_reaches
  refine reaches_seq (reaches_bol _ _) (reaches_seq
    (reaches_group 1 (d :: ds ++ ['.']) (by simp) (reaches_altR (by simp [Regex.chr, hne])
      (reaches_seq
        (reaches_plus_greedy isDigit _ d ds ('.' :: ' ' :: t) hd hds
          (by simp [show isDigit '.' = false by decide]) _)
        (reaches_chr _ _ _ _))))
    (reaches_seq (reaches_plus_greedy isSpace _ ' ' [] t isSpace_space (by simp) hhead _)
      (reaches_seq (reaches_dotAll 2 _ t _ hlt) (reaches_eol _ _))))

theorem formatMarkdown_numbered (n t : Str) (hn : n ≠ []) (hdig : ∀ c ∈ n, isDigit c = true)
    (hstar : '*' ∉ t) (hbt : BT ∉ t) (hlt : SingleLine t)
    (hhead : ∀ c ∈ t.head?, isSpace c = false) :
    formatMarkdown (n ++ '.' :: ' ' :: t)
      = listRowOpen ++ (n ++ ['.']) ++ listRowMid ++ t ++ listRowClose := by
  cases n with
  | nil => exact absurd rfl hn
  | cons d ds =>
    have hd : isDigit d = true := hdig d (by simp)
    have hds : ∀ c ∈ ds, isDigit c = true := fun c hc => hdig c (List.mem_cons_of_mem _ hc)
    have hint : Inert t := Inert.of_parts hstar hbt hlt
    have hs : SingleLine (d :: (ds ++ '.' :: ' ' :: t)) :=
      ((inert_of_digits hdig).singleLine).append
        (SingleLine.cons (by decide) (SingleLine.cons (by decide) hlt))
    have eU : ruleUnordered (d :: (ds ++ '.' :: ' ' :: t)) = d :: (ds ++ '.' :: ' ' :: t) :=
      ruleUnordered_head _ _ hs (isDigit_not_space hd) (isDigit_ne hd (by decide))
        (isDigit_ne hd (by decide))
    have eO : ruleOrdered (d :: (ds ++ '.' :: ' ' :: t)) = d :: (ds ++ '.' :: ' ' :: t) := by
      have h := replaceAll_whole _ 2 (fun _ caps => cap caps 1 ++ cap caps 2) _ _ (by simp) hs
        (exec_ordered_num d ds t hd hds hlt hhead) rfl
      rw [show ruleOrdered (d :: (ds ++ '.' :: ' ' :: t)) = _ from h]
      simp [cap]
    have eL : ruleListItem (d :: (ds ++ '.' :: ' ' :: t))
        = listRowOpen ++ (d :: ds ++ ['.']) ++ listRowMid ++ t ++ listRowClose := by
      have h := replaceAll_whole _ 2
        (fun _ caps => listRowOpen ++ cap caps 1 ++ listRowMid ++ cap caps 2 ++ listRowClose)
        _ _ (by simp) hs (exec_listItem_num d ds t hd hds hlt hhead) rfl
      exact h
    have hin : Inert (listRowOpen ++ (d :: ds ++ ['.']) ++ listRowMid ++ t ++ listRowClose) :=
      (((inert_listRowOpen.concat ((inert_of_digits hdig).concat
        (by unfold Inert; decide))).concat inert_listRowMid).concat hint).concat
        inert_listRowClose
    unfold formatMarkdown
    simp only [List.cons_append]
    rw [ruleTable_id hs.not_LF, eU, eO, eL]
    exact inline_inert _ rfl hin

/-! ## The request lifecycle -/

theorem truthy_iff (s : Str) : truthy s = true ↔ s ≠ [] := by
  cases s <;> simp [truthy]

theorem handleExplainStart_empty (apiKey : Option Str) (st : State) (text : Str)
    (hempty : trim text = []) :
    handleExplainStart apiKey { st with textarea := some text } = [.setError emptyInputMessage] := by
  simp [handleExplainStart, truthy?, truthy, hempty]

theorem handleExplainStart_valid (apiKey text : Str) (st : State) (hkey : apiKey ≠ [])
    (htext : trim text ≠ []) :
    handleExplainStart (some apiKey) { st with textarea := some text }
      = [ .setIsLoading true, .setError [], .setOutput generatingMarkup,
          .fetch (buildRequest apiKey st.level (trim text)) ] := by
  have h1 : truthy (trim text) = true := (truthy_iff _).2 htext
  have h2 : truthy apiKey = true := (truthy_iff _).2 hkey
  simp [handleExplainStart, truthy?, h1, h2]

theorem handleExplain_valid (apiKey text : Str) (outcome : FetchOutcome) (st : State)
    (hkey : apiKey ≠ []) (htext : trim text ≠ []) :
    handleExplain (some apiKey) outcome { st with textarea := some text }
      = [ .setIsLoading true, .setError [], .setOutput generatingMarkup,
          .fetch (buildRequest apiKey st.level (trim text)) ] ++ handleExplainSettle outcome := by
  unfold handleExplain
  rw [handleExplainStart_valid apiKey text st hkey htext]
  simp [issuesFetch]

theorem missingKey_ne_empty : missingKeyMessage ≠ emptyInputMessage := by decide

theorem inv_step (apiKey : Option Str) {s t : State} (hs : Inv apiKey s)
    (h : Step apiKey s t) : Inv apiKey t := by
  obtain ⟨h1, h2, h3⟩ := hs
  cases h with
  | edit v hl => exact ⟨h1, h2, h3⟩
  | slide l hl => exact ⟨h1, h2, h3⟩
  | explain hl =>
    unfold handleExplainStart
    by_cases ht : truthy? (s.textarea.map trim) = true
    · by_cases hk : truthy? apiKey = true
      · simp only [ht, hk, runEffects, applyEffect, Bool.not_true, Bool.false_eq_true,
          if_false, List.foldl_cons, List.foldl_nil]
        exact ⟨fun _ => rfl, fun h => absurd rfl h,
          fun hk' => absurd (hk.symm.trans hk') (by simp)⟩
      · have hk' : truthy? apiKey = false := by simpa using hk
        simp only [ht, hk', runEffects, applyEffect, Bool.not_true, Bool.false_eq_true,
          if_false, Bool.not_false, if_true, List.foldl_cons, List.foldl_nil]
        exact ⟨fun hl' => absurd hl' (by simp [hl]), fun _ _ => (h3 hk').1, fun _ => h3 hk'⟩
    · have ht' : truthy? (s.textarea.map trim) = false := by simpa using ht
      simp only [ht', runEffects, applyEffect, Bool.not_false, if_true, List.foldl_cons,
        List.foldl_nil]
      exact ⟨fun hl' => absurd hl' (by simp [hl]), fun _ hne => absurd rfl hne, h3⟩
  | settle o hl =>
    have herr : s.error = [] := h1 hl
    have hkey : truthy? apiKey = true := by
      cases hk : truthy? apiKey with
      | true => rfl
      | false => exact absurd (h3 hk).2 (by simp [hl])
    have hno : truthy? apiKey = false → False := fun hk' =>
      absurd (hkey.symm.trans hk') (by simp)
    cases o with
    | threw m =>
      simp only [handleExplainSettle, catchBlock, runEffects, applyEffect, List.foldl_cons,
        List.foldl_nil]
      exact ⟨fun h => absurd h (by simp), fun _ _ => rfl, fun hk' => (hno hk').elim⟩
    | notOk m =>
      simp only [handleExplainSettle, catchBlock, runEffects, applyEffect, List.foldl_cons,
        List.foldl_nil]
      exact ⟨fun h => absurd h (by simp), fun _ _ => rfl, fun hk' => (hno hk').elim⟩
    | ok c =>
      simp only [handleExplainSettle, runEffects, applyEffect, List.foldl_cons,
        List.foldl_nil]
      exact ⟨fun h => absurd h (by simp), fun h => absurd herr h, fun hk' => (hno hk').elim⟩
  | clear hl =>
    simp only [handleClear, runEffects, applyEffect, List.foldl_cons, List.foldl_nil]
    exact ⟨fun _ => rfl, fun h => absurd rfl h, fun hk => ⟨rfl, (h3 hk).2⟩⟩

theorem inv_reachable (apiKey : Option Str) {st : State} (h : Reachable apiKey st) :
    Inv apiKey st := by
  induction h with
  | init => exact ⟨fun h => absurd h (by decide), fun h => absurd rfl h, fun _ => ⟨rfl, rfl⟩⟩
  | step _ hstep ih => exact inv_step apiKey ih hstep

theorem staleState_reachable : Reachable (some "key".toList) staleState := by
  have h1 : Reachable (some "key".toList) { initialState with textarea := some "x".toList } :=
    .step .init (.edit _ _ rfl)
  have h2 := Reachable.step h1 (Step.explain _ rfl)
  have h3 := Reachable.step h2 (Step.settle _ (.ok (some "hi".toList)) rfl)
  have h4 := Reachable.step h3 (Step.edit _ [] rfl)
  have h5 := Reachable.step h4 (Step.explain _ rfl)
  have e : runEffects (handleExplainStart (some "key".toList)
      { runEffects (handleExplainSettle (.ok (some "hi".toList)))
          (runEffects (handleExplainStart (some "key".toList)
            { initialState with textarea := some "x".toList })
            { initialState with textarea := some "x".toList }) with textarea := some [] })
      { runEffects (handleExplainSettle (.ok (some "hi".toList)))
          (runEffects (handleExplainStart (some "key".toList)
            { initialState with textarea := some "x".toList })
            { initialState with textarea := some "x".toList }) with textarea := some [] }
      = staleState := by decide
  rw [← e]
  exact h5

/-! ## Occurrences of heading tags -/

theorem infix_drop_no_lt (x : Char) (A s : Str) (hA : ∀ c ∈ A, c ≠ '<')
    (h : ['<', 'h', x] <:+: A ++ s) : ['<', 'h', x] <:+: s := by
  induction A with
  | nil => simpa using h
  | cons a A ih =>
    rw [List.cons_append, List.infix_cons_iff] at h
    rcases h with h | h
    · rw [List.cons_prefix_cons] at h
      exact absurd h.1.symm (hA a (by simp))
    · exact ih (fun c hc => hA c (List.mem_cons_of_mem _ hc)) h

theorem infix_before_close (x : Char) (B : Str) (hB : ∀ c ∈ B.head?, c ≠ 'h' ∧ c ≠ x)
    (hB0 : ¬ ['<', 'h', x] <:+: B) :
    ∀ s : Str, ['<', 'h', x] <:+: s ++ B → ['<', 'h', x] <:+: s := by
  intro s
  induction s with
  | nil => intro h; exact absurd (by simpa using h) hB0
  | cons c s ih =>
    intro h
    rw [List.cons_append, List.infix_cons_iff] at h
    rcases h with h | h
    · rw [List.cons_prefix_cons] at h
      obtain ⟨hc, h⟩ := h
      subst hc
      cases s with
      | nil =>
        cases B with
        | nil => simp at h
        | cons b B =>
          rw [List.nil_append, List.cons_prefix_cons] at h
          exact absurd h.1.symm (hB b (by simp)).1
      | cons d s =>
        rw [List.cons_append, List.cons_prefix_cons] at h
        obtain ⟨hd, h⟩ := h
        subst hd
        cases s with
        | nil =>
          cases B with
          | nil => simp at h
          | cons b B =>
            rw [List.nil_append, List.cons_prefix_cons] at h
            exact absurd h.1.symm (hB b (by simp)).2
        | cons e s =>
          rw [List.cons_append, List.cons_prefix_cons] at h
          obtain ⟨he, _⟩ := h
          subst he
          exact ⟨[], s, by simp⟩
    · exact List.infix_cons (ih h)

/-- The tags `<h1` and `<h2` occur in third-level heading markup only inside
the title. -/
theorem infix_h3_markup (x : Char) (hx : x = '1' ∨ x = '2') (t : Str)
    (h : ['<', 'h', x] <:+: h3Open ++ t ++ "</h3>".toList) : ['<', 'h', x] <:+: t := by
  have h1 : ['<', 'h', x] <:+: h3Open ++ t := by
    apply infix_before_close x "</h3>".toList _ _ _ h
    · rcases hx with hx | hx <;> subst hx <;> decide
    · rcases hx with hx | hx <;> subst hx <;> decide
  rw [h3Open_cons, List.cons_append, List.infix_cons_iff] at h1
  rcases h1 with h1 | h1
  · exfalso
    have e : h3Open.tail = 'h' :: '3' :: h3Open.tail.tail.tail := rfl
    rw [e] at h1
    simp only [List.cons_append, List.cons_prefix_cons] at h1
    rcases hx with hx | hx <;> subst hx <;> exact absurd h1.2.2.1 (by decide)
  · exact infix_drop_no_lt x _ _ (by decide) h1

/-! ## Inversion of declarative matches -/

theorem matches_seq_inv {a b : Regex} {s t : MState} (h : Matches (.seq a b) s t) :
    ∃ m, Matches a s m ∧ Matches b m t := by
  cases h with
  | seq h1 h2 => exact ⟨_, h1, h2⟩

theorem matches_char_inv {p : Char → Bool} {s t : MState} (h : Matches (.char p) s t) :
    ∃ c cs, s.rest = c :: cs ∧ p c = true ∧ t = ⟨some c, cs, s.caps⟩ := by
  cases h with
  | char _ pv c cs caps hp => exact ⟨c, cs, rfl, hp, rfl⟩

theorem matches_bol_inv {s t : MState} (h : Matches .bol s t) : t = s := by
  cases h with
  | bol _ _ => rfl

theorem matches_eol_inv {s t : MState} (h : Matches .eol s t) :
    t = s ∧ (s.rest = [] ∨ ∃ c cs, s.rest = c :: cs ∧ isLineTerminator c = true) := by
  cases h with
  | eol _ hc => exact ⟨rfl, hc⟩

theorem matches_alt_inv {a b : Regex} {s t : MState} (h : Matches (.alt a b) s t) :
    Matches a s t ∨ Matches b s t := by
  cases h with
  | altL _ h1 => exact Or.inl h1
  | altR _ h1 => exact Or.inr h1

theorem matches_group_inv {i : Nat} {r : Regex} {s t : MState}
    (h : Matches (.group i r) s t) :
    ∃ t0, Matches r s t0 ∧ t = { t0 with
      caps := t0.caps.set (i - 1) (s.rest.take (s.rest.length - t0.rest.length)) } := by
  cases h with
  | group _ h1 => exact ⟨_, h1, rfl⟩

theorem matches_star_char_inv_aux {r : Regex} {s t : MState} (h : Matches r s t) :
    ∀ (g : Bool) (p : Char → Bool), r = .star g (.char p) →
      ∃ w, (∀ c ∈ w, p c = true) ∧ s.rest = w ++ t.rest ∧ t.caps = s.caps := by
  induction h with
  | eps st => intro g p h; cases h
  | char p' pv c cs caps hp => intro g p h; cases h
  | bol st _ => intro g p h; cases h
  | eol st _ => intro g p h; cases h
  | seq _ _ _ _ => intro g p h; cases h
  | altL _ _ _ => intro g p h; cases h
  | altR _ _ _ => intro g p h; cases h
  | starNil g' r' st => intro g p _; exact ⟨[], by simp, rfl, rfl⟩
  | starCons h1 _ _ ih2 =>
    intro g p h
    obtain ⟨w, hw, hrest, hcaps⟩ := ih2 g p h
    cases h
    obtain ⟨c, cs, hs1, hp, hs2⟩ := matches_char_inv h1
    subst hs2
    refine ⟨c :: w, ?_, ?_, hcaps⟩
    · intro d hd
      rcases List.mem_cons.1 hd with hd | hd
      · rw [hd]; exact hp
      · exact hw d hd
    · rw [hs1]
      simp only [List.cons_append, List.cons.injEq, true_and]
      exact hrest
  | group _ _ _ => intro g p h; cases h

/-- A repetition of a character class reads a run of characters of that class. -/
theorem matches_star_char_inv {g : Bool} {p : Char → Bool} {s t : MState}
    (h : Matches (.star g (.char p)) s t) :
    ∃ w, (∀ c ∈ w, p c = true) ∧ s.rest = w ++ t.rest ∧ t.caps = s.caps :=
  matches_star_char_inv_aux h g p rfl

theorem matches_plus_char_inv {p : Char → Bool} {s t : MState}
    (h : Matches (Regex.plus (.char p)) s t) :
    ∃ w, w ≠ [] ∧ (∀ c ∈ w, p c = true) ∧ s.rest = w ++ t.rest ∧ t.caps = s.caps := by
  obtain ⟨m, h1, h2⟩ := matches_seq_inv h
  obtain ⟨c, cs, hs, hp, hm⟩ := matches_char_inv h1
  obtain ⟨w, hw, hrest, hcaps⟩ := matches_star_char_inv h2
  subst hm
  refine ⟨c :: w, by simp, ?_, ?_, hcaps⟩
  · intro d hd
    rcases List.mem_cons.1 hd with hd | hd
    · rw [hd]; exact hp
    · exact hw d hd
  · rw [hs]
    simp only [List.cons_append, List.cons.injEq, true_and]
    exact hrest

theorem matches_chr_inv {x : Char} {s t : MState} (h : Matches (Regex.chr x) s t) :
    ∃ cs, s.rest = x :: cs ∧ t = ⟨some x, cs, s.caps⟩ := by
  obtain ⟨c, cs, hs, hp, ht⟩ := matches_char_inv h
  have hc : c = x := by simpa using hp
  subst hc
  exact ⟨cs, hs, ht⟩

/-- On single-line text, `.*` followed by `$` reads everything that is left. -/
theorem matches_dotAll_eol_inv {i : Nat} {s t : MState} (hs : SingleLine s.rest)
    (h : Matches (.group i (.seq (.star true .dot) .eol)) s t) :
    t.rest = [] ∧ t.caps = s.caps.set (i - 1) s.rest := by
  obtain ⟨t0, h0, ht⟩ := matches_group_inv h
  obtain ⟨m, h1, h2⟩ := matches_seq_inv h0
  obtain ⟨w, _, hrest, hcaps⟩ := matches_star_char_inv h1
  obtain ⟨hm, hend⟩ := matches_eol_inv h2
  subst hm
  have hnil : t0.rest = [] := by
    rcases hend with hnil | ⟨c, cs, hc, hlt⟩
    · exact hnil
    · have : c ∈ s.rest := by rw [hrest, hc]; simp
      rw [hs c this] at hlt
      exact absurd hlt (by simp)
  subst ht
  simp [hnil, hcaps]

/-- Every captured character was read from the input. -/
theorem matches_caps_mem {r : Regex} {s t : MState} (h : Matches r s t) :
    ∀ x ∈ t.caps, ∀ c ∈ x, c ∈ s.rest ∨ ∃ y ∈ s.caps, c ∈ y := by
  induction h with
  | eps st => intro x hx c hc; exact Or.inr ⟨x, hx, hc⟩
  | char p pv c cs caps hp => intro x hx d hd; exact Or.inr ⟨x, hx, hd⟩
  | bol st _ => intro x hx c hc; exact Or.inr ⟨x, hx, hc⟩
  | eol st _ => intro x hx c hc; exact Or.inr ⟨x, hx, hc⟩
  | seq h1 _ ih1 ih2 =>
    intro x hx c hc
    rcases ih2 x hx c hc with h | ⟨y, hy, hcy⟩
    · exact Or.inl ((matches_suffix h1).subset h)
    · exact ih1 y hy c hcy
  | altL _ _ ih => exact ih
  | altR _ _ ih => exact ih
  | starNil g r st => intro x hx c hc; exact Or.inr ⟨x, hx, hc⟩
  | starCons h1 _ ih1 ih2 =>
    intro x hx c hc
    rcases ih2 x hx c hc with h | ⟨y, hy, hcy⟩
    · exact Or.inl ((matches_suffix h1).subset h)
    · exact ih1 y hy c hcy
  | group i _ ih =>
    intro x hx c hc
    rcases List.mem_or_eq_of_mem_set hx with hx' | hx'
    · exact ih x hx' c hc
    · subst hx'
      exact Or.inl (List.mem_of_mem_take hc)

theorem exec_caps_mem {r : Regex} {n : Nat} {pv : Option Char} {s : Str} {st : MState}
    (h : exec r n pv s = some st) : ∀ x ∈ st.caps, ∀ c ∈ x, c ∈ s := by
  intro x hx c hc
  rcases matches_caps_mem (exec_sound h) x hx c hc with h1 | ⟨y, hy, hcy⟩
  · exact h1
  · have : y = [] := List.eq_of_mem_replicate hy
    subst this
    simp at hcy

theorem cap_mem {caps : List Str} {n : Nat} {c : Char} (h : c ∈ cap caps n) :
    ∃ x ∈ caps, c ∈ x := by
  unfold cap at h
  rw [List.getD_eq_getElem?_getD] at h
  cases hx : caps[n - 1]? with
  | none => simp [hx] at h
  | some x =>
    simp only [hx, Option.getD_some] at h
    exact ⟨x, List.getElem?_mem hx, h⟩

/-- A replacement that adds no character of kind `Q` keeps text free of `Q`. -/
theorem replaceGo_avoids (Q : Char → Prop) (r : Regex) (n : Nat)
    (repl : Str → List Str → Str)
    (hrepl : ∀ m caps, (∀ x ∈ caps, ∀ c ∈ x, ¬ Q c) → ∀ c ∈ repl m caps, ¬ Q c) :
    ∀ (s : Str) (pv : Option Char) (k : Nat), (∀ c ∈ s, ¬ Q c) →
      ∀ c ∈ replaceGo r n repl pv s k, ¬ Q c := by
  intro s
  induction s with
  | nil =>
    intro pv k _ c hc
    cases h : exec r n pv [] with
    | none => simp [replaceGo, h] at hc
    | some st =>
      simp only [replaceGo, h] at hc
      refine hrepl [] st.caps ?_ c hc
      intro x hx d hd
      exact absurd (exec_caps_mem h x hx d hd) (by simp)
  | cons a s ih =>
    intro pv k hs c hc
    have hs' : ∀ c ∈ s, ¬ Q c := fun c hc => hs c (List.mem_cons_of_mem _ hc)
    cases k with
    | succ k =>
      rw [replaceGo_cons_succ] at hc
      exact ih _ _ hs' c hc
    | zero =>
      cases h : exec r n pv (a :: s) with
      | none =>
        rw [replaceGo_cons_none _ _ _ _ _ _ h] at hc
        rcases List.mem_cons.1 hc with hc | hc
        · rw [hc]; exact hs a (by simp)
        · exact ih _ _ hs' c hc
      | some st =>
        simp only [replaceGo, h] at hc
        rcases List.mem_append.1 hc with hc | hc
        · refine hrepl _ st.caps ?_ c hc
          intro x hx d hd
          exact hs d (exec_caps_mem h x hx d hd)
        · split at hc
          · rcases List.mem_cons.1 hc with hc | hc
            · rw [hc]; exact hs a (by simp)
            · exact ih _ _ hs' c hc
          · exact ih _ _ hs' c hc

/-! ## An unclosed bold marker -/

theorem split_star_free (pre rest a y : Str) (h : pre ++ rest = a ++ '*' :: y)
    (hpre : '*' ∉ pre) : ∃ a', a = pre ++ a' ∧ rest = a' ++ '*' :: y := by
  induction pre generalizing a with
  | nil => exact ⟨a, rfl, by simpa using h⟩
  | cons p pre ih =>
    cases a with
    | nil =>
      simp only [List.cons_append, List.nil_append, List.cons.injEq] at h
      exact absurd (h.1 ▸ List.mem_cons_self _ _) hpre
    | cons a0 a1 =>
      simp only [List.cons_append, List.cons.injEq] at h
      obtain ⟨a', ha, hr⟩ := ih a1 h.2 (fun hm => hpre (List.mem_cons_of_mem _ hm))
      exact ⟨a', by rw [h.1, ha]; rfl, hr⟩

theorem first_star_unique (w r a y : Str) (h : w ++ '*' :: r = a ++ '*' :: y)
    (hw : '*' ∉ w) (ha : '*' ∉ a) : w = a ∧ r = y := by
  obtain ⟨a', ha', hr⟩ := split_star_free w ('*' :: r) a y h hw
  cases a' with
  | nil =>
    simp only [List.nil_append, List.cons.injEq, true_and] at hr
    exact ⟨by simpa using ha'.symm, hr⟩
  | cons c cs =>
    simp only [List.cons_append, List.cons.injEq] at hr
    exact absurd (by rw [ha']; simp [← hr.1]) ha

theorem isSpace_ne_star {c : Char} (h : isSpace c = true) : c ≠ '*' := by
  intro hc
  rw [hc] at h
  exact absurd h (by decide)

theorem unordered_shape (s : Str) (hs : SingleLine s) (st : MState)
    (h : exec unorderedRegex 1 none s = some st) :
    st.rest = [] ∧ ∃ w1 m w2 rest, s = w1 ++ m :: (w2 ++ rest)
      ∧ (∀ c ∈ w1, isSpace c = true) ∧ (m = '-' ∨ m = '*') ∧ w2 ≠ []
      ∧ (∀ c ∈ w2, isSpace c = true) ∧ st.caps = [rest] := by
  have hm := exec_sound h
  simp only [unorderedRegex, seqs_cons_cons, seqs_singleton] at hm
  obtain ⟨m0, hb, hm⟩ := matches_seq_inv hm
  have e0 := matches_bol_inv hb
  subst e0
  obtain ⟨m1, h1, hm⟩ := matches_seq_inv hm
  obtain ⟨w1, hw1, hr1, hc1⟩ := matches_star_char_inv h1
  obtain ⟨m2, h2, hm⟩ := matches_seq_inv hm
  obtain ⟨c, cs, hs2, hp2, e2⟩ := matches_char_inv h2
  subst e2
  obtain ⟨m3, h3, hm⟩ := matches_seq_inv hm
  obtain ⟨w2, hne, hw2, hr3, hc3⟩ := matches_plus_char_inv h3
  simp only at hr1 hc1 hr3 hc3
  have hs_eq : s = w1 ++ c :: (w2 ++ m3.rest) := by rw [hr1, hs2, hr3]
  have hsl : SingleLine m3.rest := by
    intro d hd
    exact hs d (by rw [hs_eq]; simp [hd])
  obtain ⟨hrest, hcaps⟩ := matches_dotAll_eol_inv hsl hm
  refine ⟨hrest, w1, c, w2, m3.rest, hs_eq, hw1, by simpa using hp2, hne, hw2, ?_⟩
  rw [hcaps, hc3, hc1]
  rfl

theorem ordered_shape (s : Str) (hs : SingleLine s) (st : MState)
    (h : exec orderedRegex 2 none s = some st) :
    st.rest = [] ∧ cap st.caps 1 ++ cap st.caps 2 = s := by
  have hm := exec_sound h
  simp only [orderedRegex, seqs_cons_cons, seqs_singleton] at hm
  obtain ⟨m0, hb, hm⟩ := matches_seq_inv hm
  have e0 := matches_bol_inv hb
  subst e0
  obtain ⟨m1, h1, hm⟩ := matches_seq_inv hm
  obtain ⟨t0, hg, e1⟩ := matches_group_inv h1
  obtain ⟨w, hw⟩ := matches_suffix hg
  obtain ⟨a1, ha, hg⟩ := matches_seq_inv hg
  obtain ⟨_, _, _, _, hca⟩ := matches_plus_char_inv ha
  obtain ⟨a2, hb2, hg⟩ := matches_seq_inv hg
  obtain ⟨_, _, e2⟩ := matches_chr_inv hb2
  obtain ⟨_, _, _, _, hcb⟩ := matches_plus_char_inv hg
  simp only at hw hca
  have hcaps0 : t0.caps = [[], []] := by
    rw [hcb, e2]
    simp only [hca]
    rfl
  have hsl : SingleLine m1.rest := by
    intro d hd
    rw [e1] at hd
    exact hs d (by rw [← hw]; simp [hd])
  obtain ⟨hrest, hcaps⟩ := matches_dotAll_eol_inv hsl hm
  refine ⟨hrest, ?_⟩
  rw [hcaps, e1]
  simp only [hcaps0, ← hw, take_length_sub]
  simp [cap]

theorem listItem_shape (s : Str) (hs : SingleLine s) (st : MState)
    (h : exec listItemRegex 2 none s = some st) :
    st.rest = [] ∧ ∃ mk ws rest, s = mk ++ ws ++ rest ∧ '*' ∉ mk ∧ '*' ∉ ws
      ∧ st.caps = [mk, rest] := by
  have hm := exec_sound h
  simp only [listItemRegex, seqs_cons_cons, seqs_singleton] at hm
  obtain ⟨m0, hb, hm⟩ := matches_seq_inv hm
  have e0 := matches_bol_inv hb
  subst e0
  obtain ⟨m1, h1, hm⟩ := matches_seq_inv hm
  obtain ⟨t0, hg, e1⟩ := matches_group_inv h1
  have hmk : ∃ mk, s = mk ++ t0.rest ∧ '*' ∉ mk ∧ t0.caps = [[], []] := by
    rcases matches_alt_inv hg with hl | hr
    · obtain ⟨cs, hcs, e⟩ := matches_chr_inv hl
      subst e
      exact ⟨[BULLET], by simpa using hcs, by decide, rfl⟩
    · obtain ⟨a1, ha, hr⟩ := matches_seq_inv hr
      obtain ⟨w, _, hw, hrest, hca⟩ := matches_plus_char_inv ha
      obtain ⟨cs, hcs, e⟩ := matches_chr_inv hr
      subst e
      simp only at hrest hca
      refine ⟨w ++ ['.'], by rw [hrest, hcs]; simp, ?_, by rw [hca]; rfl⟩
      intro hmem
      rcases List.mem_append.1 hmem with hmem | hmem
      · exact isDigit_ne (hw _ hmem) (by decide) rfl
      · exact absurd hmem (by decide)
  obtain ⟨mk, hmk_eq, hmk_star, hcaps0⟩ := hmk
  obtain ⟨m2, h2, hm⟩ := matches_seq_inv hm
  obtain ⟨w2, _, hw2, hr2, hc2⟩ := matches_plus_char_inv h2
  obtain ⟨m3, h3, hm⟩ := matches_seq_inv hm
  obtain ⟨t1, hg3, e3⟩ := matches_group_inv h3
  obtain ⟨w3, _, hr3, hc3⟩ := matches_star_char_inv hg3
  obtain ⟨e4, hend⟩ := matches_eol_inv hm
  subst e4
  subst e3
  subst e1
  simp only at hr2 hc2 hend
  have hs_eq : s = mk ++ w2 ++ (w3 ++ t1.rest) := by
    rw [hmk_eq, hr2, hr3, List.append_assoc]
  have hnil : t1.rest = [] := by
    rcases hend with hnil | ⟨c, cs, hc, hlt⟩
    · exact hnil
    · have : c ∈ s := by rw [hs_eq, hc]; simp
      rw [hs c this] at hlt
      exact absurd hlt (by simp)
  refine ⟨hnil, mk, w2, w3, by rw [hs_eq, hnil, List.append_nil], hmk_star, ?_, ?_⟩
  · intro hmem
    exact isSpace_ne_star (hw2 _ hmem) rfl
  · simp only [hc3, hc2, hcaps0, hr3, hnil, List.append_nil, List.length_nil, Nat.sub_zero,
      List.take_length, hmk_eq, take_length_sub]
    rfl

theorem exec_some_ne_nil {s : Str} {st : MState} {r : Regex} {n : Nat}
    {P : Char → Prop} (hn : r.Needs P) (h : exec r n none s = some st) : s ≠ [] := by
  intro hs
  subst hs
  rw [exec_none_of_needs hn n none (by simp)] at h
  exact absurd h (by simp)

theorem ruleUnordered_oneBold (s : Str) (hs : SingleLine s) (hb : OneBold s) :
    SingleLine (ruleUnordered s) ∧ OneBold (ruleUnordered s) := by
  cases h : exec unorderedRegex 1 none s with
  | none =>
    have e : ruleUnordered s = s := replaceAll_anchored _ 1 _ _ hs h
    rw [e]
    exact ⟨hs, hb⟩
  | some st =>
    obtain ⟨hrest, w1, m, w2, rest, hseq, hw1, hm, hne, hw2, hcaps⟩ := unordered_shape s hs st h
    have hne' : s ≠ [] := exec_some_ne_nil unorderedRegex_needs h
    have e : ruleUnordered s = [BULLET, ' '] ++ rest := by
      have h' := replaceAll_whole _ 1 (fun _ caps => [BULLET, ' '] ++ cap caps 1) s st hne' hs
        h hrest
      rw [show ruleUnordered s = _ from h', hcaps]
      rfl
    obtain ⟨a, b, hab, ha, hbs⟩ := hb
    have hw1s : '*' ∉ w1 := fun hmem => isSpace_ne_star (hw1 _ hmem) rfl
    have hw2s : '*' ∉ w2 := fun hmem => isSpace_ne_star (hw2 _ hmem) rfl
    have hmd : m = '-' := by
      rcases hm with hm | hm
      · exact hm
      · exfalso
        subst hm
        have heq : w1 ++ '*' :: (w2 ++ rest) = a ++ '*' :: ('*' :: b) := by rw [← hseq, hab]
        obtain ⟨_, h2⟩ := first_star_unique _ _ _ _ heq hw1s ha
        cases w2 with
        | nil => exact hne rfl
        | cons c w2' =>
          simp only [List.cons_append, List.cons.injEq] at h2
          exact hw2s (by rw [h2.1]; simp)
    subst hmd
    have hpre : '*' ∉ w1 ++ '-' :: w2 := by
      intro hmem
      rcases List.mem_append.1 hmem with hmem | hmem
      · exact hw1s hmem
      · rcases List.mem_cons.1 hmem with hmem | hmem
        · exact absurd hmem (by decide)
        · exact hw2s hmem
    have heq : (w1 ++ '-' :: w2) ++ rest = a ++ '*' :: ('*' :: b) := by
      rw [← hab, hseq]; simp
    obtain ⟨a', _, hr⟩ := split_star_free _ _ _ _ heq hpre
    rw [e]
    refine ⟨?_, BULLET :: ' ' :: a', b, by rw [hr]; rfl, ?_, hbs⟩
    · intro c hc
      rcases List.mem_append.1 hc with hc | hc
      · have hbs : SingleLine [BULLET, ' '] := by unfold SingleLine; decide
        exact hbs c hc
      · exact hs c (by rw [hseq]; simp [hc])
    · intro hmem
      have : '*' ∈ a' := by
        simpa [show ¬ '*' = BULLET by decide] using hmem
      have hmem2 : '*' ∈ (w1 ++ '-' :: w2) ++ a' := List.mem_append_right _ this
      rename_i hsplit
      rw [← hsplit] at hmem2
      exact ha hmem2

theorem ruleOrdered_singleLine (s : Str) (hs : SingleLine s) : ruleOrdered s = s := by
  cases h : exec orderedRegex 2 none s with
  | none => exact replaceAll_anchored _ 2 _ _ hs h
  | some st =>
    obtain ⟨hrest, hcap⟩ := ordered_shape s hs st h
    have hne' : s ≠ [] := exec_some_ne_nil orderedRegex_needs h
    have h' := replaceAll_whole _ 2 (fun _ caps => cap caps 1 ++ cap caps 2) s st hne' hs
      h hrest
    rw [show ruleOrdered s = _ from h']
    exact hcap

theorem not_star_of_inert {s : Str} (h : Inert s) : '*' ∉ s := fun hm => (h _ hm).2.1 rfl

theorem ruleListItem_oneBold (s : Str) (hs : SingleLine s) (hb : OneBold s) :
    OneBold (ruleListItem s) := by
  cases h : exec listItemRegex 2 none s with
  | none =>
    have e : ruleListItem s = s := replaceAll_anchored _ 2 _ _ hs h
    rw [e]
    exact hb
  | some st =>
    obtain ⟨hrest, mk, ws, rest, hseq, hmk, hws, hcaps⟩ := listItem_shape s hs st h
    have hne' : s ≠ [] := exec_some_ne_nil listItemRegex_needs h
    have e : ruleListItem s = listRowOpen ++ mk ++ listRowMid ++ rest ++ listRowClose := by
      have h' := replaceAll_whole _ 2
        (fun _ caps => listRowOpen ++ cap caps 1 ++ listRowMid ++ cap caps 2 ++ listRowClose)
        s st hne' hs h hrest
      rw [show ruleListItem s = _ from h', hcaps]
      rfl
    obtain ⟨a, b, hab, ha, hbs⟩ := hb
    have hpre : '*' ∉ mk ++ ws := by
      intro hmem
      rcases List.mem_append.1 hmem with hmem | hmem
      · exact hmk hmem
      · exact hws hmem
    have heq : (mk ++ ws) ++ rest = a ++ '*' :: ('*' :: b) := by rw [← hab, hseq]
    obtain ⟨a', hsplit, hr⟩ := split_star_free _ _ _ _ heq hpre
    have ha' : '*' ∉ a' := fun hmem => ha (by rw [hsplit]; exact List.mem_append_right _ hmem)
    rw [e, hr]
    refine ⟨listRowOpen ++ mk ++ listRowMid ++ a', b ++ listRowClose, by simp, ?_, ?_⟩
    · intro hmem
      rcases List.mem_append.1 hmem with hmem | hmem
      · rcases List.mem_append.1 hmem with hmem | hmem
        · rcases List.mem_append.1 hmem with hmem | hmem
          · exact not_star_of_inert inert_listRowOpen hmem
          · exact hmk hmem
        · exact not_star_of_inert inert_listRowMid hmem
      · exact ha' hmem
    · intro hmem
      rcases List.mem_append.1 hmem with hmem | hmem
      · exact hbs hmem
      · exact not_star_of_inert inert_listRowClose hmem

theorem count_star_oneBold (a b : Str) (ha : '*' ∉ a) (hb : '*' ∉ b) :
    List.count '*' (a ++ '*' :: '*' :: b) = 2 := by
  simp [List.count_append, List.count_cons, List.count_eq_zero_of_not_mem ha,
    List.count_eq_zero_of_not_mem hb]

theorem bold_match_count {s t : MState} (h : Matches boldRegex s t) :
    4 ≤ List.count '*' s.rest := by
  simp only [boldRegex, seqs_cons_cons, seqs_singleton] at h
  obtain ⟨m1, h1, h⟩ := matches_seq_inv h
  obtain ⟨cs1, hs1, e1⟩ := matches_chr_inv h1
  subst e1
  obtain ⟨m2, h2, h⟩ := matches_seq_inv h
  obtain ⟨cs2, hs2, e2⟩ := matches_chr_inv h2
  subst e2
  obtain ⟨m3, h3, h⟩ := matches_seq_inv h
  obtain ⟨t0, hg, e3⟩ := matches_group_inv h3
  obtain ⟨w, _, hw, _⟩ := matches_star_char_inv hg
  subst e3
  obtain ⟨m4, h4, h⟩ := matches_seq_inv h
  obtain ⟨cs4, hs4, e4⟩ := matches_chr_inv h4
  subst e4
  obtain ⟨cs5, hs5, _⟩ := matches_chr_inv h
  simp only at hs2 hw hs4 hs5
  rw [hs1, hs2, hw, hs4, hs5]
  simp only [List.count_cons_self, List.count_append]
  omega

theorem ruleBold_oneBold (s : Str) (hb : OneBold s) : ruleBold s = s := by
  obtain ⟨a, b, hab, ha, hbs⟩ := hb
  apply replaceGo_noMatch
  intro pre zs hpz
  cases h : exec boldRegex 1 (adv none pre) zs with
  | none => rfl
  | some st =>
    exfalso
    have h4 := bold_match_count (exec_sound h)
    have hle : List.count '*' zs ≤ List.count '*' s := by
      rw [hpz, List.count_append]
      omega
    rw [hab, count_star_oneBold a b ha hbs] at hle
    simp only at h4
    omega

theorem exec_italic_pair (pv : Option Char) (b : Str) :
    exec italicRegex 1 pv ('*' :: '*' :: b) = some ⟨some '*', b, [[]]⟩ := by
  simp only [exec, italicRegex, seqs_cons_cons, seqs_singleton, run_seq, run_group, Regex.dot,
    Regex.chr, run_char_cons, beq_self_eq_true, if_true]
  rw [run_star_char_cons]
  simp [show isLineTerminator '*' = false by decide]

theorem ruleItalic_oneBold (a b : Str) (ha : '*' ∉ a) (hb : '*' ∉ b) :
    ruleItalic (a ++ '*' :: '*' :: b) = a ++ "<em></em>".toList ++ b := by
  have h1 := replaceGo_append_noMatch italicRegex 1
    (fun _ caps => "<em>".toList ++ cap caps 1 ++ "</em>".toList) a ('*' :: '*' :: b) none
    (by
      intro pre zs hpz hz
      cases zs with
      | nil => exact absurd rfl hz
      | cons c zs' =>
        have hc : ¬ c = '*' := fun hc => ha (by rw [hpz, hc]; simp)
        simp [exec, italicRegex, Regex.chr, hc])
  have h2 := replaceGo_match italicRegex 1
    (fun _ caps => "<em>".toList ++ cap caps 1 ++ "</em>".toList) (adv none a) ['*', '*'] b _
    (by simp) (exec_italic_pair (adv none a) b) rfl
  have h3 : replaceGo italicRegex 1
      (fun _ caps => "<em>".toList ++ cap caps 1 ++ "</em>".toList)
      (adv (adv none a) ['*', '*']) b 0 = b := by
    apply replaceGo_noMatch
    intro pre zs hpz
    apply exec_none_of_needs italicRegex_needs
    intro c hc heq
    exact hb (by rw [hpz, ← heq]; simp [hc])
  unfold ruleItalic replaceAll
  rw [h1]
  simp only [List.cons_append, List.nil_append] at h2
  rw [h2, h3]
  simp [cap]

/-- Rules 7 to 10 add no asterisk. -/
theorem tail_rules_no_star (x : Str) (hx : '*' ∉ x) :
    '*' ∉ wrap (ruleParagraph (ruleH1 (ruleH2 (ruleH3 (ruleCode x))))) := by
  have key : ∀ (r : Regex) (n : Nat) (pre post : Str), '*' ∉ pre → '*' ∉ post →
      ∀ y : Str, '*' ∉ y →
        '*' ∉ replaceAll r n (fun _ caps => pre ++ cap caps 1 ++ post) y := by
    intro r n pre post hpre hpost y hy hmem
    refine replaceGo_avoids (fun c => c = '*') r n _ ?_ y none 0
      (fun c hc heq => hy (heq ▸ hc)) '*' hmem rfl
    intro m caps hcaps c hc heq
    subst heq
    rcases List.mem_append.1 hc with hc | hc
    · rcases List.mem_append.1 hc with hc | hc
      · exact hpre hc
      · obtain ⟨z, hz, hcz⟩ := cap_mem hc
        exact hcaps z hz _ hcz rfl
    · exact hpost hc
  have h1 := key codeRegex 1 "<code class=\"font-mono text-gray-300\">".toList "</code>".toList
    (by decide) (by decide) x hx
  have h2 := key h3Regex 1 h3Open "</h3>".toList (by decide) (by decide) _ h1
  have h3 := key h2Regex 1 h2Open "</h2>".toList (by decide) (by decide) _ h2
  have h4 := key h1Regex 1 h1Open "</h1>".toList (by decide) (by decide) _ h3
  have h5 : '*' ∉ ruleParagraph (ruleH1 (ruleH2 (ruleH3 (ruleCode x)))) := by
    intro hmem
    refine replaceGo_avoids (fun c => c = '*') paragraphRegex 0 _ ?_ _ none 0
      (fun c hc heq => h4 (heq ▸ hc)) '*' hmem rfl
    intro m caps _ c hc heq
    subst heq
    exact absurd hc (by decide)
  unfold wrap
  split
  · exact h5
  · intro hmem
    rcases List.mem_append.1 hmem with hmem | hmem
    · rcases List.mem_append.1 hmem with hmem | hmem
      · exact absurd hmem (by decide)
      · exact h5 hmem
    · exact absurd hmem (by decide)

/-! ## Reading a table -/

theorem reaches_seq_assoc {a b c : Regex} {s m t : MState} (h1 : Reaches (.seq a b) s m)
    (h2 : Reaches c m t) : Reaches (.seq a (.seq b c)) s t := by
  intro k out hk
  have := h1 (c.run k) out (h2 k out hk)
  simpa using this

/-- A greedy repetition does whatever it does after the longest run. -/
theorem run_star_greedy_prefix (p : Char → Bool) (k : Cont) (caps : List Str) (xs ys : Str)
    (out : MState) (hxs : ∀ c ∈ xs, p c = true) :
    ∀ pv, (Regex.star true (.char p)).run k ⟨adv pv xs, ys, caps⟩ = some out →
      (Regex.star true (.char p)).run k ⟨pv, xs ++ ys, caps⟩ = some out := by
  induction xs with
  | nil => intro pv h; exact h
  | cons x xs ih =>
    intro pv h
    have hx : p x = true := hxs x (by simp)
    rw [List.cons_append, run_star_char_cons]
    simp only [hx, if_true]
    rw [ih (fun c hc => hxs c (List.mem_cons_of_mem _ hc)) (some x) (by simpa using h)]
    rfl

theorem isLineTerminator_pipe : isLineTerminator '|' = false := by decide

/-- The tail `.*\|\n` of a table line: the greedy `.*` gives the last pipe back. -/
theorem reaches_line_tail (pv : Option Char) (inner rest : Str) (caps : List Str)
    (hin : SingleLine inner) :
    Reaches (.seq (.star true .dot) (.seq (.chr '|') (.chr LF)))
      ⟨pv, inner ++ '|' :: LF :: rest, caps⟩ ⟨some LF, rest, caps⟩ := by
  intro k out hk
  rw [run_seq]
  apply run_star_greedy_prefix _ _ _ inner _ _ (fun c hc => by simp [hin c hc])
  rw [run_star_char_cons, run_star_char_cons]
  simp [Regex.chr, isLineTerminator_pipe, LF_isLineTerminator,
    show ¬ LF = '|' by decide, hk]

/-- The head `(.+)\|` of the header line. -/
theorem reaches_header (pv : Option Char) (x : Char) (xs rest : Str) (caps : List Str)
    (hin : SingleLine (x :: xs)) :
    Reaches (.seq (.group 1 (Regex.plus .dot)) (.chr '|'))
      ⟨pv, x :: (xs ++ '|' :: LF :: rest), caps⟩
      ⟨some '|', LF :: rest, caps.set 0 (x :: xs)⟩ := by
  intro k out hk
  have hx : isLineTerminator x = false := hin x (by simp)
  rw [run_seq, run_group]
  simp only [Regex.plus, Regex.dot, run_seq, run_char_cons, hx, Bool.not_false, if_true]
  apply run_star_greedy_prefix _ _ _ xs _ _
    (fun c hc => by simp [hin c (List.mem_cons_of_mem _ hc)])
  rw [run_star_char_cons, run_star_char_cons]
  have htake : (x :: (xs ++ '|' :: LF :: rest)).take
      ((x :: (xs ++ '|' :: LF :: rest)).length - ('|' :: LF :: rest).length) = x :: xs := by
    have := take_length_sub (x :: xs) ('|' :: LF :: rest)
    simpa using this
  simp only [isLineTerminator_pipe, LF_isLineTerminator, Bool.not_false, Bool.not_true,
    if_true, Bool.false_eq_true, if_false, Regex.chr, run_char_cons,
    show (LF == '|') = false by decide, first_none_left, beq_self_eq_true, htake]
  exact hk

/-- One more round of a greedy repetition. -/
theorem reaches_star_step {r : Regex} {s m t : MState} (h1 : Reaches r s m)
    (hlt : m.rest.length < s.rest.length) (h2 : Reaches (.star true r) m t) :
    Reaches (.star true r) s t := by
  intro k out hk
  rw [run_star]
  simp only [if_true]
  rw [h1 _ out (by simp only [hlt, if_true]; exact h2 k out hk)]
  rfl

/-- A greedy repetition stops where its body cannot match. -/
theorem reaches_star_stop {r : Regex} {s : MState} (h : ∀ k, r.run k s = none) :
    Reaches (.star true r) s s := by
  intro k out hk
  rw [run_star]
  simp only [if_true, h, first_none_left]
  exact hk

theorem tableRegex_eq :
    tableRegex = .seq (.chr '|') (.seq (.group 1 (Regex.plus .dot)) (.seq (.chr '|')
      (.seq (.chr LF) (.seq (.chr '|') (.seq (Regex.plus sepCellRegex)
        (.seq (.chr LF) (.group 2 (Regex.plus rowRegex)))))))) := rfl

theorem joinWith_cons_cons (sep : Char) (x y : Str) (xs : List Str) :
    joinWith sep (x :: y :: xs) = x ++ sep :: joinWith sep (y :: xs) := rfl

theorem joinWith_append_sep (sep : Char) (xs : List Str) (z : Str) (h : xs ≠ []) :
    joinWith sep xs ++ sep :: z = join (xs.map (fun x => x ++ [sep])) ++ z := by
  induction xs with
  | nil => exact absurd rfl h
  | cons x xs ih =>
    cases xs with
    | nil => simp [joinWith, join]
    | cons y ys =>
      rw [joinWith_cons_cons]
      have := ih (by simp)
      simp only [List.map_cons, join, List.foldr_cons, List.append_assoc, List.cons_append,
        List.nil_append] at this ⊢
      rw [this]

theorem reaches_sepCell (pv : Option Char) (x : Char) (xs ys : Str) (caps : List Str)
    (hx : x = '-' ∨ x = ':') (hxs : ∀ c ∈ xs, c = '-' ∨ c = ':') :
    Reaches sepCellRegex ⟨pv, x :: (xs ++ '|' :: ys), caps⟩ ⟨some '|', ys, caps⟩ := by
  refine reaches_seq (reaches_plus_greedy _ caps x xs ('|' :: ys) ?_ ?_ ?_ pv)
    (reaches_chr _ _ _ _)
  · rcases hx with h | h <;> simp [h]
  · intro c hc
    rcases hxs c hc with h | h <;> simp [h]
  · simp

theorem reaches_seps_star (rest : Str) (caps : List Str) :
    ∀ ss : List Str, (∀ s ∈ ss, s ≠ [] ∧ ∀ c ∈ s, c = '-' ∨ c = ':') →
      Reaches (.star true sepCellRegex)
        ⟨some '|', join (ss.map (fun x => x ++ ['|'])) ++ LF :: rest, caps⟩
        ⟨some '|', LF :: rest, caps⟩ := by
  intro ss
  induction ss with
  | nil =>
    intro _
    apply reaches_star_stop
    intro k
    simp [sepCellRegex, Regex.plus, join, show ¬ LF = '-' by decide, show ¬ LF = ':' by decide]
  | cons s ss ih =>
    intro h
    obtain ⟨hne, hs⟩ := h s (by simp)
    cases s with
    | nil => exact absurd rfl hne
    | cons x xs =>
      have e : join (List.map (fun x => x ++ ['|']) ((x :: xs) :: ss)) ++ LF :: rest
          = x :: (xs ++ '|' :: (join (ss.map (fun x => x ++ ['|'])) ++ LF :: rest)) := by
        simp [join]
      rw [e]
      refine reaches_star_step (reaches_sepCell _ x xs _ caps (hs x (by simp))
        (fun c hc => hs c (List.mem_cons_of_mem _ hc))) ?_
        (ih (fun s hs' => h s (List.mem_cons_of_mem _ hs')))
      simp only [List.length_cons, List.length_append]
      omega

theorem reaches_row (pv : Option Char) (inner rest : Str) (caps : List Str)
    (hin : SingleLine inner) :
    Reaches rowRegex ⟨pv, '|' :: (inner ++ '|' :: LF :: rest), caps⟩ ⟨some LF, rest, caps⟩ :=
  reaches_seq (reaches_chr _ _ _ _) (reaches_line_tail _ inner rest caps hin)

theorem tableLine_append (cells : List Str) (rest : Str) :
    tableLine cells ++ rest = '|' :: (joinWith '|' cells ++ '|' :: LF :: rest) := by
  simp [tableLine]

theorem reaches_rows_star (caps : List Str) :
    ∀ (rows : List (List Str)) (pv : Option Char),
      (∀ r ∈ rows, SingleLine (joinWith '|' r)) →
      ∃ pv', Reaches (.star true rowRegex) ⟨pv, join (rows.map tableLine), caps⟩
        ⟨pv', [], caps⟩ := by
  intro rows
  induction rows with
  | nil =>
    intro pv _
    refine ⟨pv, reaches_star_stop ?_⟩
    intro k
    simp [rowRegex, join, Regex.chr]
  | cons r rows ih =>
    intro pv h
    obtain ⟨pv', hrest⟩ := ih (some LF) (fun r' hr' => h r' (List.mem_cons_of_mem _ hr'))
    refine ⟨pv', ?_⟩
    have e : join (List.map tableLine (r :: rows))
        = '|' :: (joinWith '|' r ++ '|' :: LF :: join (rows.map tableLine)) := by
      rw [← tableLine_append]
      simp [join]
    rw [e]
    refine reaches_star_step (reaches_row pv _ _ caps (h r (by simp))) ?_ hrest
    simp only [List.length_cons, List.length_append]
    omega

theorem exec_table (hs seps : List Str) (rows : List (List Str))
    (hinner : joinWith '|' hs ≠ []) (hsl : SingleLine (joinWith '|' hs))
    (hseps : seps ≠ []) (hsep : ∀ s ∈ seps, s ≠ [] ∧ ∀ c ∈ s, c = '-' ∨ c = ':')
    (hrows : rows ≠ []) (hrow : ∀ r ∈ rows, SingleLine (joinWith '|' r)) :
    ∃ pv', exec tableRegex 2 none (tableText hs seps rows)
      = some ⟨pv', [], [joinWith '|' hs, join (rows.map tableLine)]⟩ := by
  cases hi : joinWith '|' hs with
  | nil => exact absurd hi hinner
  | cons x xs =>
    cases seps with
    | nil => exact absurd rfl hseps
    | cons s ss =>
      obtain ⟨hsne, hsd⟩ := hsep s (by simp)
      cases s with
      | nil => exact absurd rfl hsne
      | cons y ys =>
        cases rows with
        | nil => exact absurd rfl hrows
        | cons r rs =>
          obtain ⟨pv', hstar⟩ := reaches_rows_star
            (([[], []] : List Str).set 0 (x :: xs)) rs (some LF)
            (fun r' hr' => hrow r' (List.mem_cons_of_mem _ hr'))
          refine ⟨pv', ?_⟩
          have etext : tableText hs ((y :: ys) :: ss) (r :: rs)
              = '|' :: (x :: (xs ++ '|' :: LF :: ('|' :: (y :: (ys ++ '|' ::
                  (join (ss.map (fun x => x ++ ['|'])) ++ LF ::
                    join ((r :: rs).map tableLine))))))) := by
            unfold tableText
            rw [List.append_assoc, tableLine_append ((y :: ys) :: ss), tableLine_append hs, hi]
            have := joinWith_append_sep '|' ((y :: ys) :: ss)
              (LF :: join ((r :: rs).map tableLine)) (by simp)
            rw [this]
            simp [join]
          have erows : join ((r :: rs).map tableLine)
              = '|' :: (joinWith '|' r ++ '|' :: LF :: join (rs.map tableLine)) := by
            rw [← tableLine_append]
            simp [join]
          rw [etext, tableRegex_eq]
          apply exec_of_reaches
          rw [hi] at hsl
          refine reaches_seq (reaches_chr _ _ _ _) (reaches_seq_assoc
            (reaches_header _ x xs _ _ hsl) (reaches_seq (reaches_chr _ _ _ _)
            (reaches_seq (reaches_chr _ _ _ _) (reaches_seq
              (reaches_seq (reaches_sepCell _ y ys _ _ (hsd y (by simp))
                (fun c hc => hsd c (List.mem_cons_of_mem _ hc)))
                (reaches_seps_star _ _ ss (fun s' hs' => hsep s' (List.mem_cons_of_mem _ hs'))))
              (reaches_seq (reaches_chr _ _ _ _) ?_)))))
          have hg := @reaches_group 2 (Regex.plus rowRegex) (some LF) pv'
            (join ((r :: rs).map tableLine)) []
            (([[], []] : List Str).set 0 (x :: xs)) (([[], []] : List Str).set 0 (x :: xs))
            (join ((r :: rs).map tableLine)) (by simp)
            (by
              rw [erows]
              exact reaches_seq (reaches_row _ _ _ _ (hrow r (by simp))) hstar)
          exact hg

/-! ## Splitting the captured header and rows -/

theorem split_ne_nil (sep : Char) (s : Str) : split sep s ≠ [] := by
  induction s with
  | nil => simp [split]
  | cons c cs ih =>
    unfold split
    split
    · simp
    · split <;> simp

theorem split_no_sep (sep : Char) (x : Str) (h : sep ∉ x) : split sep x = [x] := by
  induction x with
  | nil => rfl
  | cons c cs ih =>
    have hc : ¬ c = sep := fun hc => h (by simp [hc])
    have ih' := ih (fun hm => h (List.mem_cons_of_mem _ hm))
    simp [split, hc, ih']

theorem split_append_sep (sep : Char) (x z : Str) (h : sep ∉ x) :
    split sep (x ++ sep :: z) = x :: split sep z := by
  induction x with
  | nil => simp [split]
  | cons c cs ih =>
    have hc : ¬ c = sep := fun hc => h (by simp [hc])
    have ih' := ih (fun hm => h (List.mem_cons_of_mem _ hm))
    simp [split, hc, ih']

theorem split_joinWith (sep : Char) (xs : List Str) (hne : xs ≠ [])
    (h : ∀ x ∈ xs, sep ∉ x) : split sep (joinWith sep xs) = xs := by
  induction xs with
  | nil => exact absurd rfl hne
  | cons x xs ih =>
    cases xs with
    | nil => exact split_no_sep sep x (h x (by simp))
    | cons y ys =>
      rw [joinWith_cons_cons, split_append_sep sep x _ (h x (by simp)),
        ih (by simp) (fun x' hx' => h x' (List.mem_cons_of_mem _ hx'))]

theorem split_joinWith_sep (sep : Char) (xs : List Str) (hne : xs ≠ [])
    (h : ∀ x ∈ xs, sep ∉ x) : split sep (joinWith sep xs ++ [sep]) = xs ++ [[]] := by
  induction xs with
  | nil => exact absurd rfl hne
  | cons x xs ih =>
    cases xs with
    | nil =>
      show split sep (x ++ [sep]) = [x] ++ [[]]
      rw [split_append_sep sep x [] (h x (by simp))]
      rfl
    | cons y ys =>
      rw [joinWith_cons_cons, List.append_assoc, List.cons_append,
        split_append_sep sep x _ (h x (by simp)),
        ih (by simp) (fun x' hx' => h x' (List.mem_cons_of_mem _ hx'))]
      rfl

theorem headers_joinWith (hs : List Str) (hne : hs ≠ [])
    (h : ∀ x ∈ hs, '|' ∉ x ∧ trim x ≠ []) : headers (joinWith '|' hs) = hs.map trim := by
  unfold headers
  rw [split_joinWith '|' hs hne (fun x hx => (h x hx).1)]
  apply List.filter_eq_self.2
  intro y hy
  obtain ⟨x, hx, rfl⟩ := List.mem_map.1 hy
  exact (truthy_iff _).2 (h x hx).2

/-- A data line without its line feed. -/
theorem tableLine_eq (cells : List Str) :
    tableLine cells = ('|' :: joinWith '|' cells ++ ['|']) ++ [LF] := by
  simp [tableLine]

theorem isSpace_LF : isSpace LF = true := by decide

theorem isSpace_pipe : isSpace '|' = false := by decide

theorem trim_pipes (y : Str) : trim ('|' :: y ++ ['|', LF]) = '|' :: y ++ ['|'] := by
  simp [trim, isSpace_pipe, isSpace_LF, List.dropWhile]

theorem joinWith_lines_shape (rows : List (List Str)) (hne : rows ≠ []) :
    ∃ y, joinWith LF (rows.map (fun r => '|' :: joinWith '|' r ++ ['|'])) = '|' :: y ++ ['|'] := by
  induction rows with
  | nil => exact absurd rfl hne
  | cons r rows ih =>
    cases rows with
    | nil => exact ⟨joinWith '|' r, rfl⟩
    | cons r' rs =>
      obtain ⟨y, hy⟩ := ih (by simp)
      refine ⟨joinWith '|' r ++ ['|'] ++ LF :: '|' :: y, ?_⟩
      simp only [List.map_cons] at hy ⊢
      rw [joinWith_cons_cons, hy]
      simp

theorem rowsText_eq (rows : List (List Str)) (hne : rows ≠ []) :
    join (rows.map tableLine)
      = joinWith LF (rows.map (fun r => '|' :: joinWith '|' r ++ ['|'])) ++ [LF] := by
  have h := joinWith_append_sep LF (rows.map (fun r => '|' :: joinWith '|' r ++ ['|'])) []
    (by simpa using hne)
  rw [h, List.append_nil, List.map_map]
  congr 1
  apply List.map_congr_left
  intro r _
  simp [tableLine]

theorem trim_rowsText (rows : List (List Str)) (hne : rows ≠ []) :
    trim (join (rows.map tableLine))
      = joinWith LF (rows.map (fun r => '|' :: joinWith '|' r ++ ['|'])) := by
  obtain ⟨y, hy⟩ := joinWith_lines_shape rows hne
  rw [rowsText_eq rows hne, hy]
  have := trim_pipes y
  simpa using this

theorem filterIdx_drop (c : Nat) {α : Type} :
    ∀ (l : List α) (k : Nat), c + 1 ≤ k →
      filterIdx (fun i => decide (i > 0) && decide (i < c + 1)) k l = [] := by
  intro l
  induction l with
  | nil => intro k _; rfl
  | cons x xs ih =>
    intro k hk
    have : ¬ k < c + 1 := by omega
    simp [filterIdx, this, ih (k + 1) (by omega)]

theorem filterIdx_keep (c : Nat) {α : Type} (zs : List α) :
    ∀ (l : List α) (k : Nat), 0 < k → k + l.length = c + 1 →
      filterIdx (fun i => decide (i > 0) && decide (i < c + 1)) k (l ++ zs) = l := by
  intro l
  induction l with
  | nil =>
    intro k _ hk
    simp only [List.length_nil, Nat.add_zero] at hk
    exact filterIdx_drop c zs k (by omega)
  | cons x xs ih =>
    intro k hk0 hk
    simp only [List.length_cons] at hk
    have h1 : k < c + 1 := by omega
    simp [filterIdx, hk0, h1, ih (k + 1) (by omega) (by omega)]

theorem trim_nil : trim [] = [] := rfl

theorem singleLine_joinWith (xs : List Str) (hx : ∀ x ∈ xs, SingleLine x) :
    SingleLine (joinWith '|' xs) := by
  induction xs with
  | nil => intro c hc; simp [joinWith] at hc
  | cons x xs ih =>
    cases xs with
    | nil => exact hx x (by simp)
    | cons y ys =>
      rw [joinWith_cons_cons]
      exact (hx x (by simp)).append (SingleLine.cons isLineTerminator_pipe
        (ih (fun x' hx' => hx x' (List.mem_cons_of_mem _ hx'))))

theorem rowData_rows (hs : List Str) (rows : List (List Str)) (hne : rows ≠ [])
    (h : ∀ r ∈ rows, r ≠ [] ∧ r.length = hs.length ∧ ∀ x ∈ r, '|' ∉ x ∧ SingleLine x) :
    rowData hs (join (rows.map tableLine)) = rows.map (List.map trim) := by
  unfold rowData
  rw [trim_rowsText rows hne, split_joinWith LF _ (by simpa using hne)]
  · rw [List.map_map]
    apply List.map_congr_left
    intro r hr
    obtain ⟨hrne, hlen, hcells⟩ := h r hr
    simp only [Function.comp_apply]
    have hsplit : split '|' ('|' :: joinWith '|' r ++ ['|']) = [] :: (r ++ [[]]) := by
      have := split_joinWith_sep '|' r hrne (fun x hx => (hcells x hx).1)
      simp [split, this]
    rw [hsplit]
    simp only [List.map_cons, List.map_append, List.map_nil, trim_nil, filterIdx,
      Nat.lt_irrefl, gt_iff_lt, decide_False, Bool.false_and, Bool.false_eq_true, if_false,
      Nat.zero_add]
    exact filterIdx_keep hs.length [[]] (r.map trim) 1 (by omega) (by simp [hlen]; omega)
  · intro l hl
    obtain ⟨r, hr, rfl⟩ := List.mem_map.1 hl
    obtain ⟨_, _, hcells⟩ := h r hr
    intro hmem
    have hmem' : LF ∈ joinWith '|' r := by
      simpa [show ¬ LF = '|' by decide] using hmem
    exact (singleLine_joinWith r (fun x hx => (hcells x hx).2)).not_LF LF hmem' rfl

/-! ## The table markup as lines -/

theorem join_nil : join [] = [] := rfl

theorem join_cons (x : Str) (xs : List Str) : join (x :: xs) = x ++ join xs := rfl

theorem join_append (xs ys : List Str) : join (xs ++ ys) = join xs ++ join ys := by
  induction xs with
  | nil => rfl
  | cons x xs ih => simp [join_cons, ih]

theorem unl_nil : unl [] = [] := rfl

theorem unl_cons (l : Str) (ls : List Str) : unl (l :: ls) = LF :: (l ++ unl ls) := rfl

theorem unl_append (xs ys : List Str) : unl (xs ++ ys) = unl xs ++ unl ys := by
  unfold unl
  rw [List.map_append, join_append]

theorem bodyRow_eq (row : List Str) : bodyRow row = unl (rowLines row) := by
  simp only [bodyRow, rowLines, unl_cons, unl_nil, List.append_assoc, List.cons_append,
    List.nil_append, List.append_nil]

theorem join_bodyRow (rs : List (List Str)) :
    join (rs.map bodyRow) = unl (rs.map rowLines).flatten := by
  induction rs with
  | nil => rfl
  | cons r rs ih =>
    rw [List.map_cons, join_cons, List.map_cons, List.flatten_cons, unl_append, ih, bodyRow_eq]

theorem tableMarkup_eq (hs : List Str) (rs : List (List Str)) :
    tableMarkup hs rs = unl (markupLines hs rs) := by
  unfold markupLines
  rw [unl_append, unl_append, tableMarkup, join_bodyRow]
  simp only [unl_cons, unl_nil, List.append_assoc, List.cons_append, List.nil_append,
    List.append_nil]

/-! ## Positions at the start of a line of markup -/

theorem sp_succ (n : Nat) : sp (n + 1) = ' ' :: sp n := rfl

theorem singleLine_sp (n : Nat) : SingleLine (sp n) := by
  intro c hc
  have : c = ' ' := List.eq_of_mem_replicate hc
  rw [this]
  decide

theorem markupLine_singleLine {l : Str} (h : MarkupLine l) : SingleLine l := by
  obtain ⟨n, body, rfl, hb, _⟩ := h
  exact (singleLine_sp _).append hb.singleLine

theorem markupLine_cons {l : Str} (h : MarkupLine l) : ∃ tl, l = ' ' :: tl := by
  obtain ⟨n, body, rfl, _, _⟩ := h
  exact ⟨sp n ++ body, by rw [sp_succ]; rfl⟩

theorem dropWhile_sp (n : Nat) (s : Str) :
    (sp n ++ s).dropWhile isSpace = s.dropWhile isSpace := by
  induction n with
  | zero => rfl
  | succ n ih =>
    rw [sp_succ, List.cons_append, List.dropWhile_cons]
    simp [isSpace_space, ih]

theorem good_nil : Good [] := by
  intro c hc
  simp at hc

theorem good_LF_cons {s : Str} (h : Good s) : Good (LF :: s) := by
  unfold Good at h ⊢
  rw [List.dropWhile_cons]
  simpa [isSpace_LF] using h

theorem good_line {l rest : Str} (hl : MarkupLine l) (h : Good rest) : Good (l ++ rest) := by
  obtain ⟨n, body, rfl, _, hhead⟩ := hl
  unfold Good
  rw [List.append_assoc, dropWhile_sp]
  cases body with
  | nil => exact h
  | cons b bs =>
    have hb : b = '<' := hhead b (by simp)
    subst hb
    rw [List.cons_append, List.dropWhile_cons]
    simp [show isSpace '<' = false by decide]

theorem good_unl (L : List Str) (hL : ∀ l ∈ L, MarkupLine l) : Good (unl L) := by
  induction L with
  | nil => exact good_nil
  | cons l L ih =>
    rw [unl_cons]
    exact good_LF_cons (good_line (hL l (by simp))
      (ih (fun x hx => hL x (List.mem_cons_of_mem _ hx))))

/-- A position of `unl L` at which `^` holds is the very start or the start
of one of the lines. -/
theorem unl_bol_position (L : List Str) :
    ∀ (prev : Option Char) (pre zs : Str), (∀ l ∈ L, MarkupLine l) → unl L = pre ++ zs →
      (adv prev pre = none ∨ ∃ d, adv prev pre = some d ∧ isLineTerminator d = true) →
      pre = [] ∨ ∃ l L', MarkupLine l ∧ (∀ x ∈ L', MarkupLine x) ∧ zs = l ++ unl L' := by
  induction L with
  | nil =>
    intro prev pre zs _ h _
    rw [unl_nil] at h
    left
    exact (List.append_eq_nil.1 h.symm).1
  | cons l L ih =>
    intro prev pre zs hL h hbol
    have hl : MarkupLine l := hL l (by simp)
    have hL' : ∀ x ∈ L, MarkupLine x := fun x hx => hL x (List.mem_cons_of_mem _ hx)
    cases pre with
    | nil => left; rfl
    | cons p pre' =>
      right
      rw [unl_cons] at h
      simp only [List.cons_append, List.cons.injEq] at h
      obtain ⟨hp, h⟩ := h
      subst hp
      rw [adv_cons] at hbol
      have hnot : ∀ (w : Str), w ≠ [] → (∀ c ∈ w, isLineTerminator c = false) →
          ∀ pv, ¬ (adv pv w = none ∨ ∃ d, adv pv w = some d ∧ isLineTerminator d = true) := by
        intro w hw hwl pv hcon
        obtain ⟨c, hc, hadv⟩ := adv_eq_some_of_ne_nil pv w hw
        rcases hcon with hcon | ⟨d, hd, hlt⟩
        · rw [hadv] at hcon; exact absurd hcon (by simp)
        · rw [hadv] at hd
          cases hd
          rw [hwl c hc] at hlt
          exact absurd hlt (by simp)
      rcases List.append_eq_append_iff.1 h with ⟨a', hpre, hrest⟩ | ⟨c', hl_eq, hzs⟩
      · -- the position lies beyond line `l`
        by_cases ha : a' = []
        · subst ha
          exfalso
          rw [List.append_nil] at hpre
          rw [hpre] at hbol
          obtain ⟨tl, htl⟩ := markupLine_cons hl
          exact hnot l (by rw [htl]; simp) (markupLine_singleLine hl) _ hbol
        · rw [hpre, adv_append] at hbol
          rcases ih (adv (some LF) l) a' zs hL' hrest hbol with h0 | h1
          · exact absurd h0 ha
          · exact h1
      · -- the position lies inside line `l`
        by_cases hp' : pre' = []
        · subst hp'
          rw [List.nil_append] at hl_eq
          subst hl_eq
          exact ⟨l, L, hl, hL', hzs⟩
        · exfalso
          refine hnot pre' hp' ?_ _ hbol
          intro c hc
          exact markupLine_singleLine hl c (by rw [hl_eq]; simp [hc])

/-- At a position of `unl L` where `^` holds, the first character that is not
whitespace, if any, opens a tag. -/
theorem unl_bol_good (L : List Str) (hL : ∀ l ∈ L, MarkupLine l) (pre zs : Str)
    (h : unl L = pre ++ zs)
    (hbol : adv none pre = none ∨ ∃ d, adv none pre = some d ∧ isLineTerminator d = true) :
    Good zs := by
  rcases unl_bol_position L none pre zs hL h hbol with h0 | ⟨l, L', hl, hL', hzs⟩
  · subst h0
    rw [List.nil_append] at h
    rw [← h]
    exact good_unl L hL
  · rw [hzs]
    exact good_line hl (good_unl L' hL')

theorem matches_bol_cond {s t : MState} (h : Matches .bol s t) :
    s.prev = none ∨ ∃ c, s.prev = some c ∧ isLineTerminator c = true := by
  cases h with
  | bol _ hc => exact hc

theorem matches_starts {q : Char → Prop} {r : Regex} {s t : MState} (h : Matches r s t) :
    r.Starts q → ∃ c cs, s.rest = c :: cs ∧ q c := by
  induction h with
  | eps st => intro hn; exact absurd hn (by simp [Regex.Starts])
  | char p pv c cs caps hp => intro hn; exact ⟨c, cs, rfl, hn c hp⟩
  | bol st _ => intro hn; exact absurd hn (by simp [Regex.Starts])
  | eol st _ => intro hn; exact absurd hn (by simp [Regex.Starts])
  | seq _ _ ih1 _ => intro hn; exact ih1 hn
  | altL _ _ ih => intro hn; exact ih hn.1
  | altR _ _ ih => intro hn; exact ih hn.2
  | starNil g r st => intro hn; exact absurd hn (by simp [Regex.Starts])
  | starCons _ _ _ _ => intro hn; exact absurd hn (by simp [Regex.Starts])
  | group i _ ih => intro hn; exact ih hn

/-- An anchored pattern whose first character is neither whitespace nor `<`
matches nowhere in lines of markup. -/
theorem replaceAll_unl_starts (r : Regex) (n : Nat) (repl : Str → List Str → Str)
    (q : Char → Prop) (hq : ∀ c, q c → isSpace c = false ∧ c ≠ '<') (hr : r.Starts q)
    (L : List Str) (hL : ∀ l ∈ L, MarkupLine l) :
    replaceAll (.seq .bol r) n repl (unl L) = unl L := by
  apply replaceGo_noMatch
  intro pre zs hpz
  cases h : exec (.seq .bol r) n (adv none pre) zs with
  | none => rfl
  | some st =>
    exfalso
    obtain ⟨m, hb, hm⟩ := matches_seq_inv (exec_sound h)
    have hcond := matches_bol_cond hb
    have e := matches_bol_inv hb
    subst e
    obtain ⟨c, cs, hzs, hqc⟩ := matches_starts hm hr
    simp only at hzs hcond
    have hgood := unl_bol_good L hL pre zs hpz hcond
    unfold Good at hgood
    rw [hzs, List.dropWhile_cons] at hgood
    simp only [(hq c hqc).1, Bool.false_eq_true, if_false] at hgood
    exact (hq c hqc).2 (hgood c (by simp))

theorem dropWhile_all (p : Char → Bool) (w s : Str) (hw : ∀ c ∈ w, p c = true) :
    (w ++ s).dropWhile p = s.dropWhile p := by
  induction w with
  | nil => rfl
  | cons x w ih =>
    rw [List.cons_append, List.dropWhile_cons]
    simp [hw x (by simp), ih (fun c hc => hw c (List.mem_cons_of_mem _ hc))]

theorem ruleUnordered_unl (L : List Str) (hL : ∀ l ∈ L, MarkupLine l) :
    ruleUnordered (unl L) = unl L := by
  apply replaceGo_noMatch
  intro pre zs hpz
  cases h : exec unorderedRegex 1 (adv none pre) zs with
  | none => rfl
  | some st =>
    exfalso
    have hm := exec_sound h
    simp only [unorderedRegex, seqs_cons_cons, seqs_singleton] at hm
    obtain ⟨m0, hb, hm⟩ := matches_seq_inv hm
    have hcond := matches_bol_cond hb
    have e := matches_bol_inv hb
    subst e
    obtain ⟨m1, h1, hm⟩ := matches_seq_inv hm
    obtain ⟨w1, hw1, hr1, _⟩ := matches_star_char_inv h1
    obtain ⟨m2, h2, _⟩ := matches_seq_inv hm
    obtain ⟨c, cs, hs2, hp2, _⟩ := matches_char_inv h2
    simp only at hr1 hcond
    have hgood := unl_bol_good L hL pre zs hpz hcond
    have hc : c = '-' ∨ c = '*' := by simpa using hp2
    have hsp : isSpace c = false := by
      rcases hc with hc | hc <;> subst hc <;> decide
    unfold Good at hgood
    rw [hr1, hs2, dropWhile_all isSpace w1 _ hw1, List.dropWhile_cons] at hgood
    simp only [hsp, Bool.false_eq_true, if_false] at hgood
    have := hgood c (by simp)
    rcases hc with hc | hc <;> subst hc <;> exact absurd this (by decide)

theorem ruleOrdered_unl (L : List Str) (hL : ∀ l ∈ L, MarkupLine l) :
    ruleOrdered (unl L) = unl L := by
  show replaceAll (.seq .bol _) 2 _ _ = _
  apply replaceAll_unl_starts _ _ _ (fun c => isDigit c = true) _ _ L hL
  · intro c hc
    exact ⟨isDigit_not_space hc, isDigit_ne hc (by decide)⟩
  · simp [Regex.Starts, Regex.plus]

theorem ruleListItem_unl (L : List Str) (hL : ∀ l ∈ L, MarkupLine l) :
    ruleListItem (unl L) = unl L := by
  show replaceAll (.seq .bol _) 2 _ _ = _
  apply replaceAll_unl_starts _ _ _ (fun c => c = BULLET ∨ isDigit c = true) _ _ L hL
  · intro c hc
    rcases hc with hc | hc
    · subst hc
      exact ⟨by decide, by decide⟩
    · exact ⟨isDigit_not_space hc, isDigit_ne hc (by decide)⟩
  · simp only [seqs_cons_cons, seqs_singleton, Regex.Starts, Regex.plus, Regex.chr]
    refine ⟨?_, ?_⟩
    · intro c hc
      exact Or.inl (by simpa using hc)
    · intro c hc
      exact Or.inr hc

theorem hash_starts (c : Char) (hc : c = '#') : isSpace c = false ∧ c ≠ '<' := by
  subst hc
  exact ⟨by decide, by decide⟩

theorem ruleH3_unl (L : List Str) (hL : ∀ l ∈ L, MarkupLine l) : ruleH3 (unl L) = unl L := by
  show replaceAll (.seq .bol _) 1 _ _ = _
  apply replaceAll_unl_starts _ _ _ (fun c => c = '#') hash_starts _ L hL
  simp [Regex.Starts, Regex.chr]

theorem ruleH2_unl (L : List Str) (hL : ∀ l ∈ L, MarkupLine l) : ruleH2 (unl L) = unl L := by
  show replaceAll (.seq .bol _) 1 _ _ = _
  apply replaceAll_unl_starts _ _ _ (fun c => c = '#') hash_starts _ L hL
  simp [Regex.Starts, Regex.chr]

theorem ruleH1_unl (L : List Str) (hL : ∀ l ∈ L, MarkupLine l) : ruleH1 (unl L) = unl L := by
  show replaceAll (.seq .bol _) 1 _ _ = _
  apply replaceAll_unl_starts _ _ _ (fun c => c = '#') hash_starts _ L hL
  simp [Regex.Starts, Regex.chr]

theorem ruleParagraph_unl (L : List Str) (hL : ∀ l ∈ L, MarkupLine l) :
    ruleParagraph (unl L) = unl L := by
  apply replaceGo_noMatch
  intro pre zs hpz
  cases h : exec paragraphRegex 0 (adv none pre) zs with
  | none => rfl
  | some st =>
    exfalso
    obtain ⟨m, h1, h2⟩ := matches_seq_inv (exec_sound h)
    obtain ⟨cs1, hs1, e1⟩ := matches_chr_inv h1
    subst e1
    obtain ⟨cs2, hs2, _⟩ := matches_chr_inv h2
    simp only at hs1 hs2
    have hpz' : unl L = (pre ++ [LF]) ++ (LF :: cs2) := by
      rw [hpz, hs1, hs2]; simp
    have hbol : adv none (pre ++ [LF]) = none
        ∨ ∃ d, adv none (pre ++ [LF]) = some d ∧ isLineTerminator d = true := by
      right
      exact ⟨LF, by rw [adv_append]; rfl, LF_isLineTerminator⟩
    rcases unl_bol_position L none _ _ hL hpz' hbol with h0 | ⟨l, L', hl, _, hzs⟩
    · simp at h0
    · obtain ⟨tl, htl⟩ := markupLine_cons hl
      rw [htl] at hzs
      simp only [List.cons_append, List.cons.injEq] at hzs
      exact absurd hzs.1 (by decide)

theorem mem_unl {c : Char} {L : List Str} (h : c ∈ unl L) : c = LF ∨ ∃ l ∈ L, c ∈ l := by
  induction L with
  | nil => simp [unl_nil] at h
  | cons l L ih =>
    rw [unl_cons] at h
    rcases List.mem_cons.1 h with h | h
    · exact Or.inl h
    · rcases List.mem_append.1 h with h | h
      · exact Or.inr ⟨l, by simp, h⟩
      · rcases ih h with h | ⟨l', hl', hc⟩
        · exact Or.inl h
        · exact Or.inr ⟨l', List.mem_cons_of_mem _ hl', hc⟩

theorem markupLine_no_star_bt {l : Str} (h : MarkupLine l) : ∀ c ∈ l, c ≠ '*' ∧ c ≠ BT := by
  obtain ⟨n, body, rfl, hb, _⟩ := h
  intro c hc
  rcases List.mem_append.1 hc with hc | hc
  · have : c = ' ' := List.eq_of_mem_replicate hc
    subst this
    exact ⟨by decide, by decide⟩
  · exact (hb c hc).2

/-- Rules 2 to 10 on lines of markup: nothing matches, and the text is wrapped
because it begins with a line feed. -/
theorem rules_after_table (L : List Str) (hne : L ≠ []) (hL : ∀ l ∈ L, MarkupLine l) :
    wrap (ruleParagraph (ruleH1 (ruleH2 (ruleH3 (ruleCode (ruleItalic (ruleBold
      (ruleListItem (ruleOrdered (ruleUnordered (unl L))))))))))) = pOpen ++ unl L ++ pClose := by
  have hstar : ∀ c ∈ unl L, ¬ c = '*' := by
    intro c hc heq
    subst heq
    rcases mem_unl hc with h | ⟨l, hl, hcl⟩
    · exact absurd h (by decide)
    · exact (markupLine_no_star_bt (hL l hl) _ hcl).1 rfl
  have hbt : ∀ c ∈ unl L, ¬ c = BT := by
    intro c hc heq
    subst heq
    rcases mem_unl hc with h | ⟨l, hl, hcl⟩
    · exact absurd h (by decide)
    · exact (markupLine_no_star_bt (hL l hl) _ hcl).2 rfl
  rw [ruleUnordered_unl L hL, ruleOrdered_unl L hL, ruleListItem_unl L hL, ruleBold_id hstar,
    ruleItalic_id hstar, ruleCode_id hbt, ruleH3_unl L hL, ruleH2_unl L hL, ruleH1_unl L hL,
    ruleParagraph_unl L hL]
  cases L with
  | nil => exact absurd rfl hne
  | cons l L =>
    rw [unl_cons]
    simp [wrap, startsWith, show ¬ '<' = LF by decide]

/-! ## The table rule on a well-formed table -/

theorem mem_trim {c : Char} {x : Str} (h : c ∈ trim x) : c ∈ x := by
  unfold trim at h
  rw [List.mem_reverse] at h
  have h1 := (List.dropWhile_suffix isSpace).subset h
  rw [List.mem_reverse] at h1
  exact (List.dropWhile_suffix isSpace).subset h1

theorem inert_trim {x : Str} (h : Inert x) : Inert (trim x) := fun c hc => h c (mem_trim hc)

theorem inert_join_map (f : Str → Str) (xs : List Str) (h : ∀ x ∈ xs, Inert (f x)) :
    Inert (join (xs.map f)) := by
  induction xs with
  | nil => intro c hc; simp [join] at hc
  | cons x xs ih =>
    rw [List.map_cons, join_cons]
    exact (h x (by simp)).concat (ih (fun y hy => h y (List.mem_cons_of_mem _ hy)))

theorem inert_thCell {h : Str} (hh : Inert h) : Inert (thCell h) :=
  ((show Inert "<th class=\"px-4 py-2 text-left border-b border-gray-600\">".toList by
    unfold Inert; decide).concat hh).concat (by unfold Inert; decide)

theorem inert_tdCell {h : Str} (hh : Inert h) : Inert (tdCell h) :=
  ((show Inert "<td class=\"px-4 py-2\">".toList by unfold Inert; decide).concat hh).concat
    (by unfold Inert; decide)

theorem head_join_thCell (xs : List Str) : ∀ c ∈ (join (xs.map thCell)).head?, c = '<' := by
  cases xs with
  | nil => intro c hc; simp [join] at hc
  | cons x xs =>
    intro c hc
    have : (join ((x :: xs).map thCell)).head? = some '<' := rfl
    rw [this] at hc
    simpa using hc.symm

theorem head_join_tdCell (xs : List Str) : ∀ c ∈ (join (xs.map tdCell)).head?, c = '<' := by
  cases xs with
  | nil => intro c hc; simp [join] at hc
  | cons x xs =>
    intro c hc
    have : (join ((x :: xs).map tdCell)).head? = some '<' := rfl
    rw [this] at hc
    simpa using hc.symm

theorem markupLine_tag (n : Nat) (body : Str) (hb : Inert body)
    (hh : body.head? = some '<') : MarkupLine (sp (n + 1) ++ body) :=
  ⟨n, body, rfl, hb, fun c hc => by rw [hh] at hc; simpa using hc.symm⟩

theorem markupLine_blank (n : Nat) : MarkupLine (sp (n + 1)) :=
  ⟨n, [], (List.append_nil _).symm, fun c hc => by simp at hc, fun c hc => by simp at hc⟩

theorem rowLines_ok (r : List Str) (hr : ∀ c ∈ r, Inert c) : ∀ l ∈ rowLines r, MarkupLine l := by
  intro l hl
  simp only [rowLines, List.mem_cons, List.mem_singleton, List.not_mem_nil, or_false] at hl
  rcases hl with h | h | h | h
  · rw [h]; exact markupLine_tag 31 _ (by unfold Inert; decide) rfl
  · rw [h]
    exact ⟨35, _, rfl, inert_join_map tdCell r (fun x hx => inert_tdCell (hr x hx)),
      head_join_tdCell r⟩
  · rw [h]; exact markupLine_tag 31 _ (by unfold Inert; decide) rfl
  · rw [h]; exact markupLine_blank 27

theorem markupLines_ok (hs : List Str) (rs : List (List Str)) (hh : ∀ h ∈ hs, Inert h)
    (hr : ∀ r ∈ rs, ∀ c ∈ r, Inert c) : ∀ l ∈ markupLines hs rs, MarkupLine l := by
  intro l hl
  unfold markupLines at hl
  rcases List.mem_append.1 hl with hl | hl
  · rcases List.mem_append.1 hl with hl | hl
    · simp only [List.mem_cons, List.mem_singleton, List.not_mem_nil, or_false] at hl
      rcases hl with h | h | h | h | h | h | h | h | h
      · rw [h]; exact markupLine_tag 15 _ (by unfold Inert; decide) rfl
      · rw [h]; exact markupLine_tag 19 _ (by unfold Inert; decide) rfl
      · rw [h]; exact markupLine_tag 23 _ (by unfold Inert; decide) rfl
      · rw [h]; exact markupLine_tag 27 _ (by unfold Inert; decide) rfl
      · rw [h]
        exact ⟨31, _, rfl, inert_join_map thCell hs (fun x hx => inert_thCell (hh x hx)),
          head_join_thCell hs⟩
      · rw [h]; exact markupLine_tag 27 _ (by unfold Inert; decide) rfl
      · rw [h]; exact markupLine_tag 23 _ (by unfold Inert; decide) rfl
      · rw [h]; exact markupLine_tag 23 _ (by unfold Inert; decide) rfl
      · rw [h]; exact markupLine_blank 27
    · obtain ⟨ls, hls, hl'⟩ := List.mem_flatten.1 hl
      obtain ⟨r, hr', rfl⟩ := List.mem_map.1 hls
      exact rowLines_ok r (hr r hr') l hl'
  · simp only [List.mem_cons, List.mem_singleton, List.not_mem_nil, or_false] at hl
    rcases hl with h | h | h | h
    · rw [h]; exact markupLine_tag 23 _ (by unfold Inert; decide) rfl
    · rw [h]; exact markupLine_tag 19 _ (by unfold Inert; decide) rfl
    · rw [h]; exact markupLine_tag 15 _ (by unfold Inert; decide) rfl
    · rw [h]; exact markupLine_blank 11

theorem joinWith_ne_nil (x : Str) (xs : List Str) (hx : x ≠ []) :
    joinWith '|' (x :: xs) ≠ [] := by
  cases xs with
  | nil => exact hx
  | cons y ys =>
    rw [joinWith_cons_cons]
    simp

theorem trim_ne_nil {x : Str} (h : trim x ≠ []) : x ≠ [] := by
  intro hx
  subst hx
  exact h rfl

theorem ruleTable_table (hs seps : List Str) (rows : List (List Str))
    (hhs : hs ≠ []) (hcell : ∀ h ∈ hs, TableCell h ∧ trim h ≠ [])
    (hseps : seps ≠ []) (hsep : ∀ s ∈ seps, s ≠ [] ∧ ∀ c ∈ s, c = '-' ∨ c = ':')
    (hrows : rows ≠ []) (hrow : ∀ r ∈ rows, r.length = hs.length ∧ ∀ c ∈ r, TableCell c) :
    ruleTable (tableText hs seps rows)
      = tableMarkup (hs.map trim) (rows.map (List.map trim)) := by
  have hinner : joinWith '|' hs ≠ [] := by
    cases hs with
    | nil => exact absurd rfl hhs
    | cons h hs' => exact joinWith_ne_nil h hs' (trim_ne_nil (hcell h (by simp)).2)
  have hsl : SingleLine (joinWith '|' hs) :=
    singleLine_joinWith hs (fun x hx => (hcell x hx).1.2)
  have hrsl : ∀ r ∈ rows, SingleLine (joinWith '|' r) := fun r hr =>
    singleLine_joinWith r (fun x hx => ((hrow r hr).2 x hx).2)
  obtain ⟨pv', hexec⟩ := exec_table hs seps rows hinner hsl hseps hsep hrows hrsl
  have hne : tableText hs seps rows ≠ [] := by
    unfold tableText tableLine
    simp
  have hm := replaceGo_match tableRegex 2 tableReplacer none (tableText hs seps rows) [] _ hne
    (by simpa using hexec) rfl
  rw [replaceGo_nil _ _ _ _ _ (exec_none_of_needs tableRegex_needs 2 _ (by simp))] at hm
  simp only [List.append_nil] at hm
  unfold ruleTable replaceAll
  rw [hm]
  show tableMarkup (headers (joinWith '|' hs))
    (rowData (headers (joinWith '|' hs)) (join (rows.map tableLine))) = _
  rw [headers_joinWith hs hhs (fun x hx => ⟨(hcell x hx).1.1, (hcell x hx).2⟩),
    rowData_rows (hs.map trim) rows hrows]
  intro r hr
  obtain ⟨hlen, hc⟩ := hrow r hr
  refine ⟨?_, by simpa using hlen, fun x hx => ⟨(hc x hx).1, (hc x hx).2⟩⟩
  intro hnil
  subst hnil
  simp only [List.length_nil] at hlen
  exact hhs (List.length_eq_zero.1 hlen.symm)

theorem formatMarkdown_table (hs seps : List Str) (rows : List (List Str))
    (hhs : hs ≠ []) (hcell : ∀ h ∈ hs, TableCell h ∧ trim h ≠ [])
    (hseps : seps ≠ []) (hsep : ∀ s ∈ seps, s ≠ [] ∧ ∀ c ∈ s, c = '-' ∨ c = ':')
    (hrows : rows ≠ []) (hrow : ∀ r ∈ rows, r.length = hs.length ∧ ∀ c ∈ r, TableCell c)
    (hih : ∀ h ∈ hs, Inert h) (hir : ∀ r ∈ rows, ∀ c ∈ r, Inert c) :
    formatMarkdown (tableText hs seps rows)
      = pOpen ++ tableMarkup (hs.map trim) (rows.map (List.map trim)) ++ pClose := by
  have hL : ∀ l ∈ markupLines (hs.map trim) (rows.map (List.map trim)), MarkupLine l := by
    apply markupLines_ok
    · intro h hh
      obtain ⟨x, hx, rfl⟩ := List.mem_map.1 hh
      exact inert_trim (hih x hx)
    · intro r hr c hc
      obtain ⟨r0, hr0, rfl⟩ := List.mem_map.1 hr
      obtain ⟨x, hx, rfl⟩ := List.mem_map.1 hc
      exact inert_trim (hir r0 hr0 x hx)
  unfold formatMarkdown
  simp only []
  rw [ruleTable_table hs seps rows hhs hcell hseps hsep hrows hrow, tableMarkup_eq]
  exact rules_after_table _ (by simp [markupLines]) hL

/-! ## Claims about the request lifecycle -/

/-- C2, as the code has it: in every reachable state, an error message other
than the one for empty input comes with an empty output.  (The empty-input
guard sets its message and returns, leaving the output as it was.) -/
theorem error_other_than_empty_input_clears_output (apiKey : Option Str) (st : State)
    (h : Reachable apiKey st) (herr : st.error ≠ []) (hne : st.error ≠ emptyInputMessage) :
    st.output = [] :=
  (inv_reachable apiKey h).2.1 herr hne

/-- C2, witness: after a failed request the error is set, it is not the
empty-input message, and the output is empty. -/
theorem error_other_than_empty_input_clears_output_witness :
    (runEffects (handleExplain (some "key".toList) (.notOk (some "rate limited".toList))
        { initialState with textarea := some "x".toList })
        { initialState with textarea := some "x".toList }).error
        = "Error: rate limited. Please try again.".toList
      ∧ (runEffects (handleExplain (some "key".toList) (.notOk (some "rate limited".toList))
        { initialState with textarea := some "x".toList })
        { initialState with textarea := some "x".toList }).output = [] := by
  have h1 : Reachable (some "key".toList) { initialState with textarea := some "x".toList } :=
    .step .init (.edit _ _ rfl)
  have h2 := Reachable.step h1 (Step.explain _ rfl)
  have h3 := Reachable.step h2 (Step.settle _ (.notOk (some "rate limited".toList)) rfl)
  exact ⟨by decide,
    error_other_than_empty_input_clears_output _ _ h3 (by decide) (by decide)⟩

/-- C2, counterexample: a reachable state that shows the output of an earlier
request together with the empty-input error. -/
theorem stale_output_beside_error :
    Reachable (some "key".toList) staleState ∧ staleState.error ≠ [] ∧ staleState.output ≠ [] :=
  ⟨staleState_reachable, by decide, by decide⟩

/-- C3: for text that is empty after trimming, `handleExplain` only sets the
empty-input message: no network call, and the loading flag is neither set nor
changed. -/
theorem empty_input_takes_validation_path (apiKey : Option Str) (outcome : FetchOutcome)
    (st : State) (text : Str) (hempty : trim text = []) :
    handleExplain apiKey outcome { st with textarea := some text }
        = [.setError "Please enter some text to explain.".toList]
      ∧ issuesFetch (handleExplain apiKey outcome { st with textarea := some text }) = false
      ∧ (∀ b, Effect.setIsLoading b ∉
          handleExplain apiKey outcome { st with textarea := some text })
      ∧ (runEffects (handleExplain apiKey outcome { st with textarea := some text })
          { st with textarea := some text }).error = "Please enter some text to explain.".toList
      ∧ (runEffects (handleExplain apiKey outcome { st with textarea := some text })
          { st with textarea := some text }).isLoading = st.isLoading := by
  have h : handleExplain apiKey outcome { st with textarea := some text }
      = [.setError emptyInputMessage] := by
    unfold handleExplain
    rw [handleExplainStart_empty apiKey st text hempty]
    rfl
  rw [h]
  refine ⟨rfl, rfl, ?_, rfl, rfl⟩
  intro b hb
  simp at hb

/-- C3, witness: whitespace-only text. -/
theorem empty_input_takes_validation_path_witness :
    trim " \n\t ".toList = []
      ∧ handleExplain (some "key".toList) (.ok (some "hi".toList))
          { initialState with textarea := some " \n\t ".toList }
        = [.setError "Please enter some text to explain.".toList] :=
  ⟨by decide, (empty_input_takes_validation_path (some "key".toList) (.ok (some "hi".toList))
    initialState " \n\t ".toList (by decide)).1⟩

/-- C4: with valid input and a credential, a non-2xx answer whose body carries
the non-empty message `m` ends with an error message that contains `m`, an
empty output and the loading flag cleared. -/
theorem upstream_failure_reports_message (apiKey text m : Str) (st : State)
    (hkey : apiKey ≠ []) (htext : trim text ≠ []) (hm : m ≠ []) :
    (runEffects (handleExplain (some apiKey) (.notOk (some m)) { st with textarea := some text })
        { st with textarea := some text }).error
        = "Error: ".toList ++ m ++ ". Please try again.".toList
      ∧ m <:+: (runEffects (handleExplain (some apiKey) (.notOk (some m))
          { st with textarea := some text }) { st with textarea := some text }).error
      ∧ (runEffects (handleExplain (some apiKey) (.notOk (some m))
          { st with textarea := some text }) { st with textarea := some text }).output = []
      ∧ (runEffects (handleExplain (some apiKey) (.notOk (some m))
          { st with textarea := some text }) { st with textarea := some text }).isLoading
          = false := by
  have hm' : truthy m = true := (truthy_iff m).2 hm
  rw [handleExplain_valid apiKey text _ st hkey htext]
  simp only [handleExplainSettle, catchBlock, truthy?, hm', if_true, Option.getD_some,
    runEffects, applyEffect, List.foldl_cons, List.foldl_nil, List.cons_append, List.nil_append]
  exact ⟨trivial, ⟨"Error: ".toList, ". Please try again.".toList, rfl⟩, trivial, trivial⟩

/-- C4, witness: the message `rate limited`. -/
theorem upstream_failure_reports_message_witness :
    (runEffects (handleExplain (some "key".toList) (.notOk (some "rate limited".toList))
        { initialState with textarea := some "why?".toList })
        { initialState with textarea := some "why?".toList }).error
      = "Error: rate limited. Please try again.".toList :=
  (upstream_failure_reports_message "key".toList "why?".toList "rate limited".toList
    initialState (by decide) (by decide) (by decide)).1

/-- C5: for each of the five levels (ordinals 0 to 4: Child, Simple, Detailed,
Academic, Expert), with a credential and text that is non-empty after
trimming, `handleExplain` issues a request whose system message is the fixed
preamble followed by that level's prompt and whose user message is the trimmed
text. -/
theorem request_carries_level_prompt (apiKey text : Str) (L : Fin 5) (outcome : FetchOutcome)
    (st : State) (hkey : apiKey ≠ []) (htext : trim text ≠ []) :
    ∃ req, Effect.fetch req ∈
        handleExplain (some apiKey) outcome { st with level := L, textarea := some text }
      ∧ req.messages
          = [ { role := "system".toList, content := systemPreamble ++ (levelAt L).prompt },
              { role := "user".toList, content := trim text } ]
      ∧ (levelAt L).prompt <:+: systemPreamble ++ (levelAt L).prompt
      ∧ levels[L.val]? = some (levelAt L)
      ∧ (levelAt L).value = L.val
      ∧ levels.map Level.label
          = ["Child".toList, "Simple".toList, "Detailed".toList, "Academic".toList,
              "Expert".toList] := by
  refine ⟨buildRequest apiKey L (trim text), ?_, rfl, ⟨systemPreamble, [], by simp⟩, ?_, ?_,
    rfl⟩
  · rw [handleExplain_valid apiKey text outcome { st with level := L } hkey htext]
    simp
  · fin_cases L <;> rfl
  · fin_cases L <;> rfl

/-- C5, witness: level 0 (Child) with the text ` why? `. -/
theorem request_carries_level_prompt_witness :
    ∃ req, Effect.fetch req ∈
        handleExplain (some "key".toList) (.ok none)
          { initialState with level := 0, textarea := some " why? ".toList }
      ∧ req.messages
          = [ { role := "system".toList,
                content := ("You are a helpful AI assistant that explains complex topics in " ++
                  "simple terms. Explain this to me like I'm 5 years old. " ++
                  "Use simple words and concepts.").toList },
              { role := "user".toList, content := "why?".toList } ] := by
  obtain ⟨req, h1, h2, _⟩ := request_carries_level_prompt "key".toList " why? ".toList 0
    (.ok none) initialState (by decide) (by decide)
  exact ⟨req, h1, h2⟩

/-! ## Claims about the formatter -/

/-- C6: for single-line item text `t` without asterisk or grave accent that
does not start with whitespace, `- t` becomes a list row with the bullet in the
marker slot and `t` in the text slot, and `n. t`, for a non-empty digit string
`n`, becomes a list row with `n.` in the marker slot and `t` in the text slot. -/
theorem list_lines_become_list_rows (t : Str) (hstar : '*' ∉ t) (hbt : BT ∉ t)
    (hlt : SingleLine t) (hhead : ∀ c ∈ t.head?, isSpace c = false) :
    formatMarkdown ("- ".toList ++ t)
        = "<div class=\"flex items-start mb-1\"><span class=\"mr-2\">".toList ++ [BULLET]
            ++ "</span><span>".toList ++ t ++ "</span></div>".toList
      ∧ ∀ n : Str, n ≠ [] → (∀ c ∈ n, isDigit c = true) →
          formatMarkdown (n ++ ". ".toList ++ t)
            = "<div class=\"flex items-start mb-1\"><span class=\"mr-2\">".toList ++ (n ++ ['.'])
                ++ "</span><span>".toList ++ t ++ "</span></div>".toList := by
  refine ⟨formatMarkdown_bullet t hstar hbt hlt hhead, ?_⟩
  intro n hn hdig
  have := formatMarkdown_numbered n t hn hdig hstar hbt hlt hhead
  rw [List.append_assoc]
  exact this

/-- C6, witness: the lines `- item one` and `2. second`. -/
theorem list_lines_become_list_rows_witness :
    formatMarkdown "- item one".toList
        = ("<div class=\"flex items-start mb-1\"><span class=\"mr-2\">•</span>" ++
            "<span>item one</span></div>").toList
      ∧ formatMarkdown "2. second".toList
        = ("<div class=\"flex items-start mb-1\"><span class=\"mr-2\">2.</span>" ++
            "<span>second</span></div>").toList :=
  ⟨(list_lines_become_list_rows "item one".toList (by decide) (by decide)
      (by unfold SingleLine; decide) (by decide)).1,
   (list_lines_become_list_rows "second".toList (by decide) (by decide)
      (by unfold SingleLine; decide) (by decide)).2 "2".toList (by decide) (by decide)⟩

/-- C7: for text `t` without asterisk, grave accent or line terminator,
`**t**` is formatted to exactly `<strong>t</strong>`: the output contains that
markup and no asterisk, and the italic rule finds nothing left to match. -/
theorem bold_pair_becomes_strong (t : Str) (hstar : '*' ∉ t) (hbt : BT ∉ t)
    (hlt : SingleLine t) :
    formatMarkdown ("**".toList ++ t ++ "**".toList)
        = "<strong>".toList ++ t ++ "</strong>".toList
      ∧ ("<strong>".toList ++ t ++ "</strong>".toList)
          <:+: formatMarkdown ("**".toList ++ t ++ "**".toList)
      ∧ '*' ∉ formatMarkdown ("**".toList ++ t ++ "**".toList)
      ∧ ruleItalic (ruleBold ("**".toList ++ t ++ "**".toList))
          = ruleBold ("**".toList ++ t ++ "**".toList) := by
  have h : formatMarkdown ("**".toList ++ t ++ "**".toList)
      = "<strong>".toList ++ t ++ "</strong>".toList := formatMarkdown_bold t hstar hbt hlt
  have hb : ruleBold ("**".toList ++ t ++ "**".toList)
      = "<strong>".toList ++ t ++ "</strong>".toList := ruleBold_pair t hstar hlt
  have hno : ∀ c ∈ "<strong>".toList ++ t ++ "</strong>".toList, ¬ c = '*' := by
    intro c hc heq
    subst heq
    rcases List.mem_append.1 hc with h1 | h1
    · rcases List.mem_append.1 h1 with h2 | h2
      · exact absurd h2 (by decide)
      · exact hstar h2
    · exact absurd h1 (by decide)
  rw [h, hb]
  exact ⟨rfl, List.infix_refl _, fun hc => hno _ hc rfl, ruleItalic_id hno⟩

/-- C7, witness: `**bold**`. -/
theorem bold_pair_becomes_strong_witness :
    formatMarkdown "**bold**".toList = "<strong>bold</strong>".toList
      ∧ '*' ∉ formatMarkdown "**bold**".toList :=
  ⟨(bold_pair_becomes_strong "bold".toList (by decide) (by decide)
      (by unfold SingleLine; decide)).1,
   (bold_pair_becomes_strong "bold".toList (by decide) (by decide)
      (by unfold SingleLine; decide)).2.2.1⟩

/-- C8, as the code has it: for a single-line title `t` without asterisk or
grave accent, `# t` is formatted to `<h1 …>t</h1>` and `### t` to
`<h3 …>t</h3>`; the two differ, the `##` and `#` rules leave the `<h3>` markup
as it is, and `<h1` or `<h2` occurs in the output for `### t` only where it
occurs in `t` itself. -/
theorem headings_by_level (t : Str) (hstar : '*' ∉ t) (hbt : BT ∉ t) (hlt : SingleLine t) :
    formatMarkdown ("# ".toList ++ t)
        = "<h1 class=\"text-3xl font-bold mt-10 mb-4 text-blue-100\">".toList ++ t
            ++ "</h1>".toList
      ∧ formatMarkdown ("### ".toList ++ t)
        = "<h3 class=\"text-xl font-bold mt-6 mb-2 text-blue-300\">".toList ++ t
            ++ "</h3>".toList
      ∧ formatMarkdown ("# ".toList ++ t) ≠ formatMarkdown ("### ".toList ++ t)
      ∧ ruleH2 (ruleH3 ("### ".toList ++ t)) = ruleH3 ("### ".toList ++ t)
      ∧ ruleH1 (ruleH3 ("### ".toList ++ t)) = ruleH3 ("### ".toList ++ t)
      ∧ ("<h1".toList <:+: formatMarkdown ("### ".toList ++ t) → "<h1".toList <:+: t)
      ∧ ("<h2".toList <:+: formatMarkdown ("### ".toList ++ t) → "<h2".toList <:+: t) := by
  have h1 := formatMarkdown_h1 t hstar hbt hlt
  have h3 := formatMarkdown_h3 t hstar hbt hlt
  have hs : SingleLine ('#' :: '#' :: '#' :: ' ' :: t) :=
    SingleLine.cons (by decide) (SingleLine.cons (by decide) (SingleLine.cons (by decide)
      (SingleLine.cons (by decide) hlt)))
  have e3 : ruleH3 ("### ".toList ++ t) = h3Open ++ t ++ "</h3>".toList := by
    have h := replaceAll_whole _ 1
      (fun _ caps => h3Open ++ cap caps 1 ++ "</h3>".toList) _ _ (by simp) hs (exec_h3 t hlt) rfl
    exact h
  have hk := ruleH2_ruleH1_h3 t hlt
  refine ⟨h1, h3, ?_, ?_, ?_, ?_, ?_⟩
  · intro heq
    have h1' : formatMarkdown ("# ".toList ++ t) = h1Open ++ t ++ "</h1>".toList := h1
    have h3' : formatMarkdown ("### ".toList ++ t) = h3Open ++ t ++ "</h3>".toList := h3
    rw [h1', h3', h1Open_cons, h3Open_cons] at heq
    have e1 : h1Open.tail = 'h' :: '1' :: h1Open.tail.tail.tail := rfl
    have e2 : h3Open.tail = 'h' :: '3' :: h3Open.tail.tail.tail := rfl
    rw [e1, e2] at heq
    simp only [List.cons_append, List.cons.injEq] at heq
    exact absurd heq.2.2.1 (by decide)
  · rw [e3]; exact hk.1
  · rw [e3]; exact hk.2
  · intro h
    have h3' : formatMarkdown ("### ".toList ++ t) = h3Open ++ t ++ "</h3>".toList := h3
    rw [h3'] at h
    exact infix_h3_markup '1' (Or.inl rfl) t h
  · intro h
    have h3' : formatMarkdown ("### ".toList ++ t) = h3Open ++ t ++ "</h3>".toList := h3
    rw [h3'] at h
    exact infix_h3_markup '2' (Or.inr rfl) t h

/-- C8, witness: `# Title` and `### Sub`. -/
theorem headings_by_level_witness :
    formatMarkdown "# Title".toList
        = "<h1 class=\"text-3xl font-bold mt-10 mb-4 text-blue-100\">Title</h1>".toList
      ∧ formatMarkdown "### Sub".toList
        = "<h3 class=\"text-xl font-bold mt-6 mb-2 text-blue-300\">Sub</h3>".toList :=
  ⟨(headings_by_level "Title".toList (by decide) (by decide) (by unfold SingleLine; decide)).1,
   (headings_by_level "Sub".toList (by decide) (by decide)
      (by unfold SingleLine; decide)).2.1⟩

/-- C8, counterexample: the title `<h1>` has no asterisk, grave accent or line
terminator, yet the output for `### <h1>` contains `<h1`. -/
theorem h3_output_may_contain_h1 :
    '*' ∉ "<h1>".toList ∧ BT ∉ "<h1>".toList ∧ SingleLine "<h1>".toList
      ∧ "<h1".toList <:+: formatMarkdown "### <h1>".toList :=
  ⟨by decide, by decide, by unfold SingleLine; decide,
    ⟨"<h3 class=\"text-xl font-bold mt-6 mb-2 text-blue-300\">".toList, "></h3>".toList,
      by decide⟩⟩

/-- C10: text that none of rules 1 to 9 touches is wrapped in one paragraph
container; in particular the empty text gives the empty paragraph. -/
theorem plain_text_is_wrapped (t : Str) (hstar : '*' ∉ t) (hbt : BT ∉ t) (hhash : '#' ∉ t)
    (hpipe : '|' ∉ t) (hdash : '-' ∉ t) (hbul : BULLET ∉ t)
    (hdig : ∀ c ∈ t, isDigit c = false) (hlt : SingleLine t) (hhead : t.head? ≠ some '<') :
    formatMarkdown t = "<p class=\"my-3\">".toList ++ t ++ "</p>".toList
      ∧ formatMarkdown [] = "<p class=\"my-3\"></p>".toList :=
  ⟨formatMarkdown_plain_aux t hstar hbt hhash hpipe hdash hbul hdig hlt hhead, by decide⟩

/-- C10, witness: `Hello, world` and the empty text. -/
theorem plain_text_is_wrapped_witness :
    formatMarkdown "Hello, world".toList = "<p class=\"my-3\">Hello, world</p>".toList
      ∧ formatMarkdown "".toList = "<p class=\"my-3\"></p>".toList :=
  ⟨(plain_text_is_wrapped "Hello, world".toList (by decide) (by decide) (by decide) (by decide)
      (by decide) (by decide) (by decide) (by unfold SingleLine; decide) (by decide)).1,
   (plain_text_is_wrapped [] (by decide) (by decide) (by decide) (by decide)
      (by decide) (by decide) (by decide) (by unfold SingleLine; decide) (by decide)).1⟩

/-- Extent of the empty italic match: in single-line text where `**` occurs once
and no other asterisk occurs, the bold rule finds nothing to match, the italic
pattern `/\*(.*?)\*/` then takes the two adjacent asterisks as an emphasis with
an empty body, and no asterisk is left in the output of `formatMarkdown`. -/
theorem unclosed_bold_marker_is_consumed (a b : Str) (ha : '*' ∉ a) (hb : '*' ∉ b)
    (hla : SingleLine a) (hlb : SingleLine b) :
    '*' ∉ formatMarkdown (a ++ "**".toList ++ b)
      ∧ ¬ "**".toList <:+: formatMarkdown (a ++ "**".toList ++ b)
      ∧ ruleBold (ruleListItem (ruleOrdered (ruleUnordered (ruleTable (a ++ "**".toList ++ b)))))
          = ruleListItem (ruleOrdered (ruleUnordered (ruleTable (a ++ "**".toList ++ b))))
      ∧ ∃ a' b',
          ruleListItem (ruleOrdered (ruleUnordered (ruleTable (a ++ "**".toList ++ b))))
            = a' ++ "**".toList ++ b'
          ∧ ruleItalic (ruleBold (ruleListItem (ruleOrdered (ruleUnordered
              (ruleTable (a ++ "**".toList ++ b))))))
            = a' ++ "<em></em>".toList ++ b' := by
  have hs : SingleLine (a ++ "**".toList ++ b) :=
    (hla.append (by unfold SingleLine; decide)).append hlb
  have hone : OneBold (a ++ "**".toList ++ b) := ⟨a, b, by simp, ha, hb⟩
  have e1 : ruleTable (a ++ "**".toList ++ b) = a ++ "**".toList ++ b := ruleTable_id hs.not_LF
  obtain ⟨hs2, hone2⟩ := ruleUnordered_oneBold _ hs hone
  have e3 := ruleOrdered_singleLine _ hs2
  have hone4 := ruleListItem_oneBold _ hs2 hone2
  have e5 := ruleBold_oneBold _ hone4
  obtain ⟨a', b', hab, ha', hb'⟩ := hone4
  have e6 := ruleItalic_oneBold a' b' ha' hb'
  have hno : '*' ∉ a' ++ "<em></em>".toList ++ b' := by
    intro hmem
    rcases List.mem_append.1 hmem with hmem | hmem
    · rcases List.mem_append.1 hmem with hmem | hmem
      · exact ha' hmem
      · exact absurd hmem (by decide)
    · exact hb' hmem
  have hout : '*' ∉ formatMarkdown (a ++ "**".toList ++ b) := by
    unfold formatMarkdown
    simp only []
    rw [e1, e3, e5, hab, e6]
    exact tail_rules_no_star _ hno
  refine ⟨hout, ?_, ?_, a', b', ?_, ?_⟩
  · intro hinf
    exact hout (hinf.subset (by decide))
  · rw [e1, e3]; exact e5
  · rw [e1, e3, hab]; simp
  · rw [e1, e3, e5, hab]; exact e6

/-- The empty italic match at `see **note`. -/
theorem unclosed_bold_marker_is_consumed_witness :
    '*' ∉ formatMarkdown "see **note".toList :=
  (unclosed_bold_marker_is_consumed "see ".toList "note".toList (by decide) (by decide)
    (by unfold SingleLine; decide) (by unfold SingleLine; decide)).1

/-- The other unclosed markers stay visible: a lone asterisk and a lone or doubled
backquote come out unchanged inside the paragraph, the inline code pattern
asking for a body of at least one character. Inside running text the lone `**`
is deleted as well: `2 ** 3 = 8` comes out as `2 <em></em> 3 = 8`. -/
theorem unclosed_sibling_markers_stay_literal :
    formatMarkdown "*unclosed".toList = pOpen ++ "*unclosed".toList ++ pClose
      ∧ formatMarkdown (BT :: "unclosed".toList) = pOpen ++ BT :: "unclosed".toList ++ pClose
      ∧ formatMarkdown [BT, BT] = pOpen ++ [BT, BT] ++ pClose
      ∧ formatMarkdown "2 ** 3 = 8".toList
          = pOpen ++ "2 <em></em> 3 = 8".toList ++ pClose := by
  refine ⟨?_, ?_, ?_, ?_⟩ <;> decide

/-- C9, the code at the failing input: `**unclosed` is a single-line text that
holds `**` once and no other asterisk, so the claim promises a literal `**` in
the output. The code returns `<em></em>unclosed`: the italic rule has taken the
two asterisks as an emphasis with an empty body, and the output holds no `**`. -/
theorem unclosed_bold_marker_vanishes :
    formatMarkdown "**unclosed".toList = "<em></em>unclosed".toList
      ∧ ¬ "**".toList <:+: formatMarkdown "**unclosed".toList := by
  have h : formatMarkdown "**unclosed".toList = "<em></em>unclosed".toList := by decide
  refine ⟨h, ?_⟩
  rw [h]
  intro hinf
  exact absurd (hinf.subset (List.mem_cons_self _ _)) (by decide)

/-- C1, as the code has it: take a table whose lines begin and end with a pipe
and each end with a line feed, with `c ≥ 1` header cells that are non-empty
after trimming, a separator line of cells of dashes and colons, and `r ≥ 1`
data rows of `c` cells, every cell single-line text without pipe.  The table
rule emits the table template with exactly `c` header cells and `r` body rows
of `c` cells each, every value trimmed and otherwise verbatim; and when no cell
holds an asterisk or a grave accent, the later rules leave that markup alone
and `formatMarkdown` returns the paragraph container around it. -/
theorem piped_table_becomes_markup (hs seps : List Str) (rows : List (List Str))
    (hhs : hs ≠ []) (hcell : ∀ h ∈ hs, TableCell h ∧ trim h ≠ [])
    (hseps : seps ≠ []) (hsep : ∀ s ∈ seps, s ≠ [] ∧ ∀ c ∈ s, c = '-' ∨ c = ':')
    (hrows : rows ≠ []) (hrow : ∀ r ∈ rows, r.length = hs.length ∧ ∀ c ∈ r, TableCell c) :
    ruleTable (tableText hs seps rows)
        = tableMarkup (hs.map trim) (rows.map (List.map trim))
      ∧ (hs.map trim).length = hs.length
      ∧ (rows.map (List.map trim)).length = rows.length
      ∧ (∀ r ∈ rows.map (List.map trim), r.length = hs.length)
      ∧ ((∀ h ∈ hs, Inert h) → (∀ r ∈ rows, ∀ c ∈ r, Inert c) →
          formatMarkdown (tableText hs seps rows)
            = "<p class=\"my-3\">".toList
                ++ tableMarkup (hs.map trim) (rows.map (List.map trim)) ++ "</p>".toList) := by
  refine ⟨ruleTable_table hs seps rows hhs hcell hseps hsep hrows hrow, by simp, by simp, ?_,
    fun hih hir => formatMarkdown_table hs seps rows hhs hcell hseps hsep hrows hrow hih hir⟩
  intro r hr
  obtain ⟨r0, hr0, rfl⟩ := List.mem_map.1 hr
  simpa using (hrow r0 hr0).1

set_option maxRecDepth 100000

/-- C1, witness: the table `|A|B|`, `|-|-|`, `|1|2|`, `|3|4|`, every line ended
by a line feed, gives two `<th>` cells and two body rows of two `<td>` cells. -/
theorem piped_table_becomes_markup_witness :
    tableText ["A".toList, "B".toList] ["-".toList, "-".toList]
        [["1".toList, "2".toList], ["3".toList, "4".toList]]
        = "|A|B|\n|-|-|\n|1|2|\n|3|4|\n".toList
      ∧ formatMarkdown "|A|B|\n|-|-|\n|1|2|\n|3|4|\n".toList = twoByTwoMarkup
      ∧ countOcc "<th ".toList twoByTwoMarkup = 2
      ∧ countOcc "<tr class=\"border-b".toList twoByTwoMarkup = 2
      ∧ countOcc "<td ".toList twoByTwoMarkup = 4 := by
  have h := (piped_table_becomes_markup ["A".toList, "B".toList] ["-".toList, "-".toList]
    [["1".toList, "2".toList], ["3".toList, "4".toList]] (by decide)
    (by unfold TableCell SingleLine; decide) (by decide) (by decide) (by decide)
    (by unfold TableCell SingleLine; decide)).2.2.2.2 (by unfold Inert; decide)
    (by unfold Inert; decide)
  refine ⟨by decide, ?_, by decide, by decide, by decide⟩
  have e : tableText ["A".toList, "B".toList] ["-".toList, "-".toList]
      [["1".toList, "2".toList], ["3".toList, "4".toList]]
      = "|A|B|\n|-|-|\n|1|2|\n|3|4|\n".toList := by decide
  rw [e] at h
  rw [h]
  decide

/-- C1, counterexample: the lines `A|B`, `-|-`, `1|2`, `3|4`, without outer
pipes, are not recognised as a table; the text is only wrapped in a paragraph. -/
theorem unpiped_table_is_plain_text :
    formatMarkdown "A|B\n-|-\n1|2\n3|4".toList
        = "<p class=\"my-3\">A|B\n-|-\n1|2\n3|4</p>".toList
      ∧ countOcc "<th".toList (formatMarkdown "A|B\n-|-\n1|2\n3|4".toList) = 0
      ∧ countOcc "<td".toList (formatMarkdown "A|B\n-|-\n1|2\n3|4".toList) = 0 := by
  have h : formatMarkdown "A|B\n-|-\n1|2\n3|4".toList
      = "<p class=\"my-3\">A|B\n-|-\n1|2\n3|4</p>".toList := by decide
  rw [h]
  exact ⟨rfl, by decide, by decide⟩

end ExplainEngine
